import Mathlib

/-!
# Verification of the adev home-animation timeline engine

A shallow embedding of the CSS-value micro-language (lexer, parser,
stringifier), the per-variant interpolation algorithms, and the rule/timeline
engine (`Animation`), translated from the TypeScript sources:

* `css-value-lexer` (the `cssValueLexer` found in the repository sources),
* `css-value-parser.ts` (handler chain and fallback),
* `utils.ts` (`stringifyParsedValue`),
* `calc-css-value.ts` (`calculateNextCssValue`; both dialects present in the
  sources are embedded: the structured-color dialect in namespace `Interp`
  and the hex-string dialect, type-compatible with the parser above, inside
  namespace `Engine`),
* `animation-creator.service.ts` (`Animation`: `define`, `seek`, `forward`,
  `reset`, `_updateFrame`, `_setStyle`, `_removeStyle`, validation and
  object extraction) together with `stylesUnion` from `utils.ts`.

Modelling conventions:

* JavaScript numbers are modelled by `ℚ`.  Division by zero yields `0` in
  `ℚ` where JavaScript produces `NaN`; the spots where this can happen are
  marked in comments.  `Math.round` is `⌊q + 1/2⌋` (round half up), which
  matches JavaScript on all rationals.
* JavaScript objects and `Map`s are modelled by association lists with
  JS semantics: lookup finds the first matching key, assignment updates the
  first occurrence in place or appends, deletion removes the key,
  iteration follows list order (insertion order).
* Reads that are `undefined` in JavaScript (out-of-range index, missing
  key asserted with `!`) are modelled by explicit defaults; each such spot
  carries a comment.  String concatenation with `undefined` is modelled
  faithfully (it appends the string `"undefined"`).
* The DOM is abstracted: elements are naturals, a layer environment maps an
  element and a class name to the matching descendant elements
  (`getElementsByClassName`), and the renderer's style writes/removes act
  on a map keyed by element and property name.
-/

/-! ## Association-list primitives with JavaScript map/object semantics -/

/-- First-match lookup, as JS `Map.get` / property access. -/
def aGet {κ α : Type} [DecidableEq κ] (l : List (κ × α)) (k : κ) : Option α :=
  (l.find? (fun p => p.1 = k)).map Prod.snd

/-- Key membership, as JS `Map.has` / `in`. -/
def aHasKey {κ α : Type} [DecidableEq κ] (l : List (κ × α)) (k : κ) : Bool :=
  (aGet l k).isSome

/-- Assignment: update the first occurrence in place, else append
(JS `Map.set` / property assignment keeps the original insertion slot). -/
def aSet {κ α : Type} [DecidableEq κ] (l : List (κ × α)) (k : κ) (v : α) :
    List (κ × α) :=
  match l with
  | [] => [(k, v)]
  | (k', v') :: t => if k' = k then (k, v) :: t else (k', v') :: aSet t k v

/-- Deletion, as JS `Map.delete` / `delete obj[k]`. -/
def aDelete {κ α : Type} [DecidableEq κ] (l : List (κ × α)) (k : κ) :
    List (κ × α) :=
  l.filter (fun p => p.1 ≠ k)

/-- Key list in iteration order, as `Object.keys`. -/
def aKeys {κ α : Type} (l : List (κ × α)) : List κ := l.map Prod.fst

/-- Two-level lookup into a map of maps (`cache.get(sel)?.[prop]`). -/
def aGetA {κ₁ κ₂ α : Type} [DecidableEq κ₁] [DecidableEq κ₂]
    (l : List (κ₁ × List (κ₂ × α))) (k₁ : κ₁) (k₂ : κ₂) : Option α :=
  aGet ((aGet l k₁).getD []) k₂

/-- Spread merge `{...base, ...upd}`: every entry of `upd` is assigned over
`base`, overlapping keys keep their original slot with the new value. -/
def aMerge {κ α : Type} [DecidableEq κ] (base upd : List (κ × α)) :
    List (κ × α) :=
  upd.foldl (fun acc p => aSet acc p.1 p.2) base

/-! ## Kernel-computable rational arithmetic

The core `Rat` operations are `@[irreducible]`, so concrete runs of the
embedding could not be evaluated inside proofs with them.  The operations
below compute with `mkRat` (which evaluates) and are proved equal to the
standard operations, so symbolic proofs can switch to ordinary arithmetic
via the bridge lemmas. -/

def qAdd (a b : ℚ) : ℚ := mkRat (a.num * b.den + b.num * a.den) (a.den * b.den)

def qNeg (a : ℚ) : ℚ := mkRat (-a.num) a.den

def qSub (a b : ℚ) : ℚ := qAdd a (qNeg b)

def qMul (a b : ℚ) : ℚ := mkRat (a.num * b.num) (a.den * b.den)

def qInv (a : ℚ) : ℚ :=
  if 0 ≤ a.num then mkRat a.den a.num.natAbs
  else qNeg (mkRat a.den a.num.natAbs)

def qDiv (a b : ℚ) : ℚ := qMul a (qInv b)

def qAbs (a : ℚ) : ℚ := mkRat a.num.natAbs a.den

def qFloor (a : ℚ) : ℤ := a.num / (a.den : ℤ)

/-! ## JavaScript string and array helpers

Structural (kernel-computable) models of the string methods and the stable
`Array.sort` the engine uses. -/

/-- Whether the first list is a leading segment of the second. -/
def leadingMatch {α : Type} [DecidableEq α] : List α → List α → Bool
  | [], _ => true
  | _ :: _, [] => false
  | a :: as, b :: bs => decide (a = b) && leadingMatch as bs

/-- Fuel-driven split worker; the fuel is the input length, enough for a
non-empty separator. -/
def splitOnAuxFuel (sep : List Char) :
    ℕ → List Char → List Char → List (List Char)
  | 0, acc, _ => [acc.reverse]
  | _ + 1, acc, [] => [acc.reverse]
  | fuel + 1, acc, c :: rest =>
      if leadingMatch sep (c :: rest) then
        acc.reverse :: splitOnAuxFuel sep fuel [] ((c :: rest).drop sep.length)
      else splitOnAuxFuel sep fuel (c :: acc) rest

/-- `String.prototype.split` with a non-empty literal separator. -/
def jsSplitOn (s sep : String) : List String :=
  (splitOnAuxFuel sep.data (s.data.length + 1) [] s.data).map
    (fun l => String.mk l)

/-- `String.prototype.trim`, for the space-separated selectors the engine
handles (other whitespace is not modelled). -/
def jsTrim (s : String) : String :=
  String.mk (((s.data.dropWhile (fun c => c = ' ')).reverse.dropWhile
    (fun c => c = ' ')).reverse)

/-- Stable insertion into a sorted list: skip every element the comparator
puts no later than the inserted one, so equal keys keep their order. -/
def jsSortInsert {α : Type} (le : α → α → Bool) (a : α) : List α → List α
  | [] => [a]
  | b :: l => if le b a then b :: jsSortInsert le a l else a :: b :: l

/-- `Array.prototype.sort` with a numeric comparator: a stable ascending
sort, modelled by stable insertion sort. -/
def jsStableSort {α : Type} (le : α → α → Bool) : List α → List α
  | [] => []
  | a :: l => jsSortInsert le a (jsStableSort le l)

namespace Parsing

/-! ## Value lexer (`cssValueLexer`)

Translated from the `cssValueLexer` snapshot in the repository sources
(the one the claims cite).  Note that this version emits a token only at a
break symbol or at an incompatible buffer-type change; the buffer pending
when the input ends is never emitted. -/

/-- A lexer token: a number or a string fragment. -/
inductive Token where
  | num (value : ℚ)
  | str (value : String)
deriving DecidableEq, Repr

inductive CharType where
  | letter | digit | point | hash | percent | space | bracket | unknown
deriving DecidableEq, Repr

def getCharType (c : Char) : CharType :=
  if c = '.' then .point
  else if c = '%' then .percent
  else if c = '#' then .hash
  else if c = ' ' then .space
  else if c = '(' ∨ c = ')' then .bracket
  else
    let code := c.toNat
    if 48 ≤ code ∧ code ≤ 57 then .digit
    else if (65 ≤ code ∧ code ≤ 90) ∨ (97 ≤ code ∧ code ≤ 122) then .letter
    else .unknown

def BREAK_SYMBOLS : List CharType := [.space, .bracket]

inductive BufferType where
  | text | number
deriving DecidableEq, Repr

def getBufferType : CharType → Option BufferType
  | .letter => some .text
  | .percent => some .text
  | .hash => some .text
  | .digit => some .number
  | .point => some .number
  | _ => none

/-- `parseFloat` on a lexer buffer: longest prefix `digits [ '.' digits ]`.
JavaScript returns `NaN` when no digit is readable (e.g. buffer `"."`);
that case is modelled by `0` and is not exercised by any claim below. -/
def jsParseFloat (s : String) : ℚ :=
  let ds := s.data.takeWhile Char.isDigit
  let intPart : ℕ := ds.foldl (fun n c => n * 10 + (c.toNat - 48)) 0
  let rest := s.data.drop ds.length
  match rest with
  | '.' :: fs =>
      let fd := fs.takeWhile Char.isDigit
      let fracNum : ℕ := fd.foldl (fun n c => n * 10 + (c.toNat - 48)) 0
      qAdd (intPart : ℚ) (qDiv (fracNum : ℚ) (((10 : ℕ) ^ fd.length : ℕ) : ℚ))
  | _ => (intPart : ℚ)

/-- Lexer scan state: emitted tokens plus the pending buffer. -/
structure LexState where
  tokens : List Token
  buffer : String
  bufferType : Option BufferType
deriving DecidableEq, Repr

/-- The token `addToken` would push for the current buffer. -/
def tokenOfBuffer (st : LexState) : Token :=
  if st.bufferType = some .number then .num (jsParseFloat st.buffer)
  else .str st.buffer

/-- One character of the scan, translated clause for clause. -/
def lexStep (st : LexState) (c : Char) : LexState :=
  let charType := getCharType c
  let newBufferType := getBufferType charType
  if charType ∈ BREAK_SYMBOLS then
    { tokens := st.tokens ++ [tokenOfBuffer st], buffer := "", bufferType := none }
  else
    match newBufferType with
    | none => st
    | some nbt =>
        if st.bufferType ≠ some nbt ∧ st.bufferType ≠ none then
          { tokens := st.tokens ++ [tokenOfBuffer st],
            buffer := String.singleton c, bufferType := some nbt }
        else
          { st with buffer := st.buffer.push c, bufferType := some nbt }

/-- Full scan of the input; the final buffer stays pending. -/
def lexScan (value : String) : LexState :=
  value.data.foldl lexStep ⟨[], "", none⟩

/-- `cssValueLexer`: the emitted tokens of the scan.  The buffer pending at
the end of the input is discarded. -/
def cssValueLexer (value : String) : List Token :=
  (lexScan value).tokens

/-- The fragment still buffered when the scan of `value` ends, as the token
it would become. -/
def pendingToken (value : String) : Token :=
  tokenOfBuffer (lexScan value)

/-! ## Typed values and parser (`css-value-parser.ts`) -/

/-- `CssPropertyValue`: the tagged union of parsed CSS values.  The color
payload is the raw hex token, as produced by this parser. -/
inductive CssPropertyValue where
  | numeric (values : List (ℚ × String))
  | static (value : String)
  | color (value : String)
  | transform (values : List (String × List (ℚ × String)))
deriving DecidableEq, Repr

def SUPPORTED_FUNCS : List String :=
  ["translate", "rotate", "scale", "skew", "translateX", "translateY",
   "translateZ", "scaleX", "scaleY", "scaleZ", "skewX", "skewY"]

/-- Handler 1: a single string token is a color (leading `#`) or a static
value. -/
def staticAndColorValuesHandler (tokens : List Token) :
    Option CssPropertyValue :=
  match tokens with
  | [.str token] =>
      if token.data.headD ' ' = '#' then some (.color token)
      else some (.static token)
  | _ => none

/-- Pairing loop of the numeric handler: a (number, string) pair flushes the
two-element buffer; anything else keeps accumulating. -/
def numericPairLoop (tokens : List Token) (buffer : List Token)
    (acc : List (ℚ × String)) : List (ℚ × String) × List Token :=
  match tokens with
  | [] => (acc, buffer)
  | t :: rest =>
      let buffer := buffer ++ [t]
      match buffer with
      | [.num n, .str u] => numericPairLoop rest [] (acc ++ [(n, u)])
      | _ => numericPairLoop rest buffer acc

/-- Handler 2: token streams starting with a number.  Leftover tokens that
are all numbers become unitless pairs; a leftover containing a string
invalidates the handler. -/
def numericValueHandler (tokens : List Token) : Option CssPropertyValue :=
  match tokens with
  | .num _ :: _ =>
      let (pairs, buffer) := numericPairLoop tokens [] []
      if buffer.isEmpty then some (.numeric pairs)
      else if buffer.any (fun t => match t with | .str _ => true | _ => false)
      then none
      else some (.numeric (pairs ++ buffer.map (fun t =>
        match t with | .num n => (n, "") | .str _ => (0, ""))))
  | _ => none

/-- State of the transform handler loop. -/
structure TransformScan where
  values : List (String × List (ℚ × String))
  functionName : String
  paramPairs : List (ℚ × String)
  paramBuffer : List Token
  isValid : Bool
deriving DecidableEq, Repr

def isBufferNumOnly (buf : List Token) : Bool :=
  !(buf.any (fun t => match t with | .str _ => true | _ => false))

/-- One token of the transform handler loop, translated clause for clause. -/
def transformStep (st : TransformScan) (t : Token) : TransformScan :=
  if !st.isValid then st
  else
    match t with
    | .str s =>
        if s ∈ SUPPORTED_FUNCS then
          if !st.paramPairs.isEmpty ∨ !st.paramBuffer.isEmpty then
            if !st.paramBuffer.isEmpty then
              if !isBufferNumOnly st.paramBuffer then
                { st with isValid := false }
              else
                let pairs := st.paramBuffer.map (fun tk =>
                  match tk with | .num n => (n, "") | .str _ => ((0 : ℚ), ""))
                { values := aSet st.values st.functionName
                    (st.paramPairs ++ pairs),
                  functionName := s, paramPairs := [], paramBuffer := [],
                  isValid := st.isValid }
            else
              { values := aSet st.values st.functionName st.paramPairs,
                functionName := s, paramPairs := [], paramBuffer := [],
                isValid := st.isValid }
          else { st with functionName := s }
        else transformParamStep st t
    | .num _ => transformParamStep st t
where
  /-- Parameter accumulation: active only once a function name was seen. -/
  transformParamStep (st : TransformScan) (t : Token) : TransformScan :=
    if st.functionName = "" then st
    else
      let buf := st.paramBuffer ++ [t]
      match buf with
      | [.num n, .str u] =>
          { st with paramPairs := st.paramPairs ++ [(n, u)], paramBuffer := [] }
      | _ => { st with paramBuffer := buf }

/-- Handler 3: transform functions.  After the loop the remaining function is
flushed; an empty result map or an invalid parameter mix rejects. -/
def transformValueHandler (tokens : List Token) : Option CssPropertyValue :=
  match tokens with
  | .str _ :: _ :: _ =>
      let st := tokens.foldl transformStep
        ⟨[], "", [], [], true⟩
      let finalValues :=
        if st.functionName ≠ "" ∧ (!st.paramPairs.isEmpty ∨ !st.paramBuffer.isEmpty) then
          let paramPairs :=
            if !st.paramBuffer.isEmpty ∧ isBufferNumOnly st.paramBuffer then
              st.paramPairs ++ st.paramBuffer.map (fun tk =>
                match tk with | .num n => (n, "") | .str _ => ((0 : ℚ), ""))
            else st.paramPairs
          if !paramPairs.isEmpty then aSet st.values st.functionName paramPairs
          else st.values
        else st.values
      if st.isValid ∧ !finalValues.isEmpty then
        some (.transform finalValues)
      else none
  | _ => none

/-- `cssValueParser`: first matching handler, else the static fallback with
the whole raw input. -/
def cssValueParser (value : String) : CssPropertyValue :=
  let tokens := cssValueLexer value
  match staticAndColorValuesHandler tokens with
  | some v => v
  | none =>
    match numericValueHandler tokens with
    | some v => v
    | none =>
      match transformValueHandler tokens with
      | some v => v
      | none => .static value

/-! ## Stringifier (`stringifyParsedValue`) -/

/-- JavaScript number rendering, restricted to what the claims evaluate:
integers render without a decimal point; non-integers are rendered as a
fraction here (JavaScript prints a decimal expansion, which no claim below
evaluates). -/
def jsNumToString (q : ℚ) : String :=
  if q.den = 1 then toString q.num
  else toString q.num ++ "/" ++ toString q.den

/-- `stringifyParsedValue`, translated case for case. -/
def stringifyParsedValue : CssPropertyValue → String
  | .numeric values =>
      String.intercalate " " (values.map (fun p => jsNumToString p.1 ++ p.2))
  | .transform values =>
      String.intercalate " " (values.map (fun p =>
        p.1 ++ "(" ++
          String.intercalate ", " (p.2.map (fun q => jsNumToString q.1 ++ q.2))
          ++ ")"))
  | .color value => value
  | .static value => value

end Parsing

/-! ## Shared numeric helpers -/

/-- `Math.round`: round half toward positive infinity, as an integer. -/
def jsRoundInt (q : ℚ) : ℤ := qFloor (qAdd q (mkRat 1 2))

/-- `Math.round` kept inside the numeric type. -/
def jsRound (q : ℚ) : ℚ := (jsRoundInt q : ℚ)

/-- `calculateValueDelta`: the span toward the target scaled by the rate. -/
def calculateValueDelta (currValue targetValue changeRate : ℚ) : ℚ :=
  qMul (qSub targetValue currValue) changeRate

/-- The `target || curr` unit fallback used by the structured-color dialect
of `calc-css-value.ts`: an empty target unit falls back to the current one
(JS `||` on strings). -/
def unitOr (target curr : String) : String :=
  if target ≠ "" then target else curr

namespace Interp

/-! ## Interpolator, structured-color dialect (`calc-css-value.ts`)

The dialect cited by the interpolation claims: colors carry a format tag
followed by numeric channels (`['rgb', r, g, b]`). -/

/-- `CssPropertyValue` of this snapshot.  The color payload is the format
tag (index 0 of the source array) and the numeric channels (the rest). -/
inductive CssPropertyValue where
  | numeric (values : List (ℚ × String))
  | static (value : String)
  | color (format : String) (channels : List ℚ)
  | transform (values : List (String × List (ℚ × String)))
deriving DecidableEq, Repr

/-- `copyParsedValue`: a structural copy, which is the identity for pure
values. -/
def copyParsedValue (v : CssPropertyValue) : CssPropertyValue := v

/-- Pair loop of `calculateNextNumericValue`: for each target slot `i`,
blend from `currValue.values[i]` (an out-of-range read is `undefined` in JS
and modelled by `(0, "")`), with the `target[1] || curr[1]` unit fallback. -/
def nextNumericValues (cur tgt : List (ℚ × String)) (changeRate : ℚ) :
    List (ℚ × String) :=
  match tgt with
  | [] => []
  | (tn, tu) :: ts =>
      let c := cur.headD (0, "")
      (qAdd c.1 (calculateValueDelta c.1 tn changeRate), unitOr tu c.2)
        :: nextNumericValues cur.tail ts changeRate

def calculateNextNumericValue (cur tgt : List (ℚ × String))
    (changeRate : ℚ) : CssPropertyValue :=
  .numeric (nextNumericValues cur tgt changeRate)

/-- `calculateNextTransformValue`: for every function of the target, look up
the same function in the current value (the source asserts presence with
`!`; a missing function is modelled by an empty parameter list) and blend
the parameter pairs.  The result map is built with `Map.set` over the
target's iteration order. -/
def calculateNextTransformValue
    (cur tgt : List (String × List (ℚ × String))) (changeRate : ℚ) :
    CssPropertyValue :=
  .transform (tgt.foldl (fun acc p =>
    let currNumData := (aGet cur p.1).getD []
    aSet acc p.1 (nextNumericValues currNumData p.2 changeRate)) [])

/-- Channel loop of `calculateNextColorValue`: iterate the target channels,
reading the current channel at the same index (out-of-range is `undefined`
in JS; modelled by `0`), blend and `Math.round`. -/
def nextColorChannels (cur tgt : List ℚ) (changeRate : ℚ) : List ℚ :=
  match tgt with
  | [] => []
  | t :: ts =>
      jsRound (qAdd (cur.headD 0) (calculateValueDelta (cur.headD 0) t changeRate))
        :: nextColorChannels cur.tail ts changeRate

/-- `calculateNextColorValue`: the format tag comes from the current value
(`nextColor = [currValue.value[0]]`). -/
def calculateNextColorValue (curFormat : String) (curChannels : List ℚ)
    (tgtChannels : List ℚ) (changeRate : ℚ) : CssPropertyValue :=
  .color curFormat (nextColorChannels curChannels tgtChannels changeRate)

/-- `calculateNextCssValue`: dispatch on the target's variant; the current
value is cast to the same variant by the source (a mismatched current value
reads as `undefined`, modelled by the empty payloads of the helpers). -/
def calculateNextCssValue (currValue targetValue : CssPropertyValue)
    (changeRate : ℚ) : CssPropertyValue :=
  match targetValue with
  | .numeric tvs =>
      let cvs := match currValue with | .numeric vs => vs | _ => []
      calculateNextNumericValue cvs tvs changeRate
  | .transform tvs =>
      let cvs := match currValue with | .transform vs => vs | _ => []
      calculateNextTransformValue cvs tvs changeRate
  | .color _ tchs =>
      let cf := match currValue with | .color f _ => f | _ => ""
      let cchs := match currValue with | .color _ chs => chs | _ => []
      calculateNextColorValue cf cchs tchs changeRate
  | .static _ => copyParsedValue targetValue

end Interp

namespace Engine

/-! ## The timeline engine (`animation-creator.service.ts`)

The stateful `Animation` player, embedded as pure state transformers over
`EngineState`.  Style values are the parser's `CssPropertyValue`; the
interpolation used here is the hex-string color dialect of
`calc-css-value.ts`, which is the one typed against this value shape. -/

open Parsing

/-- A DOM element handle. -/
abbrev Element := ℕ

/-- An objects-map entry: one element, or the array stored when a class
selector matched several (`objects.length === 1 ? objects[0] : Array.from`). -/
abbrev ObjTarget := Element ⊕ List Element

abbrev Styles := List (String × String)
abbrev ParsedStyles := List (String × CssPropertyValue)

/-- `AnimationRule`: a range rule (`timespan`/`from`/`to`) or an instant
rule (`at`/`styles`), generic over the styles payload. -/
inductive AnimationRule (σ : Type) where
  | dynamic (selector : String) (timespan : ℚ × ℚ) (fromStyles toStyles : σ)
  | instant (selector : String) (atTime : ℚ) (styles : σ)
deriving DecidableEq, Repr

def selectorOf {σ : Type} : AnimationRule σ → String
  | .dynamic sel _ _ _ => sel
  | .instant sel _ _ => sel

/-- `getStartTime`: `timespan[0]` for range rules, `at` for instant rules. -/
def getStartTime {σ : Type} : AnimationRule σ → ℚ
  | .dynamic _ ts _ _ => ts.1
  | .instant _ t _ => t

/-- `getEndTime`: `timespan[1]` for range rules, `at` for instant rules. -/
def getEndTime {σ : Type} : AnimationRule σ → ℚ
  | .dynamic _ ts _ _ => ts.2
  | .instant _ t _ => t

/-- `getEndStyles`: `to` for range rules, `styles` for instant rules. -/
def getEndStyles {σ : Type} : AnimationRule σ → σ
  | .dynamic _ _ _ toS => toS
  | .instant _ _ st => st

/-- The engine state: parsed rules (times in milliseconds), current time,
duration, the object registry, the active-styles cache, the abstract DOM
styles, the completion flag, the playing flag and the progress signal. -/
structure EngineState where
  rules : List (AnimationRule ParsedStyles) := []
  currentTime : ℚ := 0
  duration : ℚ := 0
  timestep : ℚ := 100
  allObjects : List (String × ObjTarget) := []
  activeStyles : List (String × ParsedStyles) := []
  dom : List ((Element × String) × String) := []
  completed : Bool := false
  playing : Bool := false
  progress : ℚ := 0
deriving DecidableEq, Repr

/-! ### Interpolation, hex-string color dialect (`calc-css-value.ts`) -/

/-- String indexing `s[i]` used in string concatenation: JavaScript turns an
out-of-range read into the string `"undefined"` when appended. -/
def jsCharAtStr (s : String) (i : ℕ) : String :=
  match s.data.get? i with
  | some c => String.singleton c
  | none => "undefined"

def hexDigitVal (c : Char) : Option ℕ :=
  if '0' ≤ c ∧ c ≤ '9' then some (c.toNat - 48)
  else if 'a' ≤ c ∧ c ≤ 'f' then some (c.toNat - 87)
  else if 'A' ≤ c ∧ c ≤ 'F' then some (c.toNat - 55)
  else none

/-- Accumulate the leading hexadecimal digits. -/
def hexPrefixVal : List Char → ℕ → ℕ
  | [], acc => acc
  | c :: rest, acc =>
      match hexDigitVal c with
      | some d => hexPrefixVal rest (acc * 16 + d)
      | none => acc

/-- `parseInt(s, 16)`: skip leading spaces, read an optional sign, then the
leading hexadecimal digits.  JavaScript returns `NaN` when no digit is
readable (and also strips an optional `0x` prefix); both are modelled by
`0` here and are never exercised by the concrete claims. -/
def jsParseIntHex (s : String) : ℤ :=
  let l := s.data.dropWhile (fun c => c = ' ')
  match l with
  | '-' :: rest => -(hexPrefixVal rest 0 : ℤ)
  | '+' :: rest => (hexPrefixVal rest 0 : ℤ)
  | _ => (hexPrefixVal l 0 : ℤ)

def hexNatStr (n : ℕ) : String := String.mk (Nat.toDigits 16 n)

/-- `n.toString(16).padStart(2, '0')`. -/
def toHex2 (n : ℤ) : String :=
  let s := if n < 0 then "-" ++ hexNatStr n.natAbs else hexNatStr n.toNat
  if s.length < 2 then "0" ++ s else s

/-- One color channel of `calculateNextColorValue`: the hex pair of the
current and target strings at positions `i, i+1` (the running buffer of the
source flushes exactly at these positions because the target is 7
characters long), parsed, blended, rounded and re-encoded. -/
def colorChunkNext (cv tv : String) (changeRate : ℚ) (i : ℕ) : String :=
  let currHexChannel := jsCharAtStr cv i ++ jsCharAtStr cv (i + 1)
  let targetHexChannel := jsCharAtStr tv i ++ jsCharAtStr tv (i + 1)
  let currRgbChannel := jsParseIntHex currHexChannel
  let targetRgbChannel := jsParseIntHex targetHexChannel
  let delta :=
    calculateValueDelta (currRgbChannel : ℚ) (targetRgbChannel : ℚ) changeRate
  toHex2 (jsRoundInt (qAdd (currRgbChannel : ℚ) delta))

/-- `calculateNextColorValue` (hex-string dialect): a target that is not 7
characters long is returned unchanged; otherwise the three channel pairs
are blended. -/
def calculateNextColorValue (cv tv : String) (changeRate : ℚ) :
    CssPropertyValue :=
  if tv.length ≠ 7 then .color tv
  else
    .color ("#" ++ colorChunkNext cv tv changeRate 1
      ++ colorChunkNext cv tv changeRate 3
      ++ colorChunkNext cv tv changeRate 5)

/-- Pair loop of `calculateNextNumericValue` (this dialect keeps the
target's unit unconditionally).  An out-of-range read of the current pairs
is `undefined` in JS and modelled by `(0, "")`. -/
def nextNumericValues (cur tgt : List (ℚ × String)) (changeRate : ℚ) :
    List (ℚ × String) :=
  match tgt with
  | [] => []
  | (tn, tu) :: ts =>
      let c := cur.headD (0, "")
      (qAdd c.1 (calculateValueDelta c.1 tn changeRate), tu)
        :: nextNumericValues cur.tail ts changeRate

/-- `calculateNextTransformValue`: blend per target function; the source
asserts with `!` that the current value has the function (a missing one is
modelled by an empty parameter list). -/
def calculateNextTransformValue
    (cur tgt : List (String × List (ℚ × String))) (changeRate : ℚ) :
    CssPropertyValue :=
  .transform (tgt.foldl (fun acc p =>
    aSet acc p.1 (nextNumericValues ((aGet cur p.1).getD []) p.2 changeRate))
    [])

/-- `calculateNextCssValue` over the parser's value shape; dispatch on the
target's variant, static (and any unhandled) values return a copy of the
target. -/
def calculateNextCssValue (currValue targetValue : CssPropertyValue)
    (changeRate : ℚ) : CssPropertyValue :=
  match targetValue with
  | .numeric tvs =>
      let cvs := match currValue with | .numeric vs => vs | _ => []
      .numeric (nextNumericValues cvs tvs changeRate)
  | .transform tvs =>
      let cvs := match currValue with | .transform vs => vs | _ => []
      calculateNextTransformValue cvs tvs changeRate
  | .color tv =>
      let cv := match currValue with | .color v => v | _ => ""
      calculateNextColorValue cv tv changeRate
  | .static _ => targetValue

/-! ### `stylesUnion` (`utils.ts`) -/

/-- The transform payload of a value; the source casts with
`as TransformValue`, a non-transform value reads as an empty map. -/
def transformValuesOf : CssPropertyValue → List (String × List (ℚ × String))
  | .transform vs => vs
  | _ => []

/-- `stylesUnion`: spread-merge with the `newStyles` dominating; when both
sides carry a `transform` property the two function maps are merged with
`new Map([...base.values, ...newStyles.values])`. -/
def stylesUnion (base newStyles : ParsedStyles) : ParsedStyles :=
  let union := aMerge base newStyles
  if (aGet base "transform").isSome ∧ (aGet newStyles "transform").isSome then
    let transformBase := transformValuesOf ((aGet base "transform").getD (.static ""))
    let transformNewStyles :=
      transformValuesOf ((aGet newStyles "transform").getD (.static ""))
    aSet union "transform"
      (.transform (aMerge ([] : List (String × List (ℚ × String)))
        (transformBase ++ transformNewStyles)))
  else union

/-! ### Validation, object extraction and `define` -/

def SEL_SEPARATOR : String := ">>"

/-- Millisecond factor (`MS`). -/
def MS : ℚ := 1000

/-- `_validateRules` for one rule: timespan sign and length checks, then the
from/to style-count check, then per `to` property presence in `from`
(JS truthiness: a property whose raw value is the empty string counts as
missing). -/
def validateRule (rule : AnimationRule Styles) : Option String :=
  match rule with
  | .instant _ _ _ => none
  | .dynamic sel (t0, t1) fromS toS =>
      let dur := qSub t1 t0
      if dur < 0 then
        some ("Animation: Incorrect timespan for selector '" ++ sel ++
          "'. Start time is greater than end time")
      else if dur = 0 then
        some ("Animation: Duration for selector '" ++ sel ++
          "' is zero. Use 'at' time selector instead")
      else
        let fromKeys := aKeys fromS
        let toKeys := aKeys toS
        if fromKeys.length ≠ toKeys.length then
          some ("Animation: There is a mismatch between the number of \"from\" and \"to\" styles for selector '"
            ++ sel ++ "'")
        else
          match toKeys.find? (fun prop => ((aGet fromS prop).getD "") = "") with
          | some prop =>
              some ("Animation: \"from\" style '" ++ prop ++
                "' is missing for selector '" ++ sel ++ "'")
          | none => none

/-- The host side of `getElementsByClassName`. -/
structure DomEnv where
  classLookup : Element → String → List Element

/-- `_extractObjects`: split the selector at `>>`, resolve the layer id in
the object registry, and resolve a class object selector within the layer,
storing the result under the full selector.  Errors are the thrown
messages; a registry entry that is an element array where an element is
expected surfaces the JS type error. -/
def extractObjects (env : DomEnv) (s : EngineState)
    (rule : AnimationRule Styles) : EngineState ⊕ String :=
  let parts := jsSplitOn (selectorOf rule) SEL_SEPARATOR
  let layerId := jsTrim (parts.getD 0 "")
  let objectSelector := jsTrim (parts.getD 1 "")
  match aGet s.allObjects layerId with
  | none => .inr ("Animation: Missing layer ID: " ++ layerId)
  | some (.inr _) => .inr "TypeError: layer is not an Element"
  | some (.inl layer) =>
      if objectSelector ≠ "" ∧ ¬aHasKey s.allObjects (selectorOf rule) then
        let objects :=
          env.classLookup layer (jsTrim (String.mk (objectSelector.data.map
            (fun c => if c = '.' then ' ' else c))))
        if objects.isEmpty then
          .inr ("Animation: Missing layer object(s): " ++ selectorOf rule)
        else
          let stored : ObjTarget :=
            match objects with
            | [e] => .inl e
            | es => .inr es
          .inl { s with
            allObjects := aSet s.allObjects (selectorOf rule) stored }
      else .inl s

/-- `_extractObjectsAndValidateRules`: per rule, validate then extract; the
first error aborts, leaving the registry mutations of the earlier rules in
place. -/
def extractObjectsAndValidateRules (env : DomEnv) (s : EngineState) :
    List (AnimationRule Styles) → EngineState × Option String
  | [] => (s, none)
  | rule :: rest =>
      match validateRule rule with
      | some e => (s, some e)
      | none =>
          match extractObjects env s rule with
          | .inr e => (s, some e)
          | .inl s' => extractObjectsAndValidateRules env s' rest

/-- Style parsing of `define`: each raw property value is parsed and
assigned (`from[prop] = cssValueParser(val)`). -/
def parseStyles (raw : Styles) : ParsedStyles :=
  raw.foldl (fun acc p => aSet acc p.1 (cssValueParser p.2)) []

/-- Rule parsing of `define`: parse both style maps and convert the times
to milliseconds. -/
def parseRule : AnimationRule Styles → AnimationRule ParsedStyles
  | .dynamic sel (t0, t1) fromS toS =>
      .dynamic sel (qMul t0 MS, qMul t1 MS) (parseStyles fromS) (parseStyles toS)
  | .instant sel t st => .instant sel (qMul t MS) (parseStyles st)

/-- `Math.max(...list)`: the sentinel models the `-Infinity` of an empty
spread, which no claim exercises. -/
def jsMaxList (l : List ℚ) : ℚ :=
  match l with
  | [] => mkRat (-1000000000) 1
  | h :: t => t.foldl max h

/-- `define`: validate and extract objects rule by rule (a thrown error is
returned next to the state holding the registry mutations made so far),
then install the rules sorted by start time with millisecond times, and the
duration as the maximal end time. -/
def defineRun (env : DomEnv) (s : EngineState)
    (definition : List (AnimationRule Styles)) :
    EngineState × Option String :=
  match extractObjectsAndValidateRules env s definition with
  | (s', some e) => (s', some e)
  | (s', none) =>
      let sorted := jsStableSort
        (fun a b => decide (getStartTime a ≤ getStartTime b)) definition
      let rules := sorted.map parseRule
      let duration := jsMaxList (rules.map getEndTime)
      ({ s' with rules := rules, duration := duration }, none)

/-! ### Style application and the frame update -/

/-- `_setStyle`: stringify and write the value to the selector's element or
elements, then record it in the active-styles cache.  A selector missing
from the registry throws in JS (`!` assertion); modelled as writing to no
element. -/
def setStyle (s : EngineState) (selector property : String)
    (value : CssPropertyValue) : EngineState :=
  let valueString := stringifyParsedValue value
  let dom :=
    match aGet s.allObjects selector with
    | some (.inl e) => aSet s.dom (e, property) valueString
    | some (.inr es) =>
        es.foldl (fun d e => aSet d (e, property) valueString) s.dom
    | none => s.dom
  let activeStyles := (aGet s.activeStyles selector).getD []
  let newActive := aSet s.activeStyles selector (aSet activeStyles property value)
  { s with dom := dom, activeStyles := newActive }

/-- `_removeStyle`: remove the style from the selector's element(s) and
drop the property from the cache entry (a missing cache entry stays
absent: the source deletes on a fresh object). -/
def removeStyle (s : EngineState) (selector property : String) :
    EngineState :=
  let dom :=
    match aGet s.allObjects selector with
    | some (.inl e) => aDelete s.dom (e, property)
    | some (.inr es) => es.foldl (fun d e => aDelete d (e, property)) s.dom
    | none => s.dom
  let activeStyles :=
    match aGet s.activeStyles selector with
    | some st => aSet s.activeStyles selector (aDelete st property)
    | none => s.activeStyles
  { s with dom := dom, activeStyles := activeStyles }

/-- The in-progress branch of `_updateFrame` for one dynamic rule: pick the
direction from the sign of `time - currentTime`, compute the change rate
from the relative time within the rule, and blend every property of the
target styles over the union of the rule's `from` styles and the active
styles.  A property missing from that union is `undefined` in JS (the
source reads it without a guard); modelled by an empty static value.
`relativeDeltaT / timespan` is `NaN` in JS when the timespan degenerates to
zero; in `ℚ` the quotient is `0`. -/
def applyDynamicRule (s : EngineState) (time deltaTime : ℚ)
    (st : List (String × ParsedStyles)) (rule : AnimationRule ParsedStyles) :
    List (String × ParsedStyles) :=
  match rule with
  | .instant _ _ _ => st
  | .dynamic sel (t0, t1) fromS toS =>
      let (changeRate, targetStyles) :=
        if 0 < deltaTime then
          let relativeTime := max s.currentTime t0
          (qAbs (qDiv (qSub time relativeTime) (qSub t1 relativeTime)), toS)
        else
          let relativeTime := min s.currentTime t1
          (qAbs (qDiv (qSub time relativeTime) (qSub relativeTime t0)), fromS)
      let activeStyles :=
        stylesUnion fromS ((aGet s.activeStyles sel).getD [])
      let styles := targetStyles.foldl (fun acc p =>
        let curr := (aGet activeStyles p.1).getD (.static "")
        aSet acc p.1 (calculateNextCssValue curr p.2 changeRate))
        ((aGet st sel).getD [])
      aSet st sel styles

/-- The styles state of `_updateFrame` at `time`: completed rules contribute
their end styles (last write wins per selector), then every in-progress
dynamic rule contributes its blended styles. -/
def completedPred (time : ℚ) (r : AnimationRule ParsedStyles) : Bool :=
  decide (getEndTime r < time)

def inProgPred (time : ℚ) (r : AnimationRule ParsedStyles) : Bool :=
  decide (getStartTime r < getEndTime r ∧ getStartTime r ≤ time ∧
    time ≤ getEndTime r)

/-- The completed-rules layer of the styles state: end styles merged per
selector, in rule order. -/
def completedState (rules : List (AnimationRule ParsedStyles)) (time : ℚ) :
    List (String × ParsedStyles) :=
  (rules.filter (completedPred time)).foldl (fun st r =>
    aSet st (selectorOf r)
      (aMerge ((aGet st (selectorOf r)).getD []) (getEndStyles r))) []

def stylesStateAt (s : EngineState) (time : ℚ) :
    List (String × ParsedStyles) :=
  (s.rules.filter (inProgPred time)).foldl
    (applyDynamicRule s time (qSub time s.currentTime))
    (completedState s.rules time)

/-- `_updateFrame`: compute the styles state, remove every previously
active style that it no longer contains, apply it, and commit the time and
the progress signal (`time / duration`; division by zero only for an empty
duration, which no claim exercises). -/
def updateFrame (time : ℚ) (s : EngineState) : EngineState :=
  let stylesState := stylesStateAt s time
  let s1 := s.activeStyles.foldl (fun acc p =>
    (aKeys p.2).foldl (fun acc2 prop =>
      if (aGet ((aGet stylesState p.1).getD []) prop).isNone then
        removeStyle acc2 p.1 prop
      else acc2) acc) s
  let s2 := stylesState.foldl (fun acc p =>
    p.2.foldl (fun acc2 q => setStyle acc2 p.1 q.1 q.2) acc) s1
  { s2 with currentTime := time, progress := qDiv time s.duration }

/-! ### Player operations -/

/-- `pause`: cancel the frame loop; the playing flag drops. -/
def pause (s : EngineState) : EngineState := { s with playing := false }

/-- `seek`: pause, clamp the progress to `[0,1]`, round the target time,
always update the frame, and mark completion exactly at progress 1.  With
no rules defined it degrades to a warning. -/
def seek (p : ℚ) (s : EngineState) : EngineState :=
  let s := pause s
  if s.rules.isEmpty then s
  else
    let progress := max 0 (min p 1)
    let time := jsRound (qMul progress s.duration)
    let s' := updateFrame time s
    { s' with completed := decide (progress = 1) }

/-- `forward`: pause, add the timestep (the configured one when none is
given), update the frame when the candidate time is within the duration,
else only mark completion. -/
def forward (timestep? : Option ℚ) (s : EngineState) : EngineState :=
  let s := pause s
  if s.rules.isEmpty then s
  else
    let timestep := timestep?.getD s.timestep
    let time := qAdd s.currentTime timestep
    if time ≤ s.duration then updateFrame time s
    else { s with completed := true }

/-- `back`: pause, subtract the timestep, update only when the candidate
time is not negative, and un-mark completion then. -/
def back (timestep? : Option ℚ) (s : EngineState) : EngineState :=
  let s := pause s
  if s.rules.isEmpty then s
  else
    let timestep := timestep?.getD s.timestep
    let time := qSub s.currentTime timestep
    if 0 ≤ time then { updateFrame time s with completed := false }
    else s

/-- One renderer removal inside `reset`: the loop hands
`allObjects.get(selector)` to `Renderer2.removeStyle` directly, so a
single-element entry gets the style removed from the DOM, while an
element-array entry or a missing entry makes the renderer throw a
`TypeError` (`el.style` is undefined); the throw aborts `reset` and
propagates, modelled as `none`. -/
def resetStyleStep (selector : String) (acc : EngineState) (style : String) :
    Option EngineState :=
  match aGet acc.allObjects selector with
  | some (.inl e) => some { acc with dom := aDelete acc.dom (e, style) }
  | _ => none

/-- The removal pass of `reset` for one snapshot entry: remove every cached
style of the selector (aborting on the renderer's `TypeError`), then delete
the cache entry. -/
def resetEntry (s : EngineState) (selector : String) (styles : ParsedStyles) :
    Option EngineState :=
  ((aKeys styles).foldl (fun acc st =>
      acc.bind (fun a => resetStyleStep selector a st)) (some s)).map
    (fun s' => { s' with activeStyles := aDelete s'.activeStyles selector })

/-- `reset`: pause, zero the time and the progress signal, and remove every
active style selector by selector; a cached selector whose registry entry
is not a single element makes the renderer throw, aborting the whole call.
The completion flag is untouched. -/
def reset (s : EngineState) : Option EngineState :=
  let s := pause s
  let s := { s with currentTime := 0, progress := 0 }
  s.activeStyles.foldl (fun acc p =>
    acc.bind (fun a => resetEntry a p.1 p.2)) (some s)

/-- `stop`: alias for `reset`. -/
def stop (s : EngineState) : Option EngineState := reset s

end Engine

namespace Interp

/-- Componentwise equal units (and equal length) of two numeric pair
lists. -/
def unitsMatch : List (ℚ × String) → List (ℚ × String) → Bool
  | [], [] => true
  | c :: cs, t :: ts => decide (c.2 = t.2) && unitsMatch cs ts
  | _, _ => false

/-- Same function names in the same order, with matching units per
function. -/
def funcsMatch : List (String × List (ℚ × String)) →
    List (String × List (ℚ × String)) → Bool
  | [], [] => true
  | c :: cs, t :: ts =>
      decide (c.1 = t.1) && unitsMatch c.2 t.2 && funcsMatch cs ts
  | _, _ => false

/-- Structurally matching non-static values: same variant, same component
counts, equal corresponding units, same transform function sequence without
duplicates, same color format with integer channels on both sides. -/
def matchingShape : CssPropertyValue → CssPropertyValue → Bool
  | .numeric cs, .numeric ts => unitsMatch cs ts
  | .transform cs, .transform ts =>
      funcsMatch cs ts && decide (aKeys ts).Nodup
  | .color cf cchs, .color tf tchs =>
      decide (cf = tf) && decide (cchs.length = tchs.length) &&
      cchs.all (fun q => decide (q.den = 1)) &&
      tchs.all (fun q => decide (q.den = 1))
  | _, _ => false

end Interp

namespace Engine

/-- Well-formed engine state: the cache and DOM maps have no duplicate
keys, as the JavaScript `Map`s and objects they model guarantee. -/
def wfState (s : EngineState) : Bool :=
  decide (aKeys s.activeStyles).Nodup &&
  s.activeStyles.all (fun p => decide (aKeys p.2).Nodup) &&
  decide (aKeys s.dom).Nodup

/-- Every selector holding active styles resolves to a single element in
the registry (`reset` hands the registry entry to the renderer directly,
so only this case reaches the DOM). -/
def singleElementTargets (s : EngineState) : Bool :=
  s.activeStyles.all (fun p =>
    match aGet s.allObjects p.1 with
    | some (.inl _) => true
    | _ => false)

/-- The element(s) a selector resolves to in the registry. -/
def targetListOf (objs : List (String × ObjTarget)) (sel : String) :
    List Element :=
  match aGet objs sel with
  | some (.inl e) => [e]
  | some (.inr es) => es
  | none => []

/-- A parsed style value free of duplicate transform-function names. -/
def valueWf : Parsing.CssPropertyValue → Bool
  | .transform tvs => decide (aKeys tvs).Nodup
  | _ => true

/-- A parsed style map whose keys are duplicate free, whose transform
payloads are duplicate free and whose `transform` property (when present)
actually carries a transform value — all invariants of maps produced by
`parseStyles` on well-formed inputs. -/
def styleMapWf (m : ParsedStyles) : Bool :=
  decide (aKeys m).Nodup && m.all (fun p => valueWf p.2) &&
  (match aGet m "transform" with
   | some (.transform _) => true
   | some _ => false
   | none => true)

def ruleWf : AnimationRule ParsedStyles → Bool
  | .dynamic _ _ fromS toS => styleMapWf fromS && styleMapWf toS
  | .instant _ _ st => styleMapWf st

/-- Distinct selectors resolve to disjoint element sets. -/
def rulesDisjoint (s : EngineState) : Bool :=
  s.rules.all (fun r => s.rules.all (fun r2 =>
    decide (selectorOf r = selectorOf r2) ||
    (targetListOf s.allObjects (selectorOf r)).all (fun e =>
      decide (e ∉ targetListOf s.allObjects (selectorOf r2)))))

/-- Agreement on every engine field other than the style caches and the
DOM (the fields the style passes of `_updateFrame` never touch). -/
def sameCore (a b : EngineState) : Prop :=
  a.rules = b.rules ∧ a.currentTime = b.currentTime ∧
  a.duration = b.duration ∧ a.timestep = b.timestep ∧
  a.allObjects = b.allObjects ∧ a.completed = b.completed ∧
  a.playing = b.playing ∧ a.progress = b.progress

/-- The frame-level well-formedness used by the seek-stabilization theorem:
duplicate-free cache keys and cache maps, well-formed rule style maps,
pairwise-disjoint selector targets, and no two rules animating the same
selector at `time`. -/
def frameWf (s : EngineState) (time : ℚ) : Bool :=
  decide (aKeys s.activeStyles).Nodup &&
  s.activeStyles.all (fun p => decide (aKeys p.2).Nodup) &&
  s.rules.all ruleWf &&
  rulesDisjoint s &&
  decide ((s.rules.filter (inProgPred time)).map selectorOf).Nodup

end Engine

namespace Cases

/-!  Concrete engines used by the counterexamples and witnesses below: one
layer `L` whose element `1` owns one descendant of class `c`, element `2`. -/

def env : Engine.DomEnv :=
  ⟨fun e cls => if e = 1 ∧ cls = "c" then [2] else []⟩

def initState : Engine.EngineState := { allObjects := [("L", .inl 1)] }

/-- Scenario A: `{selector: "L>>.c", timespan: [0,4], from: {opacity:"0"},
to: {opacity:"1"}}`. -/
def scenarioARule : Engine.AnimationRule Engine.Styles :=
  .dynamic "L>>.c" (0, 4) [("opacity", "0")] [("opacity", "1")]

def definedA : Engine.EngineState :=
  (Engine.defineRun env initState [scenarioARule]).1

/-- The same rule on the bare layer selector. -/
def plainRule : Engine.AnimationRule Engine.Styles :=
  .dynamic "L" (0, 4) [("opacity", "0")] [("opacity", "1")]

def definedPlain : Engine.EngineState :=
  (Engine.defineRun env initState [plainRule]).1

/-- Scenario B rules: timespans `[0,5]` and `[3,7]`. -/
def ruleSpanFive : Engine.AnimationRule Engine.Styles :=
  .dynamic "L" (0, 5) [] []

def ruleSpanSeven : Engine.AnimationRule Engine.Styles :=
  .dynamic "L" (3, 7) [] []

/-- A rule with an inverted timespan, rejected by validation. -/
def invalidSpanRule : Engine.AnimationRule Engine.Styles :=
  .dynamic "L" (1, 0) [] []

/-- Scenario C rule: `from` declares `opacity` and `border`, `to` only
`opacity`. -/
def mismatchRule : Engine.AnimationRule Engine.Styles :=
  .dynamic "L" (0, 1) [("opacity", "0"), ("border", "1px")] [("opacity", "1")]

/-- The validation message actually thrown for `mismatchRule`. -/
def mismatchMsg : String :=
  "Animation: There is a mismatch between the number of \"from\" and \"to\" styles for selector 'L'"

end Cases

/-! # Theorems -/

/-! ## Bridges from the kernel-computable arithmetic to the standard operations -/

theorem qAdd_eq (a b : ℚ) : qAdd a b = a + b := by
  have ha : ((a.den : ℚ)) ≠ 0 := by
    exact_mod_cast a.den_nz
  have hb : ((b.den : ℚ)) ≠ 0 := by
    exact_mod_cast b.den_nz
  unfold qAdd
  rw [Rat.mkRat_eq_div]
  push_cast
  conv_rhs => rw [← Rat.num_div_den a, ← Rat.num_div_den b]
  field_simp

theorem qNeg_eq (a : ℚ) : qNeg a = -a := by
  unfold qNeg
  rw [Rat.mkRat_eq_div]
  push_cast
  rw [neg_div, Rat.num_div_den]

theorem qSub_eq (a b : ℚ) : qSub a b = a - b := by
  unfold qSub
  rw [qAdd_eq, qNeg_eq, sub_eq_add_neg]

theorem qMul_eq (a b : ℚ) : qMul a b = a * b := by
  have ha : ((a.den : ℚ)) ≠ 0 := by
    exact_mod_cast a.den_nz
  have hb : ((b.den : ℚ)) ≠ 0 := by
    exact_mod_cast b.den_nz
  unfold qMul
  rw [Rat.mkRat_eq_div]
  push_cast
  conv_rhs => rw [← Rat.num_div_den a, ← Rat.num_div_den b]
  rw [div_mul_div_comm]

theorem qInv_eq (a : ℚ) : qInv a = a⁻¹ := by
  unfold qInv
  by_cases h : 0 ≤ a.num
  · rw [if_pos h, Rat.mkRat_eq_div]
    have hcast : ((a.num.natAbs : ℕ) : ℚ) = ((a.num : ℤ) : ℚ) := by
      rw [Int.cast_natAbs]
      exact_mod_cast abs_of_nonneg h
    rw [hcast]
    conv_rhs => rw [← Rat.num_div_den a]
    rw [inv_div]
    push_cast
    rfl
  · rw [if_neg h, qNeg_eq, Rat.mkRat_eq_div]
    have hcast : ((a.num.natAbs : ℕ) : ℚ) = -((a.num : ℤ) : ℚ) := by
      rw [Int.cast_natAbs]
      exact_mod_cast abs_of_nonpos (le_of_not_le h)
    rw [hcast]
    conv_rhs => rw [← Rat.num_div_den a]
    rw [inv_div, div_neg, neg_neg]
    push_cast
    rfl

theorem qDiv_eq (a b : ℚ) : qDiv a b = a / b := by
  unfold qDiv
  rw [qMul_eq, qInv_eq, div_eq_mul_inv]

theorem qAbs_eq (a : ℚ) : qAbs a = |a| := by
  unfold qAbs
  rw [Rat.mkRat_eq_div]
  conv_rhs => rw [← Rat.num_div_den a]
  rw [abs_div, Int.cast_natAbs,
    abs_of_nonneg (by positivity : (0 : ℚ) ≤ (a.den : ℚ))]
  push_cast
  rfl

theorem qFloor_eq (a : ℚ) : qFloor a = ⌊a⌋ := by
  unfold qFloor
  rw [Rat.floor_def]

theorem jsRoundInt_eq (q : ℚ) : jsRoundInt q = ⌊q + 1 / 2⌋ := by
  unfold jsRoundInt
  rw [qFloor_eq, qAdd_eq]
  norm_num [Rat.mkRat_eq_div]


/-! ## Association-list lemmas -/

theorem aGet_cons_eq {κ α : Type} [DecidableEq κ] {k : κ} {v : α}
    {t : List (κ × α)} : aGet ((k, v) :: t) k = some v := by
  simp [aGet, List.find?]

theorem aGet_cons_ne {κ α : Type} [DecidableEq κ] {k k' : κ} {v : α}
    {t : List (κ × α)} (h : k' ≠ k) : aGet ((k', v) :: t) k = aGet t k := by
  simp [aGet, List.find?, h]

theorem aSet_of_aGet_none {κ α : Type} [DecidableEq κ] {l : List (κ × α)}
    {k : κ} {v : α} (h : aGet l k = none) : aSet l k v = l ++ [(k, v)] := by
  induction l with
  | nil => rfl
  | cons p t ih =>
      obtain ⟨k', v'⟩ := p
      by_cases hk : k' = k
      · subst hk; rw [aGet_cons_eq] at h; cases h
      · rw [aGet_cons_ne hk] at h
        simp [aSet, hk, ih h]

theorem aGet_append_of_none {κ α : Type} [DecidableEq κ]
    {l₁ l₂ : List (κ × α)} {k : κ} (h : aGet l₁ k = none) :
    aGet (l₁ ++ l₂) k = aGet l₂ k := by
  induction l₁ with
  | nil => rfl
  | cons p t ih =>
      obtain ⟨k', v'⟩ := p
      by_cases hk : k' = k
      · subst hk; rw [aGet_cons_eq] at h; cases h
      · rw [aGet_cons_ne hk] at h
        rw [List.cons_append, aGet_cons_ne hk, ih h]

/-- Folding fresh-key assignments over an accumulator appends the mapped
entries in order. -/
theorem foldl_aSet_fresh {κ α β : Type} [DecidableEq κ]
    (g : κ × α → β) :
    ∀ (tgt : List (κ × α)) (acc : List (κ × β)),
    (aKeys tgt).Nodup → (∀ p ∈ tgt, aGet acc p.1 = none) →
    tgt.foldl (fun a p => aSet a p.1 (g p)) acc
      = acc ++ tgt.map (fun p => (p.1, g p)) := by
  intro tgt
  induction tgt with
  | nil => intro acc _ _; simp
  | cons t ts ih =>
      intro acc hnd hfresh
      have hndt : (aKeys ts).Nodup := (List.nodup_cons.mp hnd).2
      have hmem : t.1 ∉ aKeys ts := (List.nodup_cons.mp hnd).1
      have h1 : aSet acc t.1 (g t) = acc ++ [(t.1, g t)] :=
        aSet_of_aGet_none (hfresh t (List.mem_cons_self t ts))
      simp only [List.foldl_cons, h1]
      rw [ih (acc ++ [(t.1, g t)]) hndt ?fresh]
      · simp
      case fresh =>
        intro p hp
        have hne : p.1 ≠ t.1 := by
          intro hEq
          exact hmem (hEq ▸ List.mem_map_of_mem Prod.fst hp)
        rw [aGet_append_of_none (hfresh p (List.mem_cons_of_mem t hp))]
        rw [aGet_cons_ne (fun hEq => hne hEq.symm)]
        rfl

/-! ## Interpolation boundary lemmas (structured-color dialect) -/

namespace Interp

theorem jsRound_of_den_one {q : ℚ} (h : q.den = 1) : jsRound q = q := by
  have hq : (q.num : ℚ) = q := (Rat.den_eq_one_iff q).mp h
  unfold jsRound
  rw [jsRoundInt_eq, ← hq, Int.floor_int_add]
  norm_num

theorem nextNumericValues_zero {cs ts : List (ℚ × String)}
    (h : unitsMatch cs ts = true) : nextNumericValues cs ts 0 = cs := by
  induction ts generalizing cs with
  | nil =>
      cases cs with
      | nil => rfl
      | cons c cs' => simp [unitsMatch] at h
  | cons t ts' ih =>
      cases cs with
      | nil => simp [unitsMatch] at h
      | cons c cs' =>
          unfold unitsMatch at h
          simp only [Bool.and_eq_true, decide_eq_true_eq] at h
          obtain ⟨hu, hrest⟩ := h
          obtain ⟨tn, tu⟩ := t
          unfold nextNumericValues
          simp only [List.headD_cons, List.tail_cons]
          have h1 : qAdd c.1 (calculateValueDelta c.1 tn 0) = c.1 := by
            unfold calculateValueDelta
            rw [qAdd_eq, qMul_eq, qSub_eq]
            ring
          have h2 : unitOr tu c.2 = c.2 := by
            unfold unitOr
            simp only at hu
            rw [← hu]
            exact ite_self c.2
          rw [h1, h2, ih hrest, Prod.mk.eta]

theorem nextNumericValues_one {cs ts : List (ℚ × String)}
    (h : unitsMatch cs ts = true) : nextNumericValues cs ts 1 = ts := by
  induction ts generalizing cs with
  | nil => cases cs <;> rfl
  | cons t ts' ih =>
      cases cs with
      | nil => simp [unitsMatch] at h
      | cons c cs' =>
          unfold unitsMatch at h
          simp only [Bool.and_eq_true, decide_eq_true_eq] at h
          obtain ⟨hu, hrest⟩ := h
          obtain ⟨tn, tu⟩ := t
          unfold nextNumericValues
          simp only [List.headD_cons, List.tail_cons]
          have h1 : qAdd c.1 (calculateValueDelta c.1 tn 1) = tn := by
            unfold calculateValueDelta
            rw [qAdd_eq, qMul_eq, qSub_eq]
            ring
          have h2 : unitOr tu c.2 = tu := by
            unfold unitOr
            simp only at hu
            rw [← hu]
            exact ite_self c.2
          rw [h1, h2, ih hrest]

theorem transform_map_zero {cs ts : List (String × List (ℚ × String))}
    (h : funcsMatch cs ts = true) (hnd : (aKeys ts).Nodup) :
    ts.map (fun p => (p.1, nextNumericValues ((aGet cs p.1).getD []) p.2 0))
      = cs := by
  induction ts generalizing cs with
  | nil =>
      cases cs with
      | nil => rfl
      | cons c cs' => simp [funcsMatch] at h
  | cons t ts' ih =>
      cases cs with
      | nil => simp [funcsMatch] at h
      | cons c cs' =>
          unfold funcsMatch at h
          simp only [Bool.and_eq_true, decide_eq_true_eq] at h
          obtain ⟨⟨hk, hu⟩, hrest⟩ := h
          have hnd' : (aKeys ts').Nodup := (List.nodup_cons.mp hnd).2
          have hmem : t.1 ∉ aKeys ts' := (List.nodup_cons.mp hnd).1
          simp only [List.map_cons]
          have hhead : aGet (c :: cs') t.1 = some c.2 := by
            rw [← hk]; exact aGet_cons_eq
          rw [hhead]
          have hmapeq :
              ts'.map (fun p =>
                (p.1, nextNumericValues ((aGet (c :: cs') p.1).getD []) p.2 0))
              = ts'.map (fun p =>
                (p.1, nextNumericValues ((aGet cs' p.1).getD []) p.2 0)) := by
            apply List.map_congr_left
            intro p hp
            rw [aGet_cons_ne (k := p.1) (by
              rw [hk]
              intro hEq
              exact hmem (hEq ▸ List.mem_map_of_mem Prod.fst hp))]
          rw [hmapeq, ih hrest hnd']
          simp only [Option.getD_some]
          rw [nextNumericValues_zero hu, ← hk, Prod.mk.eta]

theorem transform_map_one {cs ts : List (String × List (ℚ × String))}
    (h : funcsMatch cs ts = true) (hnd : (aKeys ts).Nodup) :
    ts.map (fun p => (p.1, nextNumericValues ((aGet cs p.1).getD []) p.2 1))
      = ts := by
  induction ts generalizing cs with
  | nil => rfl
  | cons t ts' ih =>
      cases cs with
      | nil => simp [funcsMatch] at h
      | cons c cs' =>
          unfold funcsMatch at h
          simp only [Bool.and_eq_true, decide_eq_true_eq] at h
          obtain ⟨⟨hk, hu⟩, hrest⟩ := h
          have hnd' : (aKeys ts').Nodup := (List.nodup_cons.mp hnd).2
          have hmem : t.1 ∉ aKeys ts' := (List.nodup_cons.mp hnd).1
          simp only [List.map_cons]
          have hhead : aGet (c :: cs') t.1 = some c.2 := by
            rw [← hk]; exact aGet_cons_eq
          rw [hhead]
          have hmapeq :
              ts'.map (fun p =>
                (p.1, nextNumericValues ((aGet (c :: cs') p.1).getD []) p.2 1))
              = ts'.map (fun p =>
                (p.1, nextNumericValues ((aGet cs' p.1).getD []) p.2 1)) := by
            apply List.map_congr_left
            intro p hp
            rw [aGet_cons_ne (k := p.1) (by
              rw [hk]
              intro hEq
              exact hmem (hEq ▸ List.mem_map_of_mem Prod.fst hp))]
          rw [hmapeq, ih hrest hnd']
          simp only [Option.getD_some]
          rw [nextNumericValues_one hu, Prod.mk.eta]

theorem nextColorChannels_zero {cchs tchs : List ℚ}
    (hlen : cchs.length = tchs.length)
    (hint : ∀ q ∈ cchs, q.den = 1) :
    nextColorChannels cchs tchs 0 = cchs := by
  induction tchs generalizing cchs with
  | nil =>
      cases cchs with
      | nil => rfl
      | cons c cs => simp at hlen
  | cons t ts ih =>
      cases cchs with
      | nil => simp at hlen
      | cons c cs =>
          unfold nextColorChannels
          simp only [List.headD_cons, List.tail_cons]
          have h1 : qAdd c (calculateValueDelta c t 0) = c := by
            unfold calculateValueDelta
            rw [qAdd_eq, qMul_eq, qSub_eq]
            ring
          rw [h1, jsRound_of_den_one (hint c (List.mem_cons_self c cs))]
          rw [ih (by simpa using hlen)
            (fun q hq => hint q (List.mem_cons_of_mem c hq))]

theorem nextColorChannels_one {cchs tchs : List ℚ}
    (hint : ∀ q ∈ tchs, q.den = 1) :
    nextColorChannels cchs tchs 1 = tchs := by
  induction tchs generalizing cchs with
  | nil => rfl
  | cons t ts ih =>
      unfold nextColorChannels
      have h1 : qAdd (cchs.headD 0) (calculateValueDelta (cchs.headD 0) t 1) = t := by
        unfold calculateValueDelta
        rw [qAdd_eq, qMul_eq, qSub_eq]
        ring
      rw [h1, jsRound_of_den_one (hint t (List.mem_cons_self t ts))]
      rw [ih (fun q hq => hint q (List.mem_cons_of_mem t hq))]

end Interp

/-! ## Claim C1 -/

/-- C1 counterexample: for static values of matching variant,
`calculateNextCssValue(curr, target, 0)` returns the target, not `curr`,
so the rate-0 boundary law fails as stated. -/
theorem calculateNextCssValue_zero_rate_static_counterexample :
    Interp.calculateNextCssValue (.static "0") (.static "1") 0 ≠
      Interp.CssPropertyValue.static "0" := by decide

/-- C1 (amended): for numeric, transform and color values of matching
shape — equal corresponding units, the same duplicate-free transform
function sequence, the same color format with integer channels —
`calculateNextCssValue` returns exactly `curr` at rate 0 and exactly
`target` at rate 1; for static values it returns a copy of `target` at
every rate, so both boundaries yield `target` there. -/
theorem calculateNextCssValue_boundary_laws :
    (∀ curr target : Interp.CssPropertyValue,
        Interp.matchingShape curr target = true →
        Interp.calculateNextCssValue curr target 0 = curr ∧
        Interp.calculateNextCssValue curr target 1 = target) ∧
    (∀ (curr : Interp.CssPropertyValue) (s : String) (rate : ℚ),
        Interp.calculateNextCssValue curr (.static s) rate = .static s) := by
  constructor
  · intro curr target h
    cases curr with
    | numeric cs =>
        cases target with
        | numeric ts =>
            have h' : Interp.unitsMatch cs ts = true := h
            exact ⟨congrArg Interp.CssPropertyValue.numeric
                (Interp.nextNumericValues_zero h'),
              congrArg Interp.CssPropertyValue.numeric
                (Interp.nextNumericValues_one h')⟩
        | static v => simp [Interp.matchingShape] at h
        | color f chs => simp [Interp.matchingShape] at h
        | transform ts => simp [Interp.matchingShape] at h
    | static v => cases target <;> simp [Interp.matchingShape] at h
    | color cf cchs =>
        cases target with
        | color tf tchs =>
            have h' : (decide (cf = tf) && decide (cchs.length = tchs.length) &&
                cchs.all (fun q => decide (q.den = 1)) &&
                tchs.all (fun q => decide (q.den = 1))) = true := h
            simp only [Bool.and_eq_true, decide_eq_true_eq,
              List.all_eq_true, decide_eq_true_eq] at h'
            obtain ⟨⟨⟨hf, hlen⟩, hci⟩, hti⟩ := h'
            constructor
            · show Interp.CssPropertyValue.color cf
                (Interp.nextColorChannels cchs tchs 0) =
                Interp.CssPropertyValue.color cf cchs
              rw [Interp.nextColorChannels_zero hlen hci]
            · show Interp.CssPropertyValue.color cf
                (Interp.nextColorChannels cchs tchs 1) =
                Interp.CssPropertyValue.color tf tchs
              rw [Interp.nextColorChannels_one hti, hf]
        | numeric ts => simp [Interp.matchingShape] at h
        | static v => simp [Interp.matchingShape] at h
        | transform ts => simp [Interp.matchingShape] at h
    | transform cs =>
        cases target with
        | transform ts =>
            have h' : (Interp.funcsMatch cs ts &&
                decide (aKeys ts).Nodup) = true := h
            simp only [Bool.and_eq_true, decide_eq_true_eq] at h'
            obtain ⟨hfm, hnd⟩ := h'
            have hfold0 := foldl_aSet_fresh
              (fun p => Interp.nextNumericValues ((aGet cs p.1).getD []) p.2 0)
              ts [] hnd (fun p _ => rfl)
            have hfold1 := foldl_aSet_fresh
              (fun p => Interp.nextNumericValues ((aGet cs p.1).getD []) p.2 1)
              ts [] hnd (fun p _ => rfl)
            constructor
            · show Interp.CssPropertyValue.transform
                (ts.foldl (fun a p => aSet a p.1
                  (Interp.nextNumericValues ((aGet cs p.1).getD []) p.2 0)) [])
                = Interp.CssPropertyValue.transform cs
              rw [hfold0]
              simp only [List.nil_append]
              rw [Interp.transform_map_zero hfm hnd]
            · show Interp.CssPropertyValue.transform
                (ts.foldl (fun a p => aSet a p.1
                  (Interp.nextNumericValues ((aGet cs p.1).getD []) p.2 1)) [])
                = Interp.CssPropertyValue.transform ts
              rw [hfold1]
              simp only [List.nil_append]
              rw [Interp.transform_map_one hfm hnd]
        | numeric ts => simp [Interp.matchingShape] at h
        | static v => simp [Interp.matchingShape] at h
        | color f chs => simp [Interp.matchingShape] at h
  · intro curr s rate
    rfl

/-- Witness for C1: the boundary laws evaluated on a concrete matching
numeric pair. -/
theorem calculateNextCssValue_boundary_laws_witness :
    Interp.matchingShape (.numeric [(100, "px"), (250, "px")])
      (.numeric [(125, "px"), (100, "px")]) = true ∧
    (Interp.calculateNextCssValue (.numeric [(100, "px"), (250, "px")])
        (.numeric [(125, "px"), (100, "px")]) 0 =
      .numeric [(100, "px"), (250, "px")] ∧
     Interp.calculateNextCssValue (.numeric [(100, "px"), (250, "px")])
        (.numeric [(125, "px"), (100, "px")]) 1 =
      .numeric [(125, "px"), (100, "px")]) :=
  ⟨by decide, calculateNextCssValue_boundary_laws.1 _ _ (by decide)⟩

/-! ## Claim C2 -/

/-- C2: the lex/parse/stringify round-trip fails on `"42px"`: the lexer
discards the trailing `px` fragment, the parser therefore produces a
unitless numeric value, its stringification lexes to the empty token
sequence instead of the original tokens.  (The repository's own parser
test expects `[[42, "px"]]` here, so the lexer contradicts it.) -/
theorem stringify_parse_roundTrip_failure_42px :
    Parsing.cssValueLexer
        (Parsing.stringifyParsedValue (Parsing.cssValueParser "42px")) ≠
      Parsing.cssValueLexer "42px" ∧
    Parsing.cssValueParser "42px" = .numeric [(42, "")] ∧
    Parsing.cssValueLexer "42px" = [.num 42] ∧
    Parsing.stringifyParsedValue (Parsing.cssValueParser "42px") = "42" := by
  refine ⟨?_, by decide, by decide, by decide⟩
  decide

/-! ## Claim C9 -/

/-- C9: `cssValueParser("translate(42, 1337px)")` is not recognized by the
transform handler (mixed unitless and unit-bearing parameters) and falls
through to the static fallback carrying the entire original input. -/
theorem cssValueParser_mixed_units_static_fallback :
    Parsing.cssValueParser "translate(42, 1337px)" =
      Parsing.CssPropertyValue.static "translate(42, 1337px)" ∧
    Parsing.transformValueHandler
        (Parsing.cssValueLexer "translate(42, 1337px)") = none := by
  constructor
  · decide
  · decide

/-! ## Claim C10 -/

/-- C10: the lexer never emits the fragment buffered when the input ends:
appending a break symbol is exactly what makes that pending token appear,
and on inputs whose last character is not a space or bracket the fragment
is silently dropped — `"42px"` lexes to just `42`, `"0"` and `"#ffffff"`
lex to the empty token sequence. -/
theorem cssValueLexer_discards_trailing_fragment :
    (∀ value : String,
        Parsing.cssValueLexer (value ++ " ") =
          Parsing.cssValueLexer value ++ [Parsing.pendingToken value]) ∧
    Parsing.cssValueLexer "42px" = [.num 42] ∧
    Parsing.cssValueLexer "0" = [] ∧
    Parsing.cssValueLexer "#ffffff" = [] := by
  refine ⟨?_, by decide, by decide, by decide⟩
  intro value
  unfold Parsing.cssValueLexer Parsing.pendingToken Parsing.lexScan
  rw [String.data_append, List.foldl_append]
  simp [Parsing.lexStep, Parsing.getCharType, Parsing.BREAK_SYMBOLS]

/-! ## Sorting and maximum lemmas (shared) -/

theorem jsSortInsert_perm {α : Type} (le : α → α → Bool) (a : α) (l : List α) :
    (jsSortInsert le a l).Perm (a :: l) := by
  induction l with
  | nil => exact List.Perm.refl _
  | cons b t ih =>
      unfold jsSortInsert
      by_cases h : le b a = true
      · rw [if_pos h]
        exact (ih.cons b).trans (List.Perm.swap a b t)
      · rw [if_neg h]

theorem jsStableSort_perm {α : Type} (le : α → α → Bool) (l : List α) :
    (jsStableSort le l).Perm l := by
  induction l with
  | nil => exact List.Perm.refl _
  | cons a t ih =>
      exact (jsSortInsert_perm le a (jsStableSort le t)).trans (ih.cons a)

theorem foldl_max_init_le {t : List ℚ} : ∀ {h : ℚ}, h ≤ t.foldl max h := by
  induction t with
  | nil => intro h; exact le_refl h
  | cons x xs ih =>
      intro h
      exact le_trans (le_max_left h x) ih

theorem foldl_max_le_of_mem {t : List ℚ} :
    ∀ {h x : ℚ}, x ∈ t → x ≤ t.foldl max h := by
  induction t with
  | nil => intro h x hx; cases hx
  | cons y ys ih =>
      intro h x hx
      rcases List.mem_cons.mp hx with hEq | hmem
      · subst hEq
        exact le_trans (le_max_right h x) foldl_max_init_le
      · exact ih hmem

theorem foldl_max_mem {t : List ℚ} :
    ∀ {h : ℚ}, t.foldl max h = h ∨ t.foldl max h ∈ t := by
  induction t with
  | nil => intro h; exact Or.inl rfl
  | cons x xs ih =>
      intro h
      rcases @ih (max h x) with hEq | hmem
      · rw [List.foldl_cons, hEq]
        rcases max_choice h x with h1 | h1
        · exact Or.inl h1
        · refine Or.inr ?_
          rw [h1]
          exact List.mem_cons_self x xs
      · exact Or.inr (List.mem_cons_of_mem x hmem)

theorem le_jsMaxList {l : List ℚ} {x : ℚ} (hx : x ∈ l) :
    x ≤ Engine.jsMaxList l := by
  cases l with
  | nil => cases hx
  | cons h t =>
      show x ≤ t.foldl max h
      rcases List.mem_cons.mp hx with hEq | hmem
      · subst hEq; exact foldl_max_init_le
      · exact foldl_max_le_of_mem hmem

theorem jsMaxList_mem {l : List ℚ} (hl : l ≠ []) :
    Engine.jsMaxList l ∈ l := by
  cases l with
  | nil => exact absurd rfl hl
  | cons h t =>
      show t.foldl max h ∈ h :: t
      rcases @foldl_max_mem t h with hEq | hmem
      · rw [hEq]; exact List.mem_cons_self h t
      · exact List.mem_cons_of_mem h hmem

theorem jsMaxList_perm {l₁ l₂ : List ℚ} (hp : l₁.Perm l₂) (hl : l₁ ≠ []) :
    Engine.jsMaxList l₁ = Engine.jsMaxList l₂ := by
  have hl₂ : l₂ ≠ [] := by
    intro hEq
    subst hEq
    exact hl (List.Perm.eq_nil hp)
  apply le_antisymm
  · exact le_jsMaxList (hp.mem_iff.mp (jsMaxList_mem hl))
  · exact le_jsMaxList (hp.mem_iff.mpr (jsMaxList_mem hl₂))

theorem foldl_max_map_mul (t : List ℚ) :
    ∀ h : ℚ, (t.map (fun q => q * 1000)).foldl max (h * 1000)
      = 1000 * t.foldl max h := by
  induction t with
  | nil => intro h; exact mul_comm h 1000
  | cons x xs ih =>
      intro h
      simp only [List.map_cons, List.foldl_cons]
      rw [show max (h * 1000) (x * 1000) = max h x * 1000 from
        (max_mul_of_nonneg h x (by norm_num)).symm]
      exact ih (max h x)

theorem jsMaxList_map_mul {l : List ℚ} (hl : l ≠ []) :
    Engine.jsMaxList (l.map (fun t => t * 1000)) =
      1000 * Engine.jsMaxList l := by
  cases l with
  | nil => exact absurd rfl hl
  | cons h t =>
      show (t.map (fun q => q * 1000)).foldl max (h * 1000)
        = 1000 * t.foldl max h
      exact foldl_max_map_mul t h

theorem getEndTime_parseRule (r : Engine.AnimationRule Engine.Styles) :
    Engine.getEndTime (Engine.parseRule r) = Engine.getEndTime r * 1000 := by
  have h : Engine.getEndTime (Engine.parseRule r)
      = qMul (Engine.getEndTime r) Engine.MS := by
    cases r with
    | dynamic sel ts f t => rcases ts with ⟨t0, t1⟩; rfl
    | instant sel t st => rfl
  rw [h, qMul_eq]
  rfl

theorem defineRun_eq_of_extract_none {env : Engine.DomEnv}
    {s s' : Engine.EngineState}
    {defn : List (Engine.AnimationRule Engine.Styles)}
    (hx : Engine.extractObjectsAndValidateRules env s defn = (s', none)) :
    Engine.defineRun env s defn =
      ({ s' with
          rules := (jsStableSort (fun a b =>
            decide (Engine.getStartTime a ≤ Engine.getStartTime b)) defn).map
            Engine.parseRule,
          duration := Engine.jsMaxList
            (((jsStableSort (fun a b =>
              decide (Engine.getStartTime a ≤ Engine.getStartTime b)) defn).map
              Engine.parseRule).map Engine.getEndTime) }, none) := by
  unfold Engine.defineRun
  rw [hx]

theorem defineRun_duration_of_ok {env : Engine.DomEnv}
    {s : Engine.EngineState} {defn : List (Engine.AnimationRule Engine.Styles)}
    (h : (Engine.defineRun env s defn).2 = none) (hne : defn ≠ []) :
    (Engine.defineRun env s defn).1.duration =
      1000 * Engine.jsMaxList (defn.map Engine.getEndTime) := by
  rcases hx : Engine.extractObjectsAndValidateRules env s defn with ⟨s', oe⟩
  cases oe with
  | some e =>
      have h2 : (Engine.defineRun env s defn).2 = some e := by
        unfold Engine.defineRun
        rw [hx]
      rw [h2] at h
      cases h
  | none =>
      rw [defineRun_eq_of_extract_none hx]
      simp only
      have hperm : (jsStableSort (fun a b =>
          decide (Engine.getStartTime a ≤ Engine.getStartTime b)) defn).Perm
          defn := jsStableSort_perm _ defn
      set sorted := jsStableSort (fun a b =>
        decide (Engine.getStartTime a ≤ Engine.getStartTime b)) defn with hs
      have hmap : (sorted.map Engine.parseRule).map Engine.getEndTime
          = (sorted.map Engine.getEndTime).map (fun t => t * 1000) := by
        rw [List.map_map, List.map_map]
        apply List.map_congr_left
        intro r _
        exact getEndTime_parseRule r
      rw [hmap]
      have hsne : sorted.map Engine.getEndTime ≠ [] := by
        intro hEq
        have h2 := congrArg List.length hEq
        simp only [List.length_map, List.length_nil] at h2
        rw [hperm.length_eq] at h2
        exact hne (List.length_eq_zero.mp h2)
      rw [jsMaxList_map_mul hsne]
      congr 1
      exact jsMaxList_perm (hperm.map Engine.getEndTime) hsne

/-! ## Claim C4 -/

/-- C4: for every non-empty rule set accepted by `define`, the resulting
duration is the maximal rule end time (`timespan[1]` or `at`) converted to
milliseconds, and any permutation of the definition that `define` also
accepts yields the same duration. -/
theorem defineRun_duration_max_end_time_order_invariant :
    ∀ (env : Engine.DomEnv) (s : Engine.EngineState)
      (defn : List (Engine.AnimationRule Engine.Styles)),
      defn ≠ [] → (Engine.defineRun env s defn).2 = none →
      (Engine.defineRun env s defn).1.duration =
          1000 * Engine.jsMaxList (defn.map Engine.getEndTime) ∧
        ∀ (env2 : Engine.DomEnv) (s2 : Engine.EngineState)
          (defn2 : List (Engine.AnimationRule Engine.Styles)),
          defn2.Perm defn → (Engine.defineRun env2 s2 defn2).2 = none →
          (Engine.defineRun env2 s2 defn2).1.duration =
            (Engine.defineRun env s defn).1.duration := by
  intro env s defn hne hok
  refine ⟨defineRun_duration_of_ok hok hne, ?_⟩
  intro env2 s2 defn2 hperm hok2
  have hne2 : defn2 ≠ [] := by
    intro hEq
    subst hEq
    exact hne (List.Perm.eq_nil hperm.symm)
  rw [defineRun_duration_of_ok hok2 hne2, defineRun_duration_of_ok hok hne]
  congr 1
  apply jsMaxList_perm (hperm.map Engine.getEndTime)
  intro hEq
  have h2 := congrArg List.length hEq
  simp only [List.length_map, List.length_nil] at h2
  exact hne2 (List.length_eq_zero.mp h2)

/-- Witness for C4: scenario B — timespans `[0,5]` and `[3,7]` give
duration `7000` ms in either order. -/
theorem defineRun_duration_max_end_time_order_invariant_witness :
    ([Cases.ruleSpanFive, Cases.ruleSpanSeven] ≠
      ([] : List (Engine.AnimationRule Engine.Styles))) ∧
    (Engine.defineRun Cases.env Cases.initState
      [Cases.ruleSpanFive, Cases.ruleSpanSeven]).2 = none ∧
    (Engine.defineRun Cases.env Cases.initState
      [Cases.ruleSpanFive, Cases.ruleSpanSeven]).1.duration =
      1000 * Engine.jsMaxList
        ([Cases.ruleSpanFive, Cases.ruleSpanSeven].map Engine.getEndTime) ∧
    (Engine.defineRun Cases.env Cases.initState
      [Cases.ruleSpanFive, Cases.ruleSpanSeven]).1.duration = 7000 ∧
    (Engine.defineRun Cases.env Cases.initState
      [Cases.ruleSpanSeven, Cases.ruleSpanFive]).1.duration =
      (Engine.defineRun Cases.env Cases.initState
        [Cases.ruleSpanFive, Cases.ruleSpanSeven]).1.duration :=
  ⟨by decide, by decide,
    (defineRun_duration_max_end_time_order_invariant Cases.env Cases.initState
      _ (by decide) (by decide)).1,
    by decide,
    (defineRun_duration_max_end_time_order_invariant Cases.env Cases.initState
      _ (by decide) (by decide)).2
      Cases.env Cases.initState _ (by decide) (by decide)⟩

/-! ## Claim C3 -/

/-- C3: scenario A is accepted by `define` (duration 4000 ms, time 0), but
because the shipped lexer drops the pending buffer, the style strings `"0"`
and `"1"` parse as static values, so `forward(2000)` does not interpolate:
it writes the target's raw string `"1"` to the element, not `"0.5"`. -/
theorem forward_2000_writes_target_string_not_midpoint :
    (Engine.defineRun Cases.env Cases.initState [Cases.scenarioARule]).2 = none ∧
    Cases.definedA.duration = 4000 ∧
    Cases.definedA.currentTime = 0 ∧
    Parsing.cssValueParser "0" = .static "0" ∧
    Parsing.cssValueParser "1" = .static "1" ∧
    aGet (Engine.forward (some 2000) Cases.definedA).dom (2, "opacity")
      = some "1" :=
  ⟨by decide, by decide, by decide, by decide, by decide, by decide⟩

/-! ## Association-list lemmas (shared) -/

theorem aGet_aDelete {κ α : Type} [DecidableEq κ] (l : List (κ × α)) (k k' : κ) :
    aGet (aDelete l k') k = if k = k' then none else aGet l k := by
  induction l with
  | nil =>
      by_cases hk : k = k' <;> simp [aDelete, aGet, hk]
  | cons p t ih =>
      obtain ⟨k0, v0⟩ := p
      by_cases h0 : k0 = k'
      · subst h0
        have hstep : aDelete ((k0, v0) :: t) k0 = aDelete t k0 := by
          simp [aDelete]
        rw [hstep, ih]
        by_cases hk : k = k0
        · simp [hk]
        · simp only [if_neg hk]
          rw [aGet_cons_ne (fun h => hk h.symm)]
      · have hstep : aDelete ((k0, v0) :: t) k' = (k0, v0) :: aDelete t k' := by
          simp [aDelete, h0]
        rw [hstep]
        by_cases hk0 : k0 = k
        · subst hk0
          rw [aGet_cons_eq, if_neg (fun h => h0 h), aGet_cons_eq]
        · rw [aGet_cons_ne hk0, ih]
          by_cases hk : k = k'
          · simp [hk]
          · simp only [if_neg hk]
            rw [aGet_cons_ne hk0]

theorem aGet_aSet_self {κ α : Type} [DecidableEq κ] (l : List (κ × α))
    (k : κ) (v : α) : aGet (aSet l k v) k = some v := by
  induction l with
  | nil => exact aGet_cons_eq
  | cons p t ih =>
      obtain ⟨k0, v0⟩ := p
      by_cases h : k0 = k
      · subst h
        show aGet (if k0 = k0 then (k0, v) :: t else (k0, v0) :: aSet t k0 v) k0
          = some v
        rw [if_pos rfl, aGet_cons_eq]
      · show aGet (if k0 = k then (k, v) :: t else (k0, v0) :: aSet t k v) k
          = some v
        rw [if_neg h, aGet_cons_ne h, ih]

theorem aGet_aSet_ne {κ α : Type} [DecidableEq κ] (l : List (κ × α))
    (k k' : κ) (v : α) (h : k' ≠ k) : aGet (aSet l k v) k' = aGet l k' := by
  induction l with
  | nil =>
      show aGet [(k, v)] k' = aGet [] k'
      rw [aGet_cons_ne (fun hh => h hh.symm)]
  | cons p t ih =>
      obtain ⟨k0, v0⟩ := p
      by_cases h0 : k0 = k
      · subst h0
        show aGet (if k0 = k0 then (k0, v) :: t else _) k' = _
        rw [if_pos rfl, aGet_cons_ne (fun hh => h hh.symm)]
        by_cases hk0 : k0 = k'
        · exact absurd hk0.symm (fun hh => h hh)
        · rw [aGet_cons_ne hk0]
      · show aGet (if k0 = k then _ else (k0, v0) :: aSet t k v) k' = _
        rw [if_neg h0]
        by_cases hk0 : k0 = k'
        · subst hk0
          rw [aGet_cons_eq, aGet_cons_eq]
        · rw [aGet_cons_ne hk0, aGet_cons_ne hk0, ih]

theorem aSet_eq_of_aGet {κ α : Type} [DecidableEq κ] {l : List (κ × α)}
    {k : κ} {v : α} (h : aGet l k = some v) : aSet l k v = l := by
  induction l with
  | nil => cases h
  | cons p t ih =>
      obtain ⟨k0, v0⟩ := p
      by_cases h0 : k0 = k
      · subst h0
        rw [aGet_cons_eq] at h
        obtain rfl : v0 = v := by injection h
        show (if k0 = k0 then (k0, v0) :: t else _) = _
        rw [if_pos rfl]
      · rw [aGet_cons_ne h0] at h
        show (if k0 = k then _ else (k0, v0) :: aSet t k v) = _
        rw [if_neg h0, ih h]

/-! ## Claim C7 -/

theorem validateRule_general_count_mismatch
    (sel a b va vb va2 : String) (t0 t1 : ℚ)
    (hd : 0 < qSub t1 t0) :
    Engine.validateRule (.dynamic sel (t0, t1) [(a, va), (b, vb)] [(a, va2)]) =
      some ("Animation: There is a mismatch between the number of \"from\" and \"to\" styles for selector '"
        ++ sel ++ "'") := by
  unfold Engine.validateRule
  simp only
  rw [if_neg (not_lt.mpr (le_of_lt hd)), if_neg (ne_of_gt hd),
    if_pos (by simp [aKeys])]

/-- C7 counterexample: scenario C (`from` has `opacity` and `border`, `to`
only `opacity`) is rejected with the style-count mismatch message, which
names the selector but never the missing `border` property. -/
theorem validateRule_count_mismatch_omits_property_counterexample :
    Engine.validateRule Cases.mismatchRule = some Cases.mismatchMsg ∧
    (Engine.defineRun Cases.env Cases.initState [Cases.mismatchRule]).2 =
      some Cases.mismatchMsg ∧
    ¬ ("border".data <:+: Cases.mismatchMsg.data) :=
  ⟨by decide, by decide, by set_option maxRecDepth 8000 in decide⟩

/-- C7: a range rule whose `from` styles declare `{a, b}` and whose `to`
styles declare only `{a}` makes `define` throw the style-count mismatch
error; the message names the rule's selector only — the missing property is
never reached, because the count check precedes the per-property check. -/
theorem defineRun_count_mismatch_names_selector_only
    (env : Engine.DomEnv) (s : Engine.EngineState)
    (sel a b va vb va2 : String) (t0 t1 : ℚ)
    (hd : 0 < qSub t1 t0) (hab : a ≠ b) :
    Engine.defineRun env s
        [.dynamic sel (t0, t1) [(a, va), (b, vb)] [(a, va2)]] =
      (s, some ("Animation: There is a mismatch between the number of \"from\" and \"to\" styles for selector '"
        ++ sel ++ "'")) := by
  have hv := validateRule_general_count_mismatch sel a b va vb va2 t0 t1 hd
  unfold Engine.defineRun Engine.extractObjectsAndValidateRules
  rw [hv]

/-- Witness for C7 at scenario C. -/
theorem defineRun_count_mismatch_names_selector_only_witness :
    0 < qSub 1 0 ∧ ("opacity" : String) ≠ "border" ∧
    Engine.defineRun Cases.env Cases.initState [Cases.mismatchRule] =
      (Cases.initState, some Cases.mismatchMsg) :=
  ⟨by decide, by decide,
    defineRun_count_mismatch_names_selector_only Cases.env Cases.initState
      "L" "opacity" "border" "0" "1px" "1" 0 1 (by decide) (by decide)⟩

/-! ## Claim C8 -/

theorem domDeleteFold_none (e : Engine.Element) :
    ∀ (keys : List String) (d : List ((Engine.Element × String) × String))
      (k : Engine.Element × String), aGet d k = none →
      aGet (keys.foldl (fun d2 st => aDelete d2 (e, st)) d) k = none := by
  intro keys
  induction keys with
  | nil => intro d k h; exact h
  | cons st sts ih =>
      intro d k h
      rw [List.foldl_cons]
      apply ih
      rw [aGet_aDelete]
      by_cases hk : k = (e, st)
      · rw [if_pos hk]
      · rw [if_neg hk, h]

theorem domDeleteFold_deleted (e : Engine.Element) :
    ∀ (keys : List String) (d : List ((Engine.Element × String) × String))
      (prop : String), prop ∈ keys →
      aGet (keys.foldl (fun d2 st => aDelete d2 (e, st)) d) (e, prop)
        = none := by
  intro keys
  induction keys with
  | nil => intro d prop h; cases h
  | cons st sts ih =>
      intro d prop hmem
      rw [List.foldl_cons]
      rcases List.mem_cons.mp hmem with hEq | hmem2
      · subst hEq
        apply domDeleteFold_none
        rw [aGet_aDelete, if_pos rfl]
      · exact ih _ prop hmem2

theorem resetStyleStep_single (sel : String) (acc : Engine.EngineState)
    (st : String) (e : Engine.Element)
    (hobj : aGet acc.allObjects sel = some (.inl e)) :
    Engine.resetStyleStep sel acc st
      = some { acc with dom := aDelete acc.dom (e, st) } := by
  unfold Engine.resetStyleStep
  rw [hobj]

theorem resetDomFold_ok (sel : String) (e : Engine.Element) :
    ∀ (keys : List String) (acc : Engine.EngineState),
      aGet acc.allObjects sel = some (.inl e) →
      keys.foldl (fun a st =>
          a.bind (fun x => Engine.resetStyleStep sel x st)) (some acc)
        = some { acc with
            dom := keys.foldl (fun d st => aDelete d (e, st)) acc.dom } := by
  intro keys
  induction keys with
  | nil =>
      intro acc hobj
      rfl
  | cons st sts ih =>
      intro acc hobj
      rw [List.foldl_cons]
      simp only [Option.some_bind]
      rw [resetStyleStep_single sel acc st e hobj]
      rw [ih { acc with dom := aDelete acc.dom (e, st) } hobj]
      rfl

theorem resetEntry_ok (acc : Engine.EngineState) (sel : String)
    (styles : Engine.ParsedStyles) (e : Engine.Element)
    (hobj : aGet acc.allObjects sel = some (.inl e)) :
    Engine.resetEntry acc sel styles
      = some { acc with
          dom := (aKeys styles).foldl (fun d st => aDelete d (e, st)) acc.dom,
          activeStyles := aDelete acc.activeStyles sel } := by
  unfold Engine.resetEntry
  rw [resetDomFold_ok sel e (aKeys styles) acc hobj]
  rfl

theorem resetFold_ok :
    ∀ (l : List (String × Engine.ParsedStyles)) (acc : Engine.EngineState),
      (∀ p ∈ l, ∃ e, aGet acc.allObjects p.1 = some (.inl e)) →
      ∃ r, l.foldl (fun a p =>
            a.bind (fun x => Engine.resetEntry x p.1 p.2)) (some acc)
          = some r ∧
        r.rules = acc.rules ∧ r.currentTime = acc.currentTime ∧
        r.duration = acc.duration ∧ r.timestep = acc.timestep ∧
        r.allObjects = acc.allObjects ∧ r.completed = acc.completed ∧
        r.playing = acc.playing ∧ r.progress = acc.progress ∧
        (∀ q ∈ r.activeStyles, q ∈ acc.activeStyles ∧
          q.1 ∉ l.map Prod.fst) ∧
        (∀ k, aGet acc.dom k = none → aGet r.dom k = none) ∧
        (∀ (sel : String) (styles : Engine.ParsedStyles)
          (e : Engine.Element) (prop : String),
          (sel, styles) ∈ l → prop ∈ aKeys styles →
          aGet acc.allObjects sel = some (.inl e) →
          aGet r.dom (e, prop) = none) := by
  intro l
  induction l with
  | nil =>
      intro acc h
      refine ⟨acc, rfl, rfl, rfl, rfl, rfl, rfl, rfl, rfl, rfl, ?_, ?_, ?_⟩
      · intro q hq
        exact ⟨hq, by simp⟩
      · intro k h2
        exact h2
      · intro sel styles e prop hmem
        cases hmem
  | cons p rest ih =>
      intro acc h
      obtain ⟨e0, he0⟩ := h p (List.mem_cons_self p rest)
      have hsingle2 : ∀ q ∈ rest, ∃ e, aGet ({ acc with
          dom := (aKeys p.2).foldl (fun d st => aDelete d (e0, st)) acc.dom,
          activeStyles := aDelete acc.activeStyles p.1 }
            : Engine.EngineState).allObjects q.1 = some (.inl e) := by
        intro q hq
        exact h q (List.mem_cons_of_mem p hq)
      obtain ⟨r, hfold, h1, h2, h3, h4, h5, h6, h7, h8, h9, h10, h11⟩ :=
        ih { acc with
          dom := (aKeys p.2).foldl (fun d st => aDelete d (e0, st)) acc.dom,
          activeStyles := aDelete acc.activeStyles p.1 } hsingle2
      refine ⟨r, ?_, h1, h2, h3, h4, h5, h6, h7, h8, ?_, ?_, ?_⟩
      · rw [List.foldl_cons]
        simp only [Option.some_bind]
        rw [resetEntry_ok acc p.1 p.2 e0 he0]
        exact hfold
      · intro q hq
        obtain ⟨hq1, hq2⟩ := h9 q hq
        have hmem := List.mem_filter.mp hq1
        have hne : q.1 ≠ p.1 := of_decide_eq_true hmem.2
        refine ⟨hmem.1, ?_⟩
        rw [List.map_cons]
        intro hc
        rcases List.mem_cons.mp hc with hc1 | hc2
        · exact hne hc1
        · exact hq2 hc2
      · intro k hk
        apply h10
        exact domDeleteFold_none e0 (aKeys p.2) acc.dom k hk
      · intro sel styles e prop hmem hprop hobj
        rcases List.mem_cons.mp hmem with hEq | hmem2
        · have hpe : p = (sel, styles) := hEq.symm
          subst hpe
          rw [he0] at hobj
          injection hobj with hx1
          injection hx1 with hx2
          subst hx2
          apply h10
          exact domDeleteFold_deleted e0 (aKeys styles) acc.dom prop hprop
        · exact h11 sel styles e prop hmem2 hprop hobj

/-- C8 counterexample: after `forward` runs past the duration the engine is
completed and its style cache is empty, so `reset` returns normally — and
leaves the flag set: the engine is still marked completed, contradicting
the claim’s "no longer marked Completed". -/
theorem reset_keeps_completed_counterexample :
    (Engine.forward (some 5000) Cases.definedA).completed = true ∧
    (Engine.reset (Engine.forward (some 5000) Cases.definedA)).map
      (fun r => r.completed) = some true ∧
    (Engine.stop (Engine.forward (some 5000) Cases.definedA)).map
      (fun r => r.completed) = some true :=
  ⟨by decide, by decide, by decide⟩

/-- C8: when every selector holding active styles resolves to a single
element in the registry, `reset` (and its alias `stop`) returns normally
and the resulting state is paused with time and progress 0, an empty
active-styles cache, every cached selector/property pair removed from its
element, and the rules, duration and registry unchanged; the completion
flag is NOT cleared — it keeps its previous value.  (A cached selector
whose registry entry is an element array or missing makes the renderer
throw instead, aborting the call.) -/
theorem reset_state_cleanup (s : Engine.EngineState)
    (hsingle : Engine.singleElementTargets s = true) :
    ∃ r, Engine.reset s = some r ∧ Engine.stop s = some r ∧
      r.playing = false ∧ r.currentTime = 0 ∧ r.progress = 0 ∧
      r.activeStyles = [] ∧ r.completed = s.completed ∧
      r.rules = s.rules ∧ r.duration = s.duration ∧
      r.allObjects = s.allObjects ∧
      ∀ (sel : String) (styles : Engine.ParsedStyles) (prop : String)
        (e : Engine.Element),
        (sel, styles) ∈ s.activeStyles → prop ∈ aKeys styles →
        aGet s.allObjects sel = some (.inl e) →
        aGet r.dom (e, prop) = none := by
  have hsng : ∀ p ∈ s.activeStyles,
      ∃ e, aGet s.allObjects p.1 = some (.inl e) := by
    intro p hp
    have hb := List.all_eq_true.mp hsingle p hp
    cases hg : aGet s.allObjects p.1 with
    | none =>
        rw [hg] at hb
        exact (Bool.false_ne_true hb).elim
    | some t =>
        cases t with
        | inl e => exact ⟨e, rfl⟩
        | inr es =>
            rw [hg] at hb
            exact (Bool.false_ne_true hb).elim
  obtain ⟨r, hfold, h1, h2, h3, h4, h5, h6, h7, h8, h9, h10, h11⟩ :=
    resetFold_ok s.activeStyles
      { Engine.pause s with currentTime := 0, progress := 0 } hsng
  have hre : Engine.reset s = some r := hfold
  refine ⟨r, hre, hre, h7, h2, h8, ?_, h6, h1, h3, h5, ?_⟩
  · cases hA : r.activeStyles with
    | nil => rfl
    | cons q t =>
        exfalso
        have hq := h9 q (by rw [hA]; exact List.mem_cons_self q t)
        exact hq.2 (List.mem_map_of_mem Prod.fst hq.1)
  · intro sel styles prop e hmem hprop hobj
    exact h11 sel styles e prop hmem hprop hobj

/-- Witness for C8: a mid-animation engine whose cache holds the opacity of
element 2 under a single-element selector; `reset` succeeds, pauses,
zeroes, empties the cache and removes the style. -/
theorem reset_state_cleanup_witness :
    Engine.singleElementTargets (Engine.forward (some 2000) Cases.definedA)
      = true ∧
    (∃ r, Engine.reset (Engine.forward (some 2000) Cases.definedA)
        = some r ∧
      Engine.stop (Engine.forward (some 2000) Cases.definedA) = some r ∧
      r.playing = false ∧ r.currentTime = 0 ∧ r.progress = 0 ∧
      r.activeStyles = [] ∧
      r.completed = (Engine.forward (some 2000) Cases.definedA).completed ∧
      r.rules = (Engine.forward (some 2000) Cases.definedA).rules ∧
      r.duration = (Engine.forward (some 2000) Cases.definedA).duration ∧
      r.allObjects
        = (Engine.forward (some 2000) Cases.definedA).allObjects ∧
      ∀ (sel : String) (styles : Engine.ParsedStyles) (prop : String)
        (e : Engine.Element),
        (sel, styles)
          ∈ (Engine.forward (some 2000) Cases.definedA).activeStyles →
        prop ∈ aKeys styles →
        aGet (Engine.forward (some 2000) Cases.definedA).allObjects sel
          = some (.inl e) →
        aGet r.dom (e, prop) = none) :=
  ⟨by decide,
    reset_state_cleanup (Engine.forward (some 2000) Cases.definedA)
      (by decide)⟩

/-! ## Claim C6 -/

theorem extractObjects_fields (env : Engine.DomEnv) (s : Engine.EngineState)
    (rule : Engine.AnimationRule Engine.Styles) (s' : Engine.EngineState)
    (h : Engine.extractObjects env s rule = .inl s') :
    s'.rules = s.rules ∧ s'.currentTime = s.currentTime ∧
    s'.duration = s.duration ∧ s'.timestep = s.timestep ∧
    s'.activeStyles = s.activeStyles ∧ s'.dom = s.dom ∧
    s'.completed = s.completed ∧ s'.playing = s.playing ∧
    s'.progress = s.progress := by
  unfold Engine.extractObjects at h
  dsimp only at h
  split at h
  · cases h
  · cases h
  · split at h
    · split at h
      · cases h
      · injection h with h'
        subst h'
        exact ⟨rfl, rfl, rfl, rfl, rfl, rfl, rfl, rfl, rfl⟩
    · injection h with h'
      subst h'
      exact ⟨rfl, rfl, rfl, rfl, rfl, rfl, rfl, rfl, rfl⟩

theorem eovr_fields (env : Engine.DomEnv) :
    ∀ (defn : List (Engine.AnimationRule Engine.Styles))
      (s : Engine.EngineState),
      (Engine.extractObjectsAndValidateRules env s defn).1.rules = s.rules ∧
      (Engine.extractObjectsAndValidateRules env s defn).1.currentTime = s.currentTime ∧
      (Engine.extractObjectsAndValidateRules env s defn).1.duration = s.duration ∧
      (Engine.extractObjectsAndValidateRules env s defn).1.timestep = s.timestep ∧
      (Engine.extractObjectsAndValidateRules env s defn).1.activeStyles = s.activeStyles ∧
      (Engine.extractObjectsAndValidateRules env s defn).1.dom = s.dom ∧
      (Engine.extractObjectsAndValidateRules env s defn).1.completed = s.completed ∧
      (Engine.extractObjectsAndValidateRules env s defn).1.playing = s.playing ∧
      (Engine.extractObjectsAndValidateRules env s defn).1.progress = s.progress := by
  intro defn
  induction defn with
  | nil => intro s; exact ⟨rfl, rfl, rfl, rfl, rfl, rfl, rfl, rfl, rfl⟩
  | cons r rest ih =>
      intro s
      unfold Engine.extractObjectsAndValidateRules
      cases hv : Engine.validateRule r with
      | some e => exact ⟨rfl, rfl, rfl, rfl, rfl, rfl, rfl, rfl, rfl⟩
      | none =>
          cases hx : Engine.extractObjects env s r with
          | inr e => exact ⟨rfl, rfl, rfl, rfl, rfl, rfl, rfl, rfl, rfl⟩
          | inl s1 =>
              have h1 := extractObjects_fields env s r s1 hx
              have h2 := ih s1
              exact ⟨h2.1.trans h1.1, h2.2.1.trans h1.2.1,
                h2.2.2.1.trans h1.2.2.1, h2.2.2.2.1.trans h1.2.2.2.1,
                h2.2.2.2.2.1.trans h1.2.2.2.2.1,
                h2.2.2.2.2.2.1.trans h1.2.2.2.2.2.1,
                h2.2.2.2.2.2.2.1.trans h1.2.2.2.2.2.2.1,
                h2.2.2.2.2.2.2.2.1.trans h1.2.2.2.2.2.2.2.1,
                h2.2.2.2.2.2.2.2.2.trans h1.2.2.2.2.2.2.2.2⟩

/-- C6 counterexample: a definition whose first rule is valid and whose
second has an inverted timespan makes `define` throw, yet the object
registry retains the entry extracted for the first rule — the abort is not
atomic on `allObjects`. -/
theorem defineRun_error_mutates_registry_counterexample :
    (Engine.defineRun Cases.env Cases.initState
      [Cases.scenarioARule, Cases.invalidSpanRule]).2.isSome = true ∧
    (Engine.defineRun Cases.env Cases.initState
      [Cases.scenarioARule, Cases.invalidSpanRule]).1.allObjects
      ≠ Cases.initState.allObjects ∧
    aGet (Engine.defineRun Cases.env Cases.initState
      [Cases.scenarioARule, Cases.invalidSpanRule]).1.allObjects "L>>.c"
      = some (.inl 2) :=
  ⟨by decide, by decide, by decide⟩

/-- C6: when `define` raises a validation or resolution error, no rules are
installed and the duration, times, caches, DOM writes and flags are exactly
as before the call; only the object registry `allObjects` may keep the
entries extracted for the rules processed before the failing one. -/
theorem defineRun_error_preserves_engine_fields
    (env : Engine.DomEnv) (s : Engine.EngineState)
    (defn : List (Engine.AnimationRule Engine.Styles))
    (h : (Engine.defineRun env s defn).2.isSome = true) :
    (Engine.defineRun env s defn).1.rules = s.rules ∧
    (Engine.defineRun env s defn).1.currentTime = s.currentTime ∧
    (Engine.defineRun env s defn).1.duration = s.duration ∧
    (Engine.defineRun env s defn).1.timestep = s.timestep ∧
    (Engine.defineRun env s defn).1.activeStyles = s.activeStyles ∧
    (Engine.defineRun env s defn).1.dom = s.dom ∧
    (Engine.defineRun env s defn).1.completed = s.completed ∧
    (Engine.defineRun env s defn).1.playing = s.playing ∧
    (Engine.defineRun env s defn).1.progress = s.progress := by
  rcases hx : Engine.extractObjectsAndValidateRules env s defn with ⟨s', oe⟩
  cases oe with
  | none =>
      have hnone : (Engine.defineRun env s defn).2 = none := by
        rw [defineRun_eq_of_extract_none hx]
      rw [hnone] at h
      cases h
  | some e =>
      have hD : Engine.defineRun env s defn = (s', some e) := by
        unfold Engine.defineRun
        rw [hx]
      have hf := eovr_fields env defn s
      rw [hx] at hf
      rw [hD]
      exact hf

/-- Witness for C6: the registry-mutating failing definition of the C6
counterexample still leaves rules, duration and the DOM untouched. -/
theorem defineRun_error_preserves_engine_fields_witness :
    (Engine.defineRun Cases.env Cases.initState
      [Cases.scenarioARule, Cases.invalidSpanRule]).2.isSome = true ∧
    (Engine.defineRun Cases.env Cases.initState
      [Cases.scenarioARule, Cases.invalidSpanRule]).1.rules
      = Cases.initState.rules ∧
    (Engine.defineRun Cases.env Cases.initState
      [Cases.scenarioARule, Cases.invalidSpanRule]).1.duration
      = Cases.initState.duration ∧
    (Engine.defineRun Cases.env Cases.initState
      [Cases.scenarioARule, Cases.invalidSpanRule]).1.dom
      = Cases.initState.dom :=
  ⟨by decide,
    (defineRun_error_preserves_engine_fields Cases.env Cases.initState _
      (by decide)).1,
    (defineRun_error_preserves_engine_fields Cases.env Cases.initState _
      (by decide)).2.2.1,
    (defineRun_error_preserves_engine_fields Cases.env Cases.initState _
      (by decide)).2.2.2.2.2.1⟩

/-! ## Seek stabilization: the frame-update fixed point (C5 support) -/
theorem qSub_self (a : ℚ) : qSub a a = 0 := by
  rw [qSub_eq, sub_self]

theorem valDelta_zero (c t : ℚ) : calculateValueDelta c t 0 = 0 := by
  unfold calculateValueDelta
  rw [qMul_eq, mul_zero]

theorem qAdd_valDelta_zero (c t : ℚ) :
    qAdd c (calculateValueDelta c t 0) = c := by
  rw [valDelta_zero, qAdd_eq, add_zero]

theorem changeRate_self_zero (t x : ℚ) :
    qAbs (qDiv (qSub t t) x) = 0 := by
  rw [qSub_self, qDiv_eq, zero_div, qAbs_eq, abs_zero]

theorem jsRoundInt_intCast (n : ℤ) : jsRoundInt ((n : ℤ) : ℚ) = n := by
  rw [jsRoundInt_eq]
  rw [show ((n : ℤ) : ℚ) + 1 / 2 = (n : ℚ) + (1 / 2 : ℚ) from rfl]
  rw [Int.floor_int_add]
  norm_num

theorem foldl_id_of_fix {α β : Type} {f : α → β → α} {z : α} :
    ∀ {l : List β}, (∀ x ∈ l, f z x = z) → l.foldl f z = z := by
  intro l
  induction l with
  | nil => intro _; rfl
  | cons x xs ih =>
      intro h
      rw [List.foldl_cons, h x (List.mem_cons_self x xs)]
      exact ih (fun y hy => h y (List.mem_cons_of_mem x hy))

theorem mem_aSet {κ α : Type} [DecidableEq κ] {l : List (κ × α)}
    {k : κ} {v : α} {q : κ × α} (h : q ∈ aSet l k v) :
    q ∈ l ∨ q = (k, v) := by
  induction l with
  | nil =>
      rcases List.mem_singleton.mp h with rfl
      exact Or.inr rfl
  | cons p t ih =>
      obtain ⟨k0, v0⟩ := p
      by_cases h0 : k0 = k
      · subst h0
        rw [show aSet ((k0, v0) :: t) k0 v = (k0, v) :: t from by
          show (if k0 = k0 then _ else _) = _
          rw [if_pos rfl]] at h
        rcases List.mem_cons.mp h with rfl | hm
        · exact Or.inr rfl
        · exact Or.inl (List.mem_cons_of_mem _ hm)
      · rw [show aSet ((k0, v0) :: t) k v = (k0, v0) :: aSet t k v from by
          show (if k0 = k then _ else _) = _
          rw [if_neg h0]] at h
        rcases List.mem_cons.mp h with rfl | hm
        · exact Or.inl (List.mem_cons_self _ _)
        · rcases ih hm with h1 | h1
          · exact Or.inl (List.mem_cons_of_mem _ h1)
          · exact Or.inr h1

theorem aGet_none_not_mem {κ α : Type} [DecidableEq κ] {l : List (κ × α)}
    {k : κ} (h : aGet l k = none) : k ∉ aKeys l := by
  induction l with
  | nil => intro hm; cases hm
  | cons p t ih =>
      obtain ⟨k0, v0⟩ := p
      by_cases h0 : k0 = k
      · subst h0
        rw [aGet_cons_eq] at h
        cases h
      · rw [aGet_cons_ne h0] at h
        intro hm
        rcases List.mem_cons.mp hm with hEq | hm'
        · exact h0 hEq.symm
        · exact ih h hm'

theorem aGet_some_of_mem_keys {κ α : Type} [DecidableEq κ] {l : List (κ × α)}
    {k : κ} (h : k ∈ aKeys l) : aGet l k ≠ none := by
  intro hn
  exact aGet_none_not_mem hn h

theorem aKeys_aSet_of_some {κ α : Type} [DecidableEq κ] {l : List (κ × α)}
    {k : κ} {v w : α} (h : aGet l k = some w) :
    aKeys (aSet l k v) = aKeys l := by
  induction l with
  | nil => cases h
  | cons p t ih =>
      obtain ⟨k0, v0⟩ := p
      by_cases h0 : k0 = k
      · subst h0
        show aKeys (if k0 = k0 then (k0, v) :: t else _) = _
        rw [if_pos rfl]
        rfl
      · rw [aGet_cons_ne h0] at h
        show aKeys (if k0 = k then _ else (k0, v0) :: aSet t k v) = _
        rw [if_neg h0]
        show k0 :: aKeys (aSet t k v) = k0 :: aKeys t
        rw [ih h]

theorem aSet_nodup_keys {κ α : Type} [DecidableEq κ] {l : List (κ × α)}
    {k : κ} {v : α} (h : (aKeys l).Nodup) :
    (aKeys (aSet l k v)).Nodup := by
  rcases ho : aGet l k with _ | w
  · rw [aSet_of_aGet_none ho]
    have hk : aKeys (l ++ [(k, v)]) = aKeys l ++ [k] := by
      simp [aKeys]
    rw [hk]
    refine List.Nodup.append h (List.nodup_singleton k) ?_
    intro a ha hb
    rcases List.mem_singleton.mp hb with rfl
    exact aGet_none_not_mem ho ha
  · rw [aKeys_aSet_of_some ho]
    exact h

theorem aDelete_nodup_keys {κ α : Type} [DecidableEq κ] {l : List (κ × α)}
    {k : κ} (h : (aKeys l).Nodup) : (aKeys (aDelete l k)).Nodup := by
  have hsub : List.Sublist (aKeys (aDelete l k)) (aKeys l) :=
    List.Sublist.map Prod.fst (List.filter_sublist l)
  exact List.Nodup.sublist hsub h

theorem aGet_eq_some_of_mem {κ α : Type} [DecidableEq κ] {l : List (κ × α)}
    {k : κ} {v : α} (hnd : (aKeys l).Nodup) (h : (k, v) ∈ l) :
    aGet l k = some v := by
  induction l with
  | nil => cases h
  | cons p t ih =>
      obtain ⟨k0, v0⟩ := p
      rcases List.mem_cons.mp h with hEq | hm
      · injection hEq with h1 h2
        subst h1; subst h2
        exact aGet_cons_eq
      · by_cases h0 : k0 = k
        · subst h0
          exfalso
          have : k0 ∈ aKeys t := List.mem_map_of_mem Prod.fst hm
          exact (List.nodup_cons.mp hnd).1 this
        · rw [aGet_cons_ne h0]
          exact ih (List.nodup_cons.mp hnd).2 hm

theorem foldl_aSet_preserve_other {κ α β : Type} [DecidableEq κ]
    (g : β → α) (key : β → κ) {k : κ} :
    ∀ (l : List β) (d : List (κ × α)), (∀ p ∈ l, key p ≠ k) →
      aGet (l.foldl (fun acc p => aSet acc (key p) (g p)) d) k = aGet d k := by
  intro l
  induction l with
  | nil => intro d _; rfl
  | cons x xs ih =>
      intro d h
      rw [List.foldl_cons]
      rw [ih _ (fun p hp => h p (List.mem_cons_of_mem x hp))]
      exact aGet_aSet_ne d (key x) k (g x)
        (fun hh => h x (List.mem_cons_self x xs) hh.symm)

theorem foldl_aSet_write {κ α β : Type} [DecidableEq κ]
    (g : β → α) (key : β → κ) :
    ∀ (l : List β) (d : List (κ × α)) (x : β), x ∈ l →
      (∀ y ∈ l, key y = key x → y = x) →
      (l.map key).Nodup →
      aGet (l.foldl (fun acc p => aSet acc (key p) (g p)) d) (key x)
        = some (g x) := by
  intro l
  induction l with
  | nil => intro d x hx; cases hx
  | cons y ys ih =>
      intro d x hx huniq hnd
      rcases List.mem_cons.mp hx with rfl | hm
      · rw [List.foldl_cons]
        rw [foldl_aSet_preserve_other g key ys _ ?_]
        · exact aGet_aSet_self d (key x) (g x)
        · intro p hp hpk
          have hpx : p = x := huniq p (List.mem_cons_of_mem x hp) hpk
          subst hpx
          exact absurd (List.mem_map_of_mem key hp) (List.nodup_cons.mp hnd).1
      · rw [List.foldl_cons]
        exact ih _ x hm
          (fun y2 hy2 hk2 => huniq y2 (List.mem_cons_of_mem y hy2) hk2)
          (List.nodup_cons.mp hnd).2

theorem mem_of_aGet {κ α : Type} [DecidableEq κ] {l : List (κ × α)}
    {k : κ} {v : α} (h : aGet l k = some v) : (k, v) ∈ l := by
  induction l with
  | nil => cases h
  | cons p t ih =>
      obtain ⟨k0, v0⟩ := p
      by_cases h0 : k0 = k
      · subst h0
        rw [aGet_cons_eq] at h
        obtain rfl : v0 = v := by injection h
        exact List.mem_cons_self _ _
      · rw [aGet_cons_ne h0] at h
        exact List.mem_cons_of_mem _ (ih h)

theorem unique_of_nodup_keys {κ α : Type} {l : List (κ × α)}
    {p q : κ × α} (hnd : (aKeys l).Nodup) (hp : p ∈ l) (hq : q ∈ l)
    (hk : p.1 = q.1) : p = q := by
  induction l with
  | nil => cases hp
  | cons r rest ih =>
      rcases List.mem_cons.mp hp with rfl | hp'
      · rcases List.mem_cons.mp hq with rfl | hq'
        · rfl
        · exfalso
          have : p.1 ∈ aKeys rest := by
            rw [hk]
            exact List.mem_map_of_mem Prod.fst hq'
          exact (List.nodup_cons.mp hnd).1 this
      · rcases List.mem_cons.mp hq with rfl | hq'
        · exfalso
          have : q.1 ∈ aKeys rest := by
            rw [← hk]
            exact List.mem_map_of_mem Prod.fst hp'
          exact (List.nodup_cons.mp hnd).1 this
        · exact ih (List.nodup_cons.mp hnd).2 hp' hq'

theorem aGet_aMerge_of_nodup {κ α : Type} [DecidableEq κ]
    {base upd : List (κ × α)} {k : κ} {v : α}
    (hnd : (aKeys upd).Nodup) (h : aGet upd k = some v) :
    aGet (aMerge base upd) k = some v := by
  have hm : (k, v) ∈ upd := mem_of_aGet h
  have hw := foldl_aSet_write (fun p : κ × α => p.2) (fun p : κ × α => p.1)
    upd base (k, v) hm
    (fun y hy hyk => unique_of_nodup_keys hnd hy hm hyk)
    hnd
  exact hw

theorem aMerge_nil_eq {κ α : Type} [DecidableEq κ] {l : List (κ × α)}
    (hnd : (aKeys l).Nodup) : aMerge [] l = l := by
  have h := foldl_aSet_fresh (fun p : κ × α => p.2) l [] hnd
    (fun p _ => rfl)
  unfold aMerge
  rw [h]
  simp

theorem foldl_aSet_cons_ne {κ α : Type} [DecidableEq κ]
    {k : κ} {w : α} :
    ∀ (L : List (κ × α)) (X : List (κ × α)), (∀ p ∈ L, p.1 ≠ k) →
    L.foldl (fun acc p => aSet acc p.1 p.2) ((k, w) :: X)
      = (k, w) :: L.foldl (fun acc p => aSet acc p.1 p.2) X := by
  intro L
  induction L with
  | nil => intro X _; rfl
  | cons q rest ih =>
      intro X h
      rw [List.foldl_cons, List.foldl_cons]
      have hq : aSet ((k, w) :: X) q.1 q.2 = (k, w) :: aSet X q.1 q.2 := by
        show (if k = q.1 then _ else (k, w) :: aSet X q.1 q.2) = _
        rw [if_neg (fun hh => h q (List.mem_cons_self q rest) hh.symm)]
      rw [hq]
      exact ih _ (fun p hp => h p (List.mem_cons_of_mem q hp))

theorem overwrite_same_keys {κ α : Type} [DecidableEq κ]
    (f : κ × α → α) :
    ∀ (l : List (κ × α)), (aKeys l).Nodup →
    (l.map (fun p => (p.1, f p))).foldl (fun acc p => aSet acc p.1 p.2) l
      = l.map (fun p => (p.1, f p)) := by
  intro l
  induction l with
  | nil => intro _; rfl
  | cons q rest ih =>
      intro hnd
      obtain ⟨k, v⟩ := q
      rw [List.map_cons, List.foldl_cons]
      have h1 : aSet ((k, v) :: rest) k (f (k, v)) = (k, f (k, v)) :: rest := by
        show (if k = k then _ else _) = _
        rw [if_pos rfl]
      rw [h1]
      have hne : ∀ p ∈ rest.map (fun p => (p.1, f p)), p.1 ≠ k := by
        intro p hp
        rcases List.mem_map.mp hp with ⟨q2, hq2, rfl⟩
        intro hk
        have hmm : q2.1 ∈ aKeys rest := List.mem_map_of_mem Prod.fst hq2
        rw [show ((q2.1, f q2) : κ × α).1 = q2.1 from rfl] at hk
        rw [hk] at hmm
        exact (List.nodup_cons.mp hnd).1 hmm
      rw [foldl_aSet_cons_ne _ _ hne]
      rw [ih (List.nodup_cons.mp hnd).2]

theorem aGet_map_of_mem {κ α β : Type} [DecidableEq κ]
    (f : κ × α → β) {l : List (κ × α)} {p : κ × α}
    (hnd : (aKeys l).Nodup) (hp : p ∈ l) :
    aGet (l.map (fun q => (q.1, f q))) p.1 = some (f p) := by
  have hnd2 : (aKeys (l.map (fun q => (q.1, f q)))).Nodup := by
    have : aKeys (l.map (fun q => (q.1, f q))) = aKeys l := by
      simp [aKeys, List.map_map]
    rw [this]
    exact hnd
  exact aGet_eq_some_of_mem hnd2
    (List.mem_map_of_mem (fun q => (q.1, f q)) hp)

theorem nnv_idem : ∀ (tgt cur : List (ℚ × String)),
    Engine.nextNumericValues (Engine.nextNumericValues cur tgt 0) tgt 0
      = Engine.nextNumericValues cur tgt 0 := by
  intro tgt
  induction tgt with
  | nil => intro cur; rfl
  | cons t ts ih =>
      intro cur
      obtain ⟨tn, tu⟩ := t
      simp only [Engine.nextNumericValues, qAdd_valDelta_zero,
        List.headD_cons, List.tail_cons]
      rw [ih cur.tail]

theorem transform_payload_idem (tgt cur : List (String × List (ℚ × String)))
    (hnd : (aKeys tgt).Nodup) :
    tgt.foldl (fun acc p => aSet acc p.1
      (Engine.nextNumericValues ((aGet
        (tgt.foldl (fun acc2 p2 => aSet acc2 p2.1
          (Engine.nextNumericValues ((aGet cur p2.1).getD []) p2.2 0)) [])
        p.1).getD []) p.2 0)) []
    = tgt.foldl (fun acc p => aSet acc p.1
      (Engine.nextNumericValues ((aGet cur p.1).getD []) p.2 0)) [] := by
  have hT := foldl_aSet_fresh
    (fun p : String × List (ℚ × String) =>
      Engine.nextNumericValues ((aGet cur p.1).getD []) p.2 0) tgt []
    hnd (fun p _ => rfl)
  rw [List.nil_append] at hT
  simp only [] at hT
  rw [hT]
  have hL := foldl_aSet_fresh
    (fun p : String × List (ℚ × String) =>
      Engine.nextNumericValues ((aGet
        (tgt.map (fun p2 => (p2.1,
          Engine.nextNumericValues ((aGet cur p2.1).getD []) p2.2 0)))
        p.1).getD []) p.2 0) tgt []
    hnd (fun p _ => rfl)
  rw [List.nil_append] at hL
  simp only [] at hL
  rw [hL]
  apply List.map_congr_left
  intro p hp
  have hget := aGet_map_of_mem
    (fun q : String × List (ℚ × String) =>
      Engine.nextNumericValues ((aGet cur q.1).getD []) q.2 0) hnd hp
  simp only [] at hget
  rw [hget]
  show (p.1, Engine.nextNumericValues
      (Engine.nextNumericValues ((aGet cur p.1).getD []) p.2 0) p.2 0)
    = (p.1, Engine.nextNumericValues ((aGet cur p.1).getD []) p.2 0)
  rw [nnv_idem]

theorem char_toNat_le {c u : Char} (h : c ≤ u) : c.toNat ≤ u.toNat := by
  have hlt : u.toNat < UInt32.size := by
    have := UInt32.toNat_lt u.val
    simpa [Char.toNat, UInt32.size] using this
  have h1 : c.val ≤ UInt32.ofNat u.toNat := by
    rw [show UInt32.ofNat u.toNat = u.val from UInt32.ext (by
      exact UInt32.toNat_ofNat_of_lt hlt)]
    exact Char.le_def.mp h
  exact UInt32.toNat_le_of_le hlt h1

theorem char_le_toNat {c u : Char} (h : u ≤ c) : u.toNat ≤ c.toNat := by
  exact char_toNat_le h

theorem hexDigitVal_le15 {c : Char} {d : ℕ}
    (h : Engine.hexDigitVal c = some d) : d ≤ 15 := by
  unfold Engine.hexDigitVal at h
  split at h
  next hc =>
    injection h with h'
    subst h'
    have h9 := char_toNat_le hc.2
    have : ('9').toNat = 57 := rfl
    omega
  next hc =>
    split at h
    next hc2 =>
      injection h with h'
      subst h'
      have hf := char_toNat_le hc2.2
      have : ('f').toNat = 102 := rfl
      omega
    next hc2 =>
      split at h
      next hc3 =>
        injection h with h'
        subst h'
        have hF := char_toNat_le hc3.2
        have : ('F').toNat = 70 := rfl
        omega
      next hc3 => cases h

theorem hexPrefixVal_single_le (c : Char) (acc : ℕ) :
    Engine.hexPrefixVal [c] acc ≤ acc * 16 + 15 := by
  unfold Engine.hexPrefixVal
  cases h : Engine.hexDigitVal c with
  | none => dsimp only; omega
  | some d =>
      have := hexDigitVal_le15 h
      dsimp only
      unfold Engine.hexPrefixVal
      omega

theorem hexPrefixVal_nil (acc : ℕ) : Engine.hexPrefixVal [] acc = acc := rfl

theorem hexPrefixVal_u (l : List Char) (acc : ℕ) :
    Engine.hexPrefixVal ('u' :: l) acc = acc := by
  unfold Engine.hexPrefixVal
  rw [show Engine.hexDigitVal 'u' = none from by decide]

theorem hexPrefixVal_two_le (c d : Char) :
    Engine.hexPrefixVal [c, d] 0 ≤ 255 := by
  unfold Engine.hexPrefixVal
  cases h : Engine.hexDigitVal c with
  | none => dsimp only; omega
  | some v =>
      dsimp only
      have h1 := hexDigitVal_le15 h
      have h2 := hexPrefixVal_single_le d (0 * 16 + v)
      omega

theorem jsParseIntHex_cons (c : Char) (r : List Char) (hc : c ≠ ' ') :
    Engine.jsParseIntHex ⟨c :: r⟩ =
      if c = '-' then -(Engine.hexPrefixVal r 0 : ℤ)
      else if c = '+' then (Engine.hexPrefixVal r 0 : ℤ)
      else (Engine.hexPrefixVal (c :: r) 0 : ℤ) := by
  unfold Engine.jsParseIntHex
  rw [show (String.mk (c :: r)).data = c :: r from rfl]
  rw [List.dropWhile_cons_of_neg (by simpa using hc)]
  dsimp only
  by_cases h1 : c = '-'
  · subst h1
    rw [if_pos rfl]
    rfl
  · by_cases h2 : c = '+'
    · subst h2
      rw [if_pos rfl]
      rfl
    · rw [if_neg h1, if_neg h2]
      split
      next x heq =>
        exfalso
        apply h1
        injection heq with hh _
        all_goals first | exact hh | exact hh.symm
      next x heq =>
        exfalso
        apply h2
        injection heq with hh _
        all_goals first | exact hh | exact hh.symm
      next =>
        rfl

theorem jsParseIntHex_space (r : List Char) :
    Engine.jsParseIntHex ⟨' ' :: r⟩ = Engine.jsParseIntHex ⟨r⟩ := by
  unfold Engine.jsParseIntHex
  rw [show (String.mk (' ' :: r)).data = ' ' :: r from rfl]
  rw [List.dropWhile_cons_of_pos (by decide)]

theorem parse_u (l : List Char) : Engine.jsParseIntHex ⟨'u' :: l⟩ = 0 := by
  rw [jsParseIntHex_cons 'u' l (by decide)]
  rw [if_neg (by decide), if_neg (by decide)]
  rw [hexPrefixVal_u]
  rfl

theorem parse_single_bound (d : Char) :
    -15 ≤ Engine.jsParseIntHex ⟨[d]⟩ ∧ Engine.jsParseIntHex ⟨[d]⟩ ≤ 15 := by
  by_cases hd : d = ' '
  · subst hd
    rw [jsParseIntHex_space]
    constructor <;> decide
  · rw [jsParseIntHex_cons d [] hd]
    by_cases h1 : d = '-'
    · rw [if_pos h1]
      constructor <;> decide
    · rw [if_neg h1]
      by_cases h2 : d = '+'
      · rw [if_pos h2]
        constructor <;> decide
      · rw [if_neg h2]
        have := hexPrefixVal_single_le d 0
        omega

theorem parse_two_bound (c d : Char) :
    -15 ≤ Engine.jsParseIntHex ⟨[c, d]⟩ ∧
    Engine.jsParseIntHex ⟨[c, d]⟩ ≤ 255 := by
  by_cases hc : c = ' '
  · subst hc
    rw [jsParseIntHex_space]
    have := parse_single_bound d
    omega
  · rw [jsParseIntHex_cons c [d] hc]
    by_cases h1 : c = '-'
    · rw [if_pos h1]
      have := hexPrefixVal_single_le d 0
      omega
    · rw [if_neg h1]
      by_cases h2 : c = '+'
      · rw [if_pos h2]
        have := hexPrefixVal_single_le d 0
        omega
      · rw [if_neg h2]
        have := hexPrefixVal_two_le c d
        omega

theorem parse_c_u_bound (c : Char) (l : List Char) :
    -15 ≤ Engine.jsParseIntHex ⟨c :: 'u' :: l⟩ ∧
    Engine.jsParseIntHex ⟨c :: 'u' :: l⟩ ≤ 255 := by
  by_cases hc : c = ' '
  · subst hc
    rw [jsParseIntHex_space, parse_u]
    omega
  · rw [jsParseIntHex_cons c ('u' :: l) hc]
    by_cases h1 : c = '-'
    · rw [if_pos h1, hexPrefixVal_u]
      omega
    · rw [if_neg h1]
      by_cases h2 : c = '+'
      · rw [if_pos h2, hexPrefixVal_u]
        omega
      · rw [if_neg h2]
        unfold Engine.hexPrefixVal
        cases h : Engine.hexDigitVal c with
        | none => dsimp only; omega
        | some v =>
            dsimp only
            rw [hexPrefixVal_u]
            have := hexDigitVal_le15 h
            omega

theorem parse_chunk_bound (cv : String) (i : ℕ) :
    -15 ≤ Engine.jsParseIntHex
        (Engine.jsCharAtStr cv i ++ Engine.jsCharAtStr cv (i + 1)) ∧
      Engine.jsParseIntHex
        (Engine.jsCharAtStr cv i ++ Engine.jsCharAtStr cv (i + 1)) ≤ 255 := by
  unfold Engine.jsCharAtStr
  rcases h1 : cv.data.get? i with _ | c <;>
    rcases h2 : cv.data.get? (i + 1) with _ | d
  · show -15 ≤ Engine.jsParseIntHex ("undefined" ++ "undefined") ∧ _
    constructor <;> decide
  · show -15 ≤ Engine.jsParseIntHex ⟨'u' :: ("ndefined".data ++ [d])⟩ ∧
      Engine.jsParseIntHex ⟨'u' :: ("ndefined".data ++ [d])⟩ ≤ 255
    rw [parse_u]
    omega
  · show -15 ≤ Engine.jsParseIntHex ⟨c :: 'u' :: "ndefined".data⟩ ∧
      Engine.jsParseIntHex ⟨c :: 'u' :: "ndefined".data⟩ ≤ 255
    exact parse_c_u_bound c _
  · show -15 ≤ Engine.jsParseIntHex ⟨[c, d]⟩ ∧
      Engine.jsParseIntHex ⟨[c, d]⟩ ≤ 255
    exact parse_two_bound c d

set_option maxRecDepth 20000 in
theorem toHex2_roundtrip_nonneg :
    ∀ m : Fin 256, Engine.jsParseIntHex (Engine.toHex2 ((m : ℕ) : ℤ))
      = ((m : ℕ) : ℤ) := by decide

set_option maxRecDepth 20000 in
theorem toHex2_roundtrip_neg :
    ∀ m : Fin 16, Engine.jsParseIntHex (Engine.toHex2 (-((m : ℕ) : ℤ)))
      = -((m : ℕ) : ℤ) := by decide

set_option maxRecDepth 20000 in
theorem toHex2_len_nonneg :
    ∀ m : Fin 256, (Engine.toHex2 ((m : ℕ) : ℤ)).data.length = 2 := by decide

set_option maxRecDepth 20000 in
theorem toHex2_len_neg :
    ∀ m : Fin 16, (Engine.toHex2 (-((m : ℕ) : ℤ))).data.length = 2 := by decide

theorem toHex2_roundtrip {n : ℤ} (h1 : -15 ≤ n) (h2 : n ≤ 255) :
    Engine.jsParseIntHex (Engine.toHex2 n) = n := by
  rcases le_or_lt 0 n with h0 | h0
  · have hn : n = ((n.toNat : ℕ) : ℤ) := (Int.toNat_of_nonneg h0).symm
    rw [hn]
    have hm : n.toNat < 256 := by omega
    exact toHex2_roundtrip_nonneg ⟨n.toNat, hm⟩
  · have hn : n = -((n.natAbs : ℕ) : ℤ) := by omega
    rw [hn]
    have hm : n.natAbs < 16 := by omega
    exact toHex2_roundtrip_neg ⟨n.natAbs, hm⟩

theorem toHex2_length {n : ℤ} (h1 : -15 ≤ n) (h2 : n ≤ 255) :
    (Engine.toHex2 n).data.length = 2 := by
  rcases le_or_lt 0 n with h0 | h0
  · have hn : n = ((n.toNat : ℕ) : ℤ) := (Int.toNat_of_nonneg h0).symm
    rw [hn]
    have hm : n.toNat < 256 := by omega
    exact toHex2_len_nonneg ⟨n.toNat, hm⟩
  · have hn : n = -((n.natAbs : ℕ) : ℤ) := by omega
    rw [hn]
    have hm : n.natAbs < 16 := by omega
    exact toHex2_len_neg ⟨n.natAbs, hm⟩

theorem toHex2_data_two {n : ℤ} (h1 : -15 ≤ n) (h2 : n ≤ 255) :
    ∃ a b, (Engine.toHex2 n).data = [a, b] := by
  have := toHex2_length h1 h2
  rcases List.length_eq_two.mp this with ⟨a, b, hab⟩
  exact ⟨a, b, hab⟩

theorem colorChunkNext_zero (cv tv : String) (i : ℕ) :
    Engine.colorChunkNext cv tv 0 i
      = Engine.toHex2 (Engine.jsParseIntHex
          (Engine.jsCharAtStr cv i ++ Engine.jsCharAtStr cv (i + 1))) := by
  unfold Engine.colorChunkNext
  dsimp only
  rw [qAdd_valDelta_zero, jsRoundInt_intCast]

theorem cnc_zero_stable (cv tv : String) :
    ∃ v, Engine.calculateNextColorValue cv tv 0 = .color v ∧
      Engine.calculateNextColorValue v tv 0 = .color v := by
  by_cases hlen : tv.length ≠ 7
  · refine ⟨tv, ?_, ?_⟩ <;>
      · unfold Engine.calculateNextColorValue
        rw [if_pos hlen]
  · refine ⟨"#" ++ Engine.colorChunkNext cv tv 0 1
      ++ Engine.colorChunkNext cv tv 0 3
      ++ Engine.colorChunkNext cv tv 0 5, ?_, ?_⟩
    · unfold Engine.calculateNextColorValue
      rw [if_neg hlen]
    · set n1 := Engine.jsParseIntHex
        (Engine.jsCharAtStr cv 1 ++ Engine.jsCharAtStr cv 2) with hn1
      set n3 := Engine.jsParseIntHex
        (Engine.jsCharAtStr cv 3 ++ Engine.jsCharAtStr cv 4) with hn3
      set n5 := Engine.jsParseIntHex
        (Engine.jsCharAtStr cv 5 ++ Engine.jsCharAtStr cv 6) with hn5
      have hb1 := parse_chunk_bound cv 1
      have hb3 := parse_chunk_bound cv 3
      have hb5 := parse_chunk_bound cv 5
      rw [show (1 : ℕ) + 1 = 2 from rfl] at hb1
      rw [show (3 : ℕ) + 1 = 4 from rfl] at hb3
      rw [show (5 : ℕ) + 1 = 6 from rfl] at hb5
      rw [← hn1] at hb1
      rw [← hn3] at hb3
      rw [← hn5] at hb5
      rw [colorChunkNext_zero cv tv 1, colorChunkNext_zero cv tv 3,
        colorChunkNext_zero cv tv 5]
      rw [show (1 : ℕ) + 1 = 2 from rfl, show (3 : ℕ) + 1 = 4 from rfl,
        show (5 : ℕ) + 1 = 6 from rfl]
      obtain ⟨a1, b1, h1⟩ := toHex2_data_two (n := n1) (by omega) (by omega)
      obtain ⟨a3, b3, h3⟩ := toHex2_data_two (n := n3) (by omega) (by omega)
      obtain ⟨a5, b5, h5⟩ := toHex2_data_two (n := n5) (by omega) (by omega)
      set out := "#" ++ Engine.toHex2 n1 ++ Engine.toHex2 n3
        ++ Engine.toHex2 n5 with hout_def
      have hout : out.data
          = '#' :: a1 :: b1 :: a3 :: b3 :: a5 :: b5 :: [] := by
        rw [hout_def]
        rw [String.data_append, String.data_append, String.data_append]
        rw [h1, h3, h5]
        rfl
      have hch : ∀ (i : ℕ) (a b : Char) (n : ℤ),
          Engine.toHex2 n = ⟨[a, b]⟩ →
          Engine.jsCharAtStr out i = String.singleton a →
          Engine.jsCharAtStr out (i + 1) = String.singleton b →
          -15 ≤ n → n ≤ 255 →
          Engine.colorChunkNext out tv 0 i = Engine.toHex2 n := by
        intro i a b n hn ha hb hl hr
        rw [colorChunkNext_zero out tv i, ha, hb]
        have : String.singleton a ++ String.singleton b = ⟨[a, b]⟩ := rfl
        rw [this, ← hn, toHex2_roundtrip hl hr]
      have e1 : Engine.toHex2 n1 = ⟨[a1, b1]⟩ := by
        conv_lhs => rw [show Engine.toHex2 n1 = ⟨(Engine.toHex2 n1).data⟩ from rfl]
        rw [h1]
      have e3 : Engine.toHex2 n3 = ⟨[a3, b3]⟩ := by
        conv_lhs => rw [show Engine.toHex2 n3 = ⟨(Engine.toHex2 n3).data⟩ from rfl]
        rw [h3]
      have e5 : Engine.toHex2 n5 = ⟨[a5, b5]⟩ := by
        conv_lhs => rw [show Engine.toHex2 n5 = ⟨(Engine.toHex2 n5).data⟩ from rfl]
        rw [h5]
      have hc1 : Engine.jsCharAtStr out 1 = String.singleton a1 := by
        unfold Engine.jsCharAtStr
        rw [hout]
        rfl
      have hc2 : Engine.jsCharAtStr out 2 = String.singleton b1 := by
        unfold Engine.jsCharAtStr
        rw [hout]
        rfl
      have hc3 : Engine.jsCharAtStr out 3 = String.singleton a3 := by
        unfold Engine.jsCharAtStr
        rw [hout]
        rfl
      have hc4 : Engine.jsCharAtStr out 4 = String.singleton b3 := by
        unfold Engine.jsCharAtStr
        rw [hout]
        rfl
      have hc5 : Engine.jsCharAtStr out 5 = String.singleton a5 := by
        unfold Engine.jsCharAtStr
        rw [hout]
        rfl
      have hc6 : Engine.jsCharAtStr out 6 = String.singleton b5 := by
        unfold Engine.jsCharAtStr
        rw [hout]
        rfl
      unfold Engine.calculateNextColorValue
      rw [if_neg hlen]
      rw [hch 1 a1 b1 n1 e1 hc1 hc2 (by omega) (by omega)]
      rw [hch 3 a3 b3 n3 e3 hc3 hc4 (by omega) (by omega)]
      rw [hch 5 a5 b5 n5 e5 hc5 hc6 (by omega) (by omega)]

theorem calc_zero_idem (x fv : Parsing.CssPropertyValue)
    (hwf : Engine.valueWf fv = true) :
    Engine.calculateNextCssValue (Engine.calculateNextCssValue x fv 0) fv 0
      = Engine.calculateNextCssValue x fv 0 := by
  cases fv with
  | static s => rfl
  | numeric tvs =>
      show Parsing.CssPropertyValue.numeric
          (Engine.nextNumericValues (Engine.nextNumericValues
            (match x with | .numeric vs => vs | _ => []) tvs 0) tvs 0)
        = Parsing.CssPropertyValue.numeric
          (Engine.nextNumericValues
            (match x with | .numeric vs => vs | _ => []) tvs 0)
      rw [nnv_idem]
  | color tv =>
      obtain ⟨v, hv1, hv2⟩ := cnc_zero_stable
        (match x with | .color w => w | _ => "") tv
      have h1 : Engine.calculateNextCssValue x (.color tv) 0 = .color v := hv1
      rw [h1]
      show Engine.calculateNextColorValue v tv 0
        = Parsing.CssPropertyValue.color v
      exact hv2
  | transform tvs =>
      have hnd : (aKeys tvs).Nodup := by
        simpa [Engine.valueWf] using hwf
      show Parsing.CssPropertyValue.transform
          (tvs.foldl (fun acc p => aSet acc p.1
            (Engine.nextNumericValues ((aGet
              (tvs.foldl (fun acc2 p2 => aSet acc2 p2.1
                (Engine.nextNumericValues ((aGet
                  (match x with | .transform vs => vs | _ => []) p2.1).getD [])
                  p2.2 0)) [])
              p.1).getD []) p.2 0)) [])
        = Parsing.CssPropertyValue.transform
          (tvs.foldl (fun acc p => aSet acc p.1
            (Engine.nextNumericValues ((aGet
              (match x with | .transform vs => vs | _ => []) p.1).getD [])
              p.2 0)) [])
      rw [transform_payload_idem tvs _ hnd]

theorem setStyle_fields (s : Engine.EngineState) (sel prop : String)
    (v : Parsing.CssPropertyValue) :
    (Engine.setStyle s sel prop v).rules = s.rules ∧
    (Engine.setStyle s sel prop v).currentTime = s.currentTime ∧
    (Engine.setStyle s sel prop v).duration = s.duration ∧
    (Engine.setStyle s sel prop v).timestep = s.timestep ∧
    (Engine.setStyle s sel prop v).allObjects = s.allObjects ∧
    (Engine.setStyle s sel prop v).completed = s.completed ∧
    (Engine.setStyle s sel prop v).playing = s.playing ∧
    (Engine.setStyle s sel prop v).progress = s.progress :=
  ⟨rfl, rfl, rfl, rfl, rfl, rfl, rfl, rfl⟩

theorem removeStyle_fields (s : Engine.EngineState) (sel prop : String) :
    (Engine.removeStyle s sel prop).rules = s.rules ∧
    (Engine.removeStyle s sel prop).currentTime = s.currentTime ∧
    (Engine.removeStyle s sel prop).duration = s.duration ∧
    (Engine.removeStyle s sel prop).timestep = s.timestep ∧
    (Engine.removeStyle s sel prop).allObjects = s.allObjects ∧
    (Engine.removeStyle s sel prop).completed = s.completed ∧
    (Engine.removeStyle s sel prop).playing = s.playing ∧
    (Engine.removeStyle s sel prop).progress = s.progress :=
  ⟨rfl, rfl, rfl, rfl, rfl, rfl, rfl, rfl⟩

theorem setStyle_active_self (s : Engine.EngineState) (sel prop : String)
    (v : Parsing.CssPropertyValue) :
    aGetA (Engine.setStyle s sel prop v).activeStyles sel prop = some v := by
  show aGetA (aSet s.activeStyles sel
    (aSet ((aGet s.activeStyles sel).getD []) prop v)) sel prop = some v
  unfold aGetA
  rw [aGet_aSet_self]
  show aGet (aSet ((aGet s.activeStyles sel).getD []) prop v) prop = some v
  exact aGet_aSet_self _ _ _

theorem setStyle_active_other (s : Engine.EngineState) (sel prop : String)
    (v : Parsing.CssPropertyValue) (sel2 prop2 : String)
    (h : sel2 ≠ sel ∨ prop2 ≠ prop) :
    aGetA (Engine.setStyle s sel prop v).activeStyles sel2 prop2
      = aGetA s.activeStyles sel2 prop2 := by
  show aGetA (aSet s.activeStyles sel
    (aSet ((aGet s.activeStyles sel).getD []) prop v)) sel2 prop2 = _
  unfold aGetA
  by_cases hsel : sel2 = sel
  · subst hsel
    rcases h with h | h
    · exact absurd rfl h
    · rw [aGet_aSet_self]
      show aGet (aSet ((aGet s.activeStyles sel2).getD []) prop v) prop2 = _
      cases hg : aGet s.activeStyles sel2 with
      | none =>
          show aGet (aSet ([] : Engine.ParsedStyles) prop v) prop2
            = aGet ([] : Engine.ParsedStyles) prop2
          rw [aGet_aSet_ne _ _ _ _ h]
      | some st =>
          show aGet (aSet st prop v) prop2 = aGet st prop2
          rw [aGet_aSet_ne _ _ _ _ h]
  · rw [aGet_aSet_ne _ _ _ _ hsel]

theorem removeStyle_active_self (s : Engine.EngineState) (sel prop : String) :
    aGetA (Engine.removeStyle s sel prop).activeStyles sel prop = none := by
  show aGetA (match aGet s.activeStyles sel with
    | some st => aSet s.activeStyles sel (aDelete st prop)
    | none => s.activeStyles) sel prop = none
  cases hg : aGet s.activeStyles sel with
  | none =>
      unfold aGetA
      rw [hg]
      rfl
  | some st =>
      unfold aGetA
      rw [aGet_aSet_self]
      show aGet (aDelete st prop) prop = none
      rw [aGet_aDelete, if_pos rfl]

theorem removeStyle_active_other (s : Engine.EngineState) (sel prop : String)
    (sel2 prop2 : String) (h : sel2 ≠ sel ∨ prop2 ≠ prop) :
    aGetA (Engine.removeStyle s sel prop).activeStyles sel2 prop2
      = aGetA s.activeStyles sel2 prop2 := by
  show aGetA (match aGet s.activeStyles sel with
    | some st => aSet s.activeStyles sel (aDelete st prop)
    | none => s.activeStyles) sel2 prop2 = _
  cases hg : aGet s.activeStyles sel with
  | none => rfl
  | some st =>
      unfold aGetA
      by_cases hsel : sel2 = sel
      · subst hsel
        rcases h with h | h
        · exact absurd rfl h
        · rw [aGet_aSet_self]
          show aGet ((some (aDelete st prop)).getD []) prop2
            = aGet ((aGet s.activeStyles sel2).getD []) prop2
          rw [hg]
          show aGet (aDelete st prop) prop2 = aGet st prop2
          rw [aGet_aDelete, if_neg h]
      · rw [aGet_aSet_ne _ _ _ _ hsel]

theorem removeStyle_active_none (s : Engine.EngineState) (sel prop : String)
    (sel2 prop2 : String)
    (h : aGetA s.activeStyles sel2 prop2 = none) :
    aGetA (Engine.removeStyle s sel prop).activeStyles sel2 prop2 = none := by
  by_cases hs : sel2 = sel
  · by_cases hp : prop2 = prop
    · subst hs; subst hp
      exact removeStyle_active_self s sel2 prop2
    · rw [removeStyle_active_other s sel prop sel2 prop2 (Or.inr hp)]
      exact h
  · rw [removeStyle_active_other s sel prop sel2 prop2 (Or.inl hs)]
    exact h

theorem foldl_domWrite_keep {prop : String} {str : String} :
    ∀ (es : List Engine.Element) (d : List ((Engine.Element × String) × String))
      (e : Engine.Element),
      aGet d (e, prop) = some str →
      aGet (es.foldl (fun d2 e2 => aSet d2 (e2, prop) str) d) (e, prop)
        = some str := by
  intro es
  induction es with
  | nil => intro d e h; exact h
  | cons e2 rest ih =>
      intro d e h
      rw [List.foldl_cons]
      apply ih
      by_cases he : e = e2
      · subst he
        exact aGet_aSet_self _ _ _
      · rw [aGet_aSet_ne _ _ _ _ (fun hh => he (by injection hh))]
        exact h

theorem foldl_domWrite_mem {prop : String} {str : String} :
    ∀ (es : List Engine.Element) (d : List ((Engine.Element × String) × String))
      (e : Engine.Element), e ∈ es →
      aGet (es.foldl (fun d2 e2 => aSet d2 (e2, prop) str) d) (e, prop)
        = some str := by
  intro es
  induction es with
  | nil => intro d e h; cases h
  | cons e2 rest ih =>
      intro d e h
      rw [List.foldl_cons]
      rcases List.mem_cons.mp h with rfl | hm
      · exact foldl_domWrite_keep rest _ e (aGet_aSet_self _ _ _)
      · exact ih _ e hm

theorem foldl_domWrite_other {prop : String} {str : String}
    {k : Engine.Element × String} :
    ∀ (es : List Engine.Element) (d : List ((Engine.Element × String) × String)),
      (∀ e2 ∈ es, k ≠ (e2, prop)) →
      aGet (es.foldl (fun d2 e2 => aSet d2 (e2, prop) str) d) k = aGet d k := by
  intro es
  induction es with
  | nil => intro d _; rfl
  | cons e2 rest ih =>
      intro d h
      rw [List.foldl_cons]
      rw [ih _ (fun e3 he3 => h e3 (List.mem_cons_of_mem e2 he3))]
      exact aGet_aSet_ne _ _ _ _ (h e2 (List.mem_cons_self e2 rest))

theorem setStyle_dom_write (s : Engine.EngineState) (sel prop : String)
    (v : Parsing.CssPropertyValue) (e : Engine.Element)
    (he : e ∈ Engine.targetListOf s.allObjects sel) :
    aGet (Engine.setStyle s sel prop v).dom (e, prop)
      = some (Parsing.stringifyParsedValue v) := by
  unfold Engine.targetListOf at he
  show aGet (match aGet s.allObjects sel with
    | some (.inl e0) => aSet s.dom (e0, prop) (Parsing.stringifyParsedValue v)
    | some (.inr es) => es.foldl (fun d e2 =>
        aSet d (e2, prop) (Parsing.stringifyParsedValue v)) s.dom
    | none => s.dom) (e, prop) = some (Parsing.stringifyParsedValue v)
  cases hg : aGet s.allObjects sel with
  | none =>
      rw [hg] at he
      cases he
  | some t =>
      rw [hg] at he
      cases t with
      | inl e0 =>
          rcases List.mem_singleton.mp he with rfl
          exact aGet_aSet_self _ _ _
      | inr es => exact foldl_domWrite_mem es s.dom e he

theorem setStyle_dom_other (s : Engine.EngineState) (sel prop : String)
    (v : Parsing.CssPropertyValue) (k : Engine.Element × String)
    (hk : ∀ e2 ∈ Engine.targetListOf s.allObjects sel, k ≠ (e2, prop)) :
    aGet (Engine.setStyle s sel prop v).dom k = aGet s.dom k := by
  unfold Engine.targetListOf at hk
  show aGet (match aGet s.allObjects sel with
    | some (.inl e0) => aSet s.dom (e0, prop) (Parsing.stringifyParsedValue v)
    | some (.inr es) => es.foldl (fun d e2 =>
        aSet d (e2, prop) (Parsing.stringifyParsedValue v)) s.dom
    | none => s.dom) k = aGet s.dom k
  cases hg : aGet s.allObjects sel with
  | none => rfl
  | some t =>
      rw [hg] at hk
      cases t with
      | inl e0 =>
          exact aGet_aSet_ne _ _ _ _ (hk e0 (List.mem_singleton_self e0))
      | inr es => exact foldl_domWrite_other es s.dom hk

theorem sameCore_refl (a : Engine.EngineState) : Engine.sameCore a a :=
  ⟨rfl, rfl, rfl, rfl, rfl, rfl, rfl, rfl⟩

theorem sameCore_trans {a b c : Engine.EngineState}
    (h1 : Engine.sameCore a b) (h2 : Engine.sameCore b c) :
    Engine.sameCore a c :=
  ⟨h1.1.trans h2.1, h1.2.1.trans h2.2.1, h1.2.2.1.trans h2.2.2.1,
    h1.2.2.2.1.trans h2.2.2.2.1, h1.2.2.2.2.1.trans h2.2.2.2.2.1,
    h1.2.2.2.2.2.1.trans h2.2.2.2.2.2.1,
    h1.2.2.2.2.2.2.1.trans h2.2.2.2.2.2.2.1,
    h1.2.2.2.2.2.2.2.trans h2.2.2.2.2.2.2.2⟩

theorem setStyle_sameCore (s : Engine.EngineState) (sel prop : String)
    (v : Parsing.CssPropertyValue) :
    Engine.sameCore (Engine.setStyle s sel prop v) s :=
  ⟨rfl, rfl, rfl, rfl, rfl, rfl, rfl, rfl⟩

theorem removeStyle_sameCore (s : Engine.EngineState) (sel prop : String) :
    Engine.sameCore (Engine.removeStyle s sel prop) s :=
  ⟨rfl, rfl, rfl, rfl, rfl, rfl, rfl, rfl⟩

theorem removalInner_sameCore (A : List (String × Engine.ParsedStyles))
    (sel0 : String) (keys : List String) :
    ∀ acc : Engine.EngineState,
      Engine.sameCore (keys.foldl (fun acc2 prop =>
        if (aGetA A sel0 prop).isNone then Engine.removeStyle acc2 sel0 prop
        else acc2) acc) acc := by
  induction keys with
  | nil => intro acc; exact sameCore_refl acc
  | cons k ks ih =>
      intro acc
      rw [List.foldl_cons]
      refine sameCore_trans (ih _) ?_
      by_cases hc : (aGetA A sel0 k).isNone
      · rw [if_pos hc]
        exact removeStyle_sameCore acc sel0 k
      · rw [if_neg hc]
        exact sameCore_refl acc

theorem removalFold_sameCore (A : List (String × Engine.ParsedStyles))
    (pairs : List (String × Engine.ParsedStyles)) :
    ∀ acc : Engine.EngineState,
      Engine.sameCore (pairs.foldl (fun acc p =>
        (aKeys p.2).foldl (fun acc2 prop =>
          if (aGetA A p.1 prop).isNone then Engine.removeStyle acc2 p.1 prop
          else acc2) acc) acc) acc := by
  induction pairs with
  | nil => intro acc; exact sameCore_refl acc
  | cons p rest ih =>
      intro acc
      rw [List.foldl_cons]
      exact sameCore_trans (ih _) (removalInner_sameCore A p.1 (aKeys p.2) acc)

theorem applyInner_sameCore (sel0 : String)
    (styles : Engine.ParsedStyles) :
    ∀ acc : Engine.EngineState,
      Engine.sameCore (styles.foldl (fun acc2 q =>
        Engine.setStyle acc2 sel0 q.1 q.2) acc) acc := by
  induction styles with
  | nil => intro acc; exact sameCore_refl acc
  | cons q rest ih =>
      intro acc
      rw [List.foldl_cons]
      exact sameCore_trans (ih _) (setStyle_sameCore acc sel0 q.1 q.2)

theorem applyFold_sameCore (A : List (String × Engine.ParsedStyles)) :
    ∀ acc : Engine.EngineState,
      Engine.sameCore (A.foldl (fun acc p =>
        p.2.foldl (fun acc2 q => Engine.setStyle acc2 p.1 q.1 q.2) acc) acc)
        acc := by
  induction A with
  | nil => intro acc; exact sameCore_refl acc
  | cons p rest ih =>
      intro acc
      rw [List.foldl_cons]
      exact sameCore_trans (ih _) (applyInner_sameCore p.1 p.2 acc)

theorem removalInner_none (A : List (String × Engine.ParsedStyles))
    (sel0 : String) (keys : List String) :
    ∀ (acc : Engine.EngineState) (sel prop : String),
      aGetA acc.activeStyles sel prop = none →
      aGetA ((keys.foldl (fun acc2 k =>
        if (aGetA A sel0 k).isNone then Engine.removeStyle acc2 sel0 k
        else acc2) acc)).activeStyles sel prop = none := by
  induction keys with
  | nil => intro acc _ _ h; exact h
  | cons k ks ih =>
      intro acc sel prop h
      rw [List.foldl_cons]
      apply ih
      by_cases hc : (aGetA A sel0 k).isNone
      · rw [if_pos hc]
        exact removeStyle_active_none acc sel0 k sel prop h
      · rw [if_neg hc]
        exact h

theorem removalFold_none (A : List (String × Engine.ParsedStyles))
    (pairs : List (String × Engine.ParsedStyles)) :
    ∀ (acc : Engine.EngineState) (sel prop : String),
      aGetA acc.activeStyles sel prop = none →
      aGetA ((pairs.foldl (fun acc p =>
        (aKeys p.2).foldl (fun acc2 k =>
          if (aGetA A p.1 k).isNone then Engine.removeStyle acc2 p.1 k
          else acc2) acc) acc)).activeStyles sel prop = none := by
  induction pairs with
  | nil => intro acc _ _ h; exact h
  | cons p rest ih =>
      intro acc sel prop h
      rw [List.foldl_cons]
      exact ih _ sel prop (removalInner_none A p.1 (aKeys p.2) acc sel prop h)

theorem removalInner_complete (A : List (String × Engine.ParsedStyles))
    (sel0 : String) (keys : List String) :
    ∀ (acc : Engine.EngineState) (prop : String),
      prop ∈ keys → (aGetA A sel0 prop).isNone = true →
      aGetA ((keys.foldl (fun acc2 k =>
        if (aGetA A sel0 k).isNone then Engine.removeStyle acc2 sel0 k
        else acc2) acc)).activeStyles sel0 prop = none := by
  induction keys with
  | nil => intro acc prop h; cases h
  | cons k ks ih =>
      intro acc prop hmem hcond
      rw [List.foldl_cons]
      rcases List.mem_cons.mp hmem with rfl | hm
      · apply removalInner_none
        rw [if_pos hcond]
        exact removeStyle_active_self acc sel0 prop
      · exact ih _ prop hm hcond

theorem removalFold_complete (A : List (String × Engine.ParsedStyles))
    (pairs : List (String × Engine.ParsedStyles)) :
    ∀ (acc : Engine.EngineState) (sel : String)
      (styles : Engine.ParsedStyles) (prop : String),
      (sel, styles) ∈ pairs → prop ∈ aKeys styles →
      (aGetA A sel prop).isNone = true →
      aGetA ((pairs.foldl (fun acc p =>
        (aKeys p.2).foldl (fun acc2 k =>
          if (aGetA A p.1 k).isNone then Engine.removeStyle acc2 p.1 k
          else acc2) acc) acc)).activeStyles sel prop = none := by
  induction pairs with
  | nil => intro _ _ _ _ h; cases h
  | cons p rest ih =>
      intro acc sel styles prop hmem hprop hcond
      rw [List.foldl_cons]
      rcases List.mem_cons.mp hmem with hEq | hm
      · apply removalFold_none
        cases hEq
        exact removalInner_complete A sel (aKeys styles) acc prop hprop hcond
      · exact ih _ sel styles prop hm hprop hcond

theorem applyInner_active_other (sel0 : String) (styles : Engine.ParsedStyles) :
    ∀ (acc : Engine.EngineState) (sel prop : String),
      (sel ≠ sel0 ∨ ∀ q ∈ styles, q.1 ≠ prop) →
      aGetA ((styles.foldl (fun acc2 q =>
        Engine.setStyle acc2 sel0 q.1 q.2) acc)).activeStyles sel prop
        = aGetA acc.activeStyles sel prop := by
  induction styles with
  | nil => intro acc _ _ _; rfl
  | cons q rest ih =>
      intro acc sel prop h
      rw [List.foldl_cons]
      have hstep : aGetA (Engine.setStyle acc sel0 q.1 q.2).activeStyles sel prop
          = aGetA acc.activeStyles sel prop := by
        apply setStyle_active_other
        rcases h with h | h
        · exact Or.inl h
        · exact Or.inr (fun hp => h q (List.mem_cons_self q rest) (hp ▸ rfl))
      rw [← hstep]
      apply ih
      rcases h with h | h
      · exact Or.inl h
      · exact Or.inr (fun q2 hq2 => h q2 (List.mem_cons_of_mem q hq2))

theorem applyInner_active_write (sel0 : String) :
    ∀ (styles : Engine.ParsedStyles) (acc : Engine.EngineState)
      (prop : String) (val : Parsing.CssPropertyValue),
      (aKeys styles).Nodup → (prop, val) ∈ styles →
      aGetA ((styles.foldl (fun acc2 q =>
        Engine.setStyle acc2 sel0 q.1 q.2) acc)).activeStyles sel0 prop
        = some val := by
  intro styles
  induction styles with
  | nil => intro _ _ _ _ h; cases h
  | cons q rest ih =>
      intro acc prop val hnd hmem
      rw [List.foldl_cons]
      rcases List.mem_cons.mp hmem with hEq | hm
      · cases hEq
        rw [applyInner_active_other sel0 rest _ sel0 prop
          (Or.inr (fun q2 hq2 hk => (List.nodup_cons.mp hnd).1 (by
            have hmm : q2.1 ∈ aKeys rest := List.mem_map_of_mem Prod.fst hq2
            rw [hk] at hmm
            exact hmm)))]
        exact setStyle_active_self acc sel0 prop val
      · exact ih _ prop val (List.nodup_cons.mp hnd).2 hm

theorem applyFold_active_other (A : List (String × Engine.ParsedStyles)) :
    ∀ (acc : Engine.EngineState) (sel prop : String),
      (∀ p ∈ A, p.1 ≠ sel ∨ ∀ q ∈ p.2, q.1 ≠ prop) →
      aGetA ((A.foldl (fun acc p =>
        p.2.foldl (fun acc2 q => Engine.setStyle acc2 p.1 q.1 q.2) acc)
        acc)).activeStyles sel prop
        = aGetA acc.activeStyles sel prop := by
  induction A with
  | nil => intro _ _ _ _; rfl
  | cons p rest ih =>
      intro acc sel prop h
      rw [List.foldl_cons]
      rw [ih _ sel prop (fun p2 hp2 => h p2 (List.mem_cons_of_mem p hp2))]
      apply applyInner_active_other
      rcases h p (List.mem_cons_self p rest) with h1 | h1
      · exact Or.inl (fun hh => h1 hh.symm)
      · exact Or.inr h1

theorem applyFold_active_write (A : List (String × Engine.ParsedStyles)) :
    ∀ (acc : Engine.EngineState) (sel : String)
      (styles : Engine.ParsedStyles) (prop : String)
      (val : Parsing.CssPropertyValue),
      (aKeys A).Nodup → (∀ p ∈ A, (aKeys p.2).Nodup) →
      (sel, styles) ∈ A → (prop, val) ∈ styles →
      aGetA ((A.foldl (fun acc p =>
        p.2.foldl (fun acc2 q => Engine.setStyle acc2 p.1 q.1 q.2) acc)
        acc)).activeStyles sel prop = some val := by
  induction A with
  | nil => intro _ _ _ _ _ _ _ h; cases h
  | cons p rest ih =>
      intro acc sel styles prop val hnd hvnd hmem hqmem
      rw [List.foldl_cons]
      rcases List.mem_cons.mp hmem with hEq | hm
      · cases hEq
        rw [applyFold_active_other rest _ sel prop ?_]
        · exact applyInner_active_write sel styles acc prop val
            (hvnd (sel, styles) (List.mem_cons_self _ _)) hqmem
        · intro p2 hp2
          refine Or.inl ?_
          intro hk
          have hmm : p2.1 ∈ aKeys rest := List.mem_map_of_mem Prod.fst hp2
          rw [hk] at hmm
          exact (List.nodup_cons.mp hnd).1 hmm
      · exact ih _ sel styles prop val (List.nodup_cons.mp hnd).2
          (fun p2 hp2 => hvnd p2 (List.mem_cons_of_mem p hp2)) hm hqmem

theorem applyFold_active_none (A : List (String × Engine.ParsedStyles)) :
    ∀ (acc : Engine.EngineState) (sel prop : String),
      (∀ p ∈ A, p.1 ≠ sel ∨ ∀ q ∈ p.2, q.1 ≠ prop) →
      aGetA acc.activeStyles sel prop = none →
      aGetA ((A.foldl (fun acc p =>
        p.2.foldl (fun acc2 q => Engine.setStyle acc2 p.1 q.1 q.2) acc)
        acc)).activeStyles sel prop = none := by
  intro acc sel prop h hn
  rw [applyFold_active_other A acc sel prop h]
  exact hn

theorem applyInner_dom_other (sel0 : String) (styles : Engine.ParsedStyles) :
    ∀ (acc : Engine.EngineState) (k : Engine.Element × String),
      (∀ q ∈ styles, ∀ e2 ∈ Engine.targetListOf acc.allObjects sel0,
        k ≠ (e2, q.1)) →
      aGet ((styles.foldl (fun acc2 q =>
        Engine.setStyle acc2 sel0 q.1 q.2) acc)).dom k = aGet acc.dom k := by
  induction styles with
  | nil => intro _ _ _; rfl
  | cons q rest ih =>
      intro acc k h
      rw [List.foldl_cons]
      have hobj : (Engine.setStyle acc sel0 q.1 q.2).allObjects
          = acc.allObjects := rfl
      rw [ih _ k (fun q2 hq2 e2 he2 => h q2 (List.mem_cons_of_mem q hq2) e2
        (by rw [← hobj]; exact he2))]
      exact setStyle_dom_other acc sel0 q.1 q.2 k
        (fun e2 he2 => h q (List.mem_cons_self q rest) e2 he2)

theorem applyInner_dom_write (sel0 : String) :
    ∀ (styles : Engine.ParsedStyles) (acc : Engine.EngineState)
      (prop : String) (val : Parsing.CssPropertyValue)
      (e : Engine.Element),
      (aKeys styles).Nodup → (prop, val) ∈ styles →
      e ∈ Engine.targetListOf acc.allObjects sel0 →
      aGet ((styles.foldl (fun acc2 q =>
        Engine.setStyle acc2 sel0 q.1 q.2) acc)).dom (e, prop)
        = some (Parsing.stringifyParsedValue val) := by
  intro styles
  induction styles with
  | nil => intro _ _ _ _ _ h; cases h
  | cons q rest ih =>
      intro acc prop val e hnd hmem he
      rw [List.foldl_cons]
      rcases List.mem_cons.mp hmem with hEq | hm
      · cases hEq
        rw [applyInner_dom_other sel0 rest _ (e, prop) ?_]
        · exact setStyle_dom_write acc sel0 prop val e he
        · intro q2 hq2 e2 he2 hk
          injection hk with hk1 hk2
          exact (List.nodup_cons.mp hnd).1 (by
            have hmm : q2.1 ∈ aKeys rest := List.mem_map_of_mem Prod.fst hq2
            rw [← hk2] at hmm
            exact hmm)
      · exact ih _ prop val e (List.nodup_cons.mp hnd).2 hm
          (by
            have hobj : (Engine.setStyle acc sel0 q.1 q.2).allObjects
              = acc.allObjects := rfl
            rw [hobj]
            exact he)

theorem applyFold_dom_other (A : List (String × Engine.ParsedStyles)) :
    ∀ (acc : Engine.EngineState) (k : Engine.Element × String),
      (∀ p ∈ A, ∀ q ∈ p.2, ∀ e2 ∈ Engine.targetListOf acc.allObjects p.1,
        k ≠ (e2, q.1)) →
      aGet ((A.foldl (fun acc p =>
        p.2.foldl (fun acc2 q => Engine.setStyle acc2 p.1 q.1 q.2) acc)
        acc)).dom k = aGet acc.dom k := by
  induction A with
  | nil => intro _ _ _; rfl
  | cons p rest ih =>
      intro acc k h
      rw [List.foldl_cons]
      have hobj : ∀ sel2, Engine.targetListOf ((p.2.foldl (fun acc2 q =>
          Engine.setStyle acc2 p.1 q.1 q.2) acc)).allObjects sel2
          = Engine.targetListOf acc.allObjects sel2 := by
        intro sel2
        rw [(applyInner_sameCore p.1 p.2 acc).2.2.2.2.1]
      rw [ih _ k (fun p2 hp2 q2 hq2 e2 he2 =>
        h p2 (List.mem_cons_of_mem p hp2) q2 hq2 e2 (by
          rw [← hobj p2.1]; exact he2))]
      exact applyInner_dom_other p.1 p.2 acc k
        (fun q2 hq2 e2 he2 => h p (List.mem_cons_self p rest) q2 hq2 e2 he2)

theorem applyFold_dom_write (A : List (String × Engine.ParsedStyles)) :
    ∀ (acc : Engine.EngineState) (sel : String)
      (styles : Engine.ParsedStyles) (prop : String)
      (val : Parsing.CssPropertyValue) (e : Engine.Element),
      (aKeys A).Nodup → (∀ p ∈ A, (aKeys p.2).Nodup) →
      (∀ sel2 ∈ aKeys A, sel2 ≠ sel →
        ∀ e2 ∈ Engine.targetListOf acc.allObjects sel2, e2 ≠ e) →
      (sel, styles) ∈ A → (prop, val) ∈ styles →
      e ∈ Engine.targetListOf acc.allObjects sel →
      aGet ((A.foldl (fun acc p =>
        p.2.foldl (fun acc2 q => Engine.setStyle acc2 p.1 q.1 q.2) acc)
        acc)).dom (e, prop) = some (Parsing.stringifyParsedValue val) := by
  induction A with
  | nil => intro _ _ _ _ _ _ _ _ _ h; cases h
  | cons p rest ih =>
      intro acc sel styles prop val e hnd hvnd hdisj hmem hqmem he
      rw [List.foldl_cons]
      have hobjInner : ((p.2.foldl (fun acc2 q =>
          Engine.setStyle acc2 p.1 q.1 q.2) acc)).allObjects
          = acc.allObjects := (applyInner_sameCore p.1 p.2 acc).2.2.2.2.1
      rcases List.mem_cons.mp hmem with hEq | hm
      · cases hEq
        rw [applyFold_dom_other rest _ (e, prop) ?_]
        · exact applyInner_dom_write sel styles acc prop val e
            (hvnd (sel, styles) (List.mem_cons_self _ _)) hqmem he
        · intro p2 hp2 q2 hq2 e2 he2 hk
          injection hk with hk1 hk2
          have hsel2 : p2.1 ≠ sel := by
            intro hs
            exact (List.nodup_cons.mp hnd).1 (by
              have := List.mem_map_of_mem Prod.fst hp2
              rw [hs] at this
              exact this)
          refine hdisj p2.1 (List.mem_cons_of_mem _
            (List.mem_map_of_mem Prod.fst hp2)) hsel2 e2 ?_ hk1.symm
          rw [← hobjInner]
          exact he2
      · refine ih _ sel styles prop val e (List.nodup_cons.mp hnd).2
          (fun p2 hp2 => hvnd p2 (List.mem_cons_of_mem p hp2)) ?_ hm hqmem ?_
        · intro sel2 hsel2 hne e2 he2
          refine hdisj sel2 (List.mem_cons_of_mem _ hsel2) hne e2 ?_
          rw [← hobjInner]
          exact he2
        · rw [hobjInner]
          exact he

theorem foldl_congr_fn {α β : Type} {f g : α → β → α} :
    ∀ {l : List β} {acc : α}, (∀ a x, x ∈ l → f a x = g a x) →
      l.foldl f acc = l.foldl g acc := by
  intro l
  induction l with
  | nil => intro acc _; rfl
  | cons x xs ih =>
      intro acc h
      rw [List.foldl_cons, List.foldl_cons,
        h acc x (List.mem_cons_self x xs)]
      exact ih (fun a y hy => h a y (List.mem_cons_of_mem x hy))

theorem aKeys_aSet_sub {κ α : Type} [DecidableEq κ] {l : List (κ × α)}
    {k k0 : κ} {v : α} (h : k ∈ aKeys (aSet l k0 v)) :
    k ∈ aKeys l ∨ k = k0 := by
  rcases ho : aGet l k0 with _ | w
  · rw [aSet_of_aGet_none ho] at h
    rw [show aKeys (l ++ [(k0, v)]) = aKeys l ++ [k0] from by simp [aKeys]]
      at h
    rcases List.mem_append.mp h with h1 | h1
    · exact Or.inl h1
    · exact Or.inr (List.mem_singleton.mp h1)
  · rw [show aKeys (aSet l k0 v) = aKeys l from aKeys_aSet_of_some ho] at h
    exact Or.inl h

theorem foldl_aSet_nodup {κ α β : Type} [DecidableEq κ]
    (key : β → κ) (g : β → α) :
    ∀ (l : List β) (d : List (κ × α)), (aKeys d).Nodup →
      (aKeys (l.foldl (fun acc p => aSet acc (key p) (g p)) d)).Nodup := by
  intro l
  induction l with
  | nil => intro d h; exact h
  | cons x xs ih =>
      intro d h
      rw [List.foldl_cons]
      exact ih _ (aSet_nodup_keys h)

theorem aMerge_nodup_keys {κ α : Type} [DecidableEq κ]
    {base upd : List (κ × α)} (h : (aKeys base).Nodup) :
    (aKeys (aMerge base upd)).Nodup := by
  unfold aMerge
  induction upd generalizing base with
  | nil => exact h
  | cons x xs ih =>
      rw [List.foldl_cons]
      exact ih (aSet_nodup_keys h)

theorem completedFold_stNodup (time : ℚ) :
    ∀ (l : List (Engine.AnimationRule Engine.ParsedStyles))
      (st : List (String × Engine.ParsedStyles)),
      (aKeys st).Nodup → (∀ p ∈ st, (aKeys p.2).Nodup) →
      (aKeys (l.foldl (fun st r =>
        aSet st (Engine.selectorOf r)
          (aMerge ((aGet st (Engine.selectorOf r)).getD [])
            (Engine.getEndStyles r))) st)).Nodup ∧
      ∀ p ∈ (l.foldl (fun st r =>
        aSet st (Engine.selectorOf r)
          (aMerge ((aGet st (Engine.selectorOf r)).getD [])
            (Engine.getEndStyles r))) st), (aKeys p.2).Nodup := by
  intro l
  induction l with
  | nil => intro st h1 h2; exact ⟨h1, h2⟩
  | cons r rest ih =>
      intro st h1 h2
      rw [List.foldl_cons]
      have hbase : (aKeys ((aGet st (Engine.selectorOf r)).getD
          ([] : Engine.ParsedStyles))).Nodup := by
        cases hg : aGet st (Engine.selectorOf r) with
        | none => exact List.nodup_nil
        | some w => exact h2 (Engine.selectorOf r, w) (mem_of_aGet hg)
      have hv : (aKeys (aMerge ((aGet st (Engine.selectorOf r)).getD [])
          (Engine.getEndStyles r))).Nodup := aMerge_nodup_keys hbase
      refine ih _ (aSet_nodup_keys h1) ?_
      intro p hp
      rcases mem_aSet hp with hm | hEq
      · exact h2 p hm
      · rw [hEq]
        exact hv

theorem applyDynamicRule_stNodup (s : Engine.EngineState) (time dt : ℚ)
    (st : List (String × Engine.ParsedStyles))
    (r : Engine.AnimationRule Engine.ParsedStyles)
    (h1 : (aKeys st).Nodup) (h2 : ∀ p ∈ st, (aKeys p.2).Nodup) :
    (aKeys (Engine.applyDynamicRule s time dt st r)).Nodup ∧
    ∀ p ∈ Engine.applyDynamicRule s time dt st r, (aKeys p.2).Nodup := by
  cases r with
  | instant sel t st2 => exact ⟨h1, h2⟩
  | dynamic sel ts fromS toS =>
      obtain ⟨t0, t1⟩ := ts
      unfold Engine.applyDynamicRule
      dsimp only
      have hseed : (aKeys ((aGet st sel).getD
          ([] : Engine.ParsedStyles))).Nodup := by
        cases hg : aGet st sel with
        | none => exact List.nodup_nil
        | some w => exact h2 (sel, w) (mem_of_aGet hg)
      by_cases hdt : 0 < dt
      · rw [if_pos hdt]
        dsimp only
        have hv := foldl_aSet_nodup (fun p : String × Parsing.CssPropertyValue => p.1)
          (fun p => Engine.calculateNextCssValue
            ((aGet (Engine.stylesUnion fromS
              ((aGet s.activeStyles sel).getD [])) p.1).getD (.static ""))
            p.2 (qAbs (qDiv (qSub time (max s.currentTime t0))
              (qSub t1 (max s.currentTime t0)))))
          toS ((aGet st sel).getD []) hseed
        refine ⟨aSet_nodup_keys h1, ?_⟩
        intro p hp
        rcases mem_aSet hp with hm | hEq
        · exact h2 p hm
        · rw [hEq]
          exact hv
      · rw [if_neg hdt]
        dsimp only
        have hv := foldl_aSet_nodup (fun p : String × Parsing.CssPropertyValue => p.1)
          (fun p => Engine.calculateNextCssValue
            ((aGet (Engine.stylesUnion fromS
              ((aGet s.activeStyles sel).getD [])) p.1).getD (.static ""))
            p.2 (qAbs (qDiv (qSub time (min s.currentTime t1))
              (qSub (min s.currentTime t1) t0))))
          fromS ((aGet st sel).getD []) hseed
        refine ⟨aSet_nodup_keys h1, ?_⟩
        intro p hp
        rcases mem_aSet hp with hm | hEq
        · exact h2 p hm
        · rw [hEq]
          exact hv

theorem inprogFold_stNodup (s : Engine.EngineState) (time dt : ℚ) :
    ∀ (l : List (Engine.AnimationRule Engine.ParsedStyles))
      (st : List (String × Engine.ParsedStyles)),
      (aKeys st).Nodup → (∀ p ∈ st, (aKeys p.2).Nodup) →
      (aKeys (l.foldl (Engine.applyDynamicRule s time dt) st)).Nodup ∧
      ∀ p ∈ l.foldl (Engine.applyDynamicRule s time dt) st,
        (aKeys p.2).Nodup := by
  intro l
  induction l with
  | nil => intro st h1 h2; exact ⟨h1, h2⟩
  | cons r rest ih =>
      intro st h1 h2
      rw [List.foldl_cons]
      have h := applyDynamicRule_stNodup s time dt st r h1 h2
      exact ih _ h.1 h.2

theorem stylesStateAt_stNodup (s : Engine.EngineState) (time : ℚ) :
    (aKeys (Engine.stylesStateAt s time)).Nodup ∧
    ∀ p ∈ Engine.stylesStateAt s time, (aKeys p.2).Nodup := by
  unfold Engine.stylesStateAt Engine.completedState
  have h0 := completedFold_stNodup time (s.rules.filter (Engine.completedPred time))
    [] List.nodup_nil (fun p hp => absurd hp (List.not_mem_nil p))
  exact inprogFold_stNodup s time (qSub time s.currentTime) _ _ h0.1 h0.2

theorem applyDynamicRule_shape (s : Engine.EngineState) (time dt : ℚ)
    (st : List (String × Engine.ParsedStyles))
    (r : Engine.AnimationRule Engine.ParsedStyles) :
    Engine.applyDynamicRule s time dt st r = st ∨
    ∃ v, Engine.applyDynamicRule s time dt st r
      = aSet st (Engine.selectorOf r) v := by
  cases r with
  | instant sel t st2 => exact Or.inl rfl
  | dynamic sel ts fromS toS =>
      obtain ⟨t0, t1⟩ := ts
      unfold Engine.applyDynamicRule
      dsimp only
      by_cases hdt : 0 < dt
      · rw [if_pos hdt]
        exact Or.inr ⟨_, rfl⟩
      · rw [if_neg hdt]
        exact Or.inr ⟨_, rfl⟩

theorem applyDynamicRule_getOther (s : Engine.EngineState) (time dt : ℚ)
    (st : List (String × Engine.ParsedStyles))
    (r : Engine.AnimationRule Engine.ParsedStyles) (sel : String)
    (h : Engine.selectorOf r ≠ sel) :
    aGet (Engine.applyDynamicRule s time dt st r) sel = aGet st sel := by
  rcases applyDynamicRule_shape s time dt st r with hEq | ⟨v, hEq⟩
  · rw [hEq]
  · rw [hEq]
    exact aGet_aSet_ne _ _ _ _ (fun hh => h hh.symm)

theorem rulesFold_getOther (s : Engine.EngineState) (time dt : ℚ) :
    ∀ (l : List (Engine.AnimationRule Engine.ParsedStyles))
      (st : List (String × Engine.ParsedStyles)) (sel : String),
      (∀ r ∈ l, Engine.selectorOf r ≠ sel) →
      aGet (l.foldl (Engine.applyDynamicRule s time dt) st) sel
        = aGet st sel := by
  intro l
  induction l with
  | nil => intro st sel _; rfl
  | cons r rest ih =>
      intro st sel h
      rw [List.foldl_cons]
      rw [ih _ sel (fun r2 h2 => h r2 (List.mem_cons_of_mem r h2))]
      exact applyDynamicRule_getOther s time dt st r sel
        (h r (List.mem_cons_self r rest))

theorem foldl_keys_sub {κ α β : Type} [DecidableEq κ]
    (key : β → κ) (step : List (κ × α) → β → List (κ × α))
    (hstep : ∀ acc p, step acc p = acc ∨ ∃ v, step acc p = aSet acc (key p) v) :
    ∀ (l : List β) (d : List (κ × α)) (k : κ),
      k ∈ aKeys (l.foldl step d) → k ∈ aKeys d ∨ ∃ p ∈ l, key p = k := by
  intro l
  induction l with
  | nil => intro d k h; exact Or.inl h
  | cons x xs ih =>
      intro d k h
      rw [List.foldl_cons] at h
      rcases ih _ k h with h1 | ⟨p, hp, hk⟩
      · rcases hstep d x with hs | ⟨v, hs⟩
        · rw [hs] at h1
          exact Or.inl h1
        · rw [hs] at h1
          rcases aKeys_aSet_sub h1 with h2 | h2
          · exact Or.inl h2
          · exact Or.inr ⟨x, List.mem_cons_self x xs, h2.symm⟩
      · exact Or.inr ⟨p, List.mem_cons_of_mem x hp, hk⟩

theorem stylesStateAt_keys_sub (s : Engine.EngineState) (time : ℚ)
    (sel : String) (h : sel ∈ aKeys (Engine.stylesStateAt s time)) :
    ∃ r ∈ s.rules, Engine.selectorOf r = sel := by
  unfold Engine.stylesStateAt at h
  rcases foldl_keys_sub Engine.selectorOf _
    (fun acc r => applyDynamicRule_shape s time (qSub time s.currentTime) acc r)
    _ _ sel h with h1 | ⟨r, hr, hk⟩
  · unfold Engine.completedState at h1
    rcases foldl_keys_sub Engine.selectorOf
      (fun st r => aSet st (Engine.selectorOf r)
        (aMerge ((aGet st (Engine.selectorOf r)).getD [])
          (Engine.getEndStyles r)))
      (fun acc r => Or.inr ⟨_, rfl⟩) _ _ sel h1 with h2 | ⟨r, hr, hk⟩
    · cases h2
    · exact ⟨r, (List.mem_filter.mp hr).1, hk⟩
  · exact ⟨r, (List.mem_filter.mp hr).1, hk⟩

theorem applyDynamicRule_zero (s : Engine.EngineState) (time : ℚ)
    (st : List (String × Engine.ParsedStyles))
    (sel : String) (t0 t1 : ℚ) (fromS toS : Engine.ParsedStyles)
    (hcurr : s.currentTime = time) (ht1 : time ≤ t1) :
    Engine.applyDynamicRule s time (qSub time time) st
        (.dynamic sel (t0, t1) fromS toS)
      = aSet st sel (fromS.foldl (fun acc p =>
          aSet acc p.1 (Engine.calculateNextCssValue
            ((aGet (Engine.stylesUnion fromS
              ((aGet s.activeStyles sel).getD [])) p.1).getD (.static ""))
            p.2 0)) ((aGet st sel).getD [])) := by
  unfold Engine.applyDynamicRule
  dsimp only
  rw [if_neg (by rw [qSub_self]; exact lt_irrefl 0)]
  rw [hcurr, min_eq_left ht1, changeRate_self_zero]

theorem stylesStateAt_char (s : Engine.EngineState) (time : ℚ)
    (hcurr : s.currentTime = time)
    (hnd : ((s.rules.filter (Engine.inProgPred time)).map
      Engine.selectorOf).Nodup)
    (sel : String) (t0 t1 : ℚ) (fromS toS : Engine.ParsedStyles)
    (hr : (Engine.AnimationRule.dynamic sel (t0, t1) fromS toS)
      ∈ s.rules.filter (Engine.inProgPred time))
    (hfnd : (aKeys fromS).Nodup)
    (prop : String) (fv : Parsing.CssPropertyValue)
    (hmem : (prop, fv) ∈ fromS) :
    aGetA (Engine.stylesStateAt s time) sel prop
      = some (Engine.calculateNextCssValue
          ((aGet (Engine.stylesUnion fromS
            ((aGet s.activeStyles sel).getD [])) prop).getD (.static ""))
          fv 0) := by
  obtain ⟨l₁, l₂, hsplit⟩ := List.append_of_mem hr
  have hprog : Engine.inProgPred time
      (Engine.AnimationRule.dynamic sel (t0, t1) fromS toS) = true :=
    (List.mem_filter.mp hr).2
  have ht1 : time ≤ t1 := by
    unfold Engine.inProgPred at hprog
    exact (of_decide_eq_true hprog).2.2
  have hl2 : ∀ r2 ∈ l₂, Engine.selectorOf r2 ≠ sel := by
    intro r2 hr2 hk
    have hnd2 := hnd
    rw [hsplit, List.map_append, List.map_cons] at hnd2
    have h3 : (Engine.selectorOf
        (Engine.AnimationRule.dynamic sel (t0, t1) fromS toS)
          :: l₂.map Engine.selectorOf).Nodup :=
      List.Nodup.sublist (List.sublist_append_right _ _) hnd2
    have h4 : sel ∉ l₂.map Engine.selectorOf := (List.nodup_cons.mp h3).1
    apply h4
    rw [← hk]
    exact List.mem_map_of_mem Engine.selectorOf hr2
  unfold Engine.stylesStateAt
  rw [hsplit, List.foldl_append, List.foldl_cons, hcurr]
  rw [applyDynamicRule_zero s time _ sel t0 t1 fromS toS hcurr ht1]
  unfold aGetA
  rw [rulesFold_getOther s time _ l₂ _ sel hl2]
  rw [aGet_aSet_self]
  exact foldl_aSet_write
    (fun p : String × Parsing.CssPropertyValue =>
      Engine.calculateNextCssValue
        ((aGet (Engine.stylesUnion fromS
          ((aGet s.activeStyles sel).getD [])) p.1).getD (.static ""))
        p.2 0)
    (fun p : String × Parsing.CssPropertyValue => p.1)
    fromS _ (prop, fv) hmem
    (fun y hy hyk => unique_of_nodup_keys hfnd hy hmem hyk)
    hfnd

theorem removeStyle_active_nodup (s : Engine.EngineState) (sel prop : String)
    (h1 : (aKeys s.activeStyles).Nodup)
    (h2 : ∀ p ∈ s.activeStyles, (aKeys p.2).Nodup) :
    (aKeys (Engine.removeStyle s sel prop).activeStyles).Nodup ∧
    ∀ p ∈ (Engine.removeStyle s sel prop).activeStyles, (aKeys p.2).Nodup := by
  unfold Engine.removeStyle
  dsimp only
  cases hg : aGet s.activeStyles sel with
  | none => exact ⟨h1, h2⟩
  | some st =>
      refine ⟨aSet_nodup_keys h1, ?_⟩
      intro p hp
      rcases mem_aSet hp with hm | hEq
      · exact h2 p hm
      · rw [hEq]
        exact aDelete_nodup_keys (h2 (sel, st) (mem_of_aGet hg))

theorem setStyle_active_nodup (s : Engine.EngineState) (sel prop : String)
    (v : Parsing.CssPropertyValue)
    (h1 : (aKeys s.activeStyles).Nodup)
    (h2 : ∀ p ∈ s.activeStyles, (aKeys p.2).Nodup) :
    (aKeys (Engine.setStyle s sel prop v).activeStyles).Nodup ∧
    ∀ p ∈ (Engine.setStyle s sel prop v).activeStyles, (aKeys p.2).Nodup := by
  show (aKeys (aSet s.activeStyles sel
    (aSet ((aGet s.activeStyles sel).getD []) prop v))).Nodup ∧
    ∀ p ∈ aSet s.activeStyles sel
      (aSet ((aGet s.activeStyles sel).getD []) prop v), (aKeys p.2).Nodup
  refine ⟨aSet_nodup_keys h1, ?_⟩
  intro p hp
  rcases mem_aSet hp with hm | hEq
  · exact h2 p hm
  · rw [hEq]
    apply aSet_nodup_keys
    cases hg : aGet s.activeStyles sel with
    | none => exact List.nodup_nil
    | some st => exact h2 (sel, st) (mem_of_aGet hg)

theorem removalInner_active_nodup (A : List (String × Engine.ParsedStyles))
    (sel0 : String) (keys : List String) :
    ∀ acc : Engine.EngineState,
      (aKeys acc.activeStyles).Nodup →
      (∀ p ∈ acc.activeStyles, (aKeys p.2).Nodup) →
      (aKeys ((keys.foldl (fun acc2 k =>
        if (aGetA A sel0 k).isNone then Engine.removeStyle acc2 sel0 k
        else acc2) acc)).activeStyles).Nodup ∧
      ∀ p ∈ ((keys.foldl (fun acc2 k =>
        if (aGetA A sel0 k).isNone then Engine.removeStyle acc2 sel0 k
        else acc2) acc)).activeStyles, (aKeys p.2).Nodup := by
  induction keys with
  | nil => intro acc h1 h2; exact ⟨h1, h2⟩
  | cons k ks ih =>
      intro acc h1 h2
      rw [List.foldl_cons]
      by_cases hc : (aGetA A sel0 k).isNone
      · rw [if_pos hc]
        have h := removeStyle_active_nodup acc sel0 k h1 h2
        exact ih _ h.1 h.2
      · rw [if_neg hc]
        exact ih _ h1 h2

theorem removalFold_active_nodup (A : List (String × Engine.ParsedStyles))
    (pairs : List (String × Engine.ParsedStyles)) :
    ∀ acc : Engine.EngineState,
      (aKeys acc.activeStyles).Nodup →
      (∀ p ∈ acc.activeStyles, (aKeys p.2).Nodup) →
      (aKeys ((pairs.foldl (fun acc p =>
        (aKeys p.2).foldl (fun acc2 k =>
          if (aGetA A p.1 k).isNone then Engine.removeStyle acc2 p.1 k
          else acc2) acc) acc)).activeStyles).Nodup ∧
      ∀ p ∈ ((pairs.foldl (fun acc p =>
        (aKeys p.2).foldl (fun acc2 k =>
          if (aGetA A p.1 k).isNone then Engine.removeStyle acc2 p.1 k
          else acc2) acc) acc)).activeStyles, (aKeys p.2).Nodup := by
  induction pairs with
  | nil => intro acc h1 h2; exact ⟨h1, h2⟩
  | cons p rest ih =>
      intro acc h1 h2
      rw [List.foldl_cons]
      have h := removalInner_active_nodup A p.1 (aKeys p.2) acc h1 h2
      exact ih _ h.1 h.2

theorem applyInner_active_nodup (sel0 : String)
    (styles : Engine.ParsedStyles) :
    ∀ acc : Engine.EngineState,
      (aKeys acc.activeStyles).Nodup →
      (∀ p ∈ acc.activeStyles, (aKeys p.2).Nodup) →
      (aKeys ((styles.foldl (fun acc2 q =>
        Engine.setStyle acc2 sel0 q.1 q.2) acc)).activeStyles).Nodup ∧
      ∀ p ∈ ((styles.foldl (fun acc2 q =>
        Engine.setStyle acc2 sel0 q.1 q.2) acc)).activeStyles,
        (aKeys p.2).Nodup := by
  induction styles with
  | nil => intro acc h1 h2; exact ⟨h1, h2⟩
  | cons q rest ih =>
      intro acc h1 h2
      rw [List.foldl_cons]
      have h := setStyle_active_nodup acc sel0 q.1 q.2 h1 h2
      exact ih _ h.1 h.2

theorem applyFold_active_nodup (A : List (String × Engine.ParsedStyles)) :
    ∀ acc : Engine.EngineState,
      (aKeys acc.activeStyles).Nodup →
      (∀ p ∈ acc.activeStyles, (aKeys p.2).Nodup) →
      (aKeys ((A.foldl (fun acc p =>
        p.2.foldl (fun acc2 q => Engine.setStyle acc2 p.1 q.1 q.2) acc)
        acc)).activeStyles).Nodup ∧
      ∀ p ∈ ((A.foldl (fun acc p =>
        p.2.foldl (fun acc2 q => Engine.setStyle acc2 p.1 q.1 q.2) acc)
        acc)).activeStyles, (aKeys p.2).Nodup := by
  induction A with
  | nil => intro acc h1 h2; exact ⟨h1, h2⟩
  | cons p rest ih =>
      intro acc h1 h2
      rw [List.foldl_cons]
      have h := applyInner_active_nodup p.1 p.2 acc h1 h2
      exact ih _ h.1 h.2

theorem updateFrame_eq (time : ℚ) (s : Engine.EngineState) :
    Engine.updateFrame time s =
      { ((Engine.stylesStateAt s time).foldl (fun acc p =>
          p.2.foldl (fun acc2 q => Engine.setStyle acc2 p.1 q.1 q.2) acc)
          (s.activeStyles.foldl (fun acc p =>
            (aKeys p.2).foldl (fun acc2 k =>
              if (aGetA (Engine.stylesStateAt s time) p.1 k).isNone
              then Engine.removeStyle acc2 p.1 k
              else acc2) acc) s)) with
        currentTime := time, progress := qDiv time s.duration } := rfl

theorem updateFrame_fields (time : ℚ) (s : Engine.EngineState) :
    (Engine.updateFrame time s).rules = s.rules ∧
    (Engine.updateFrame time s).duration = s.duration ∧
    (Engine.updateFrame time s).allObjects = s.allObjects ∧
    (Engine.updateFrame time s).timestep = s.timestep ∧
    (Engine.updateFrame time s).playing = s.playing ∧
    (Engine.updateFrame time s).completed = s.completed ∧
    (Engine.updateFrame time s).currentTime = time ∧
    (Engine.updateFrame time s).progress = qDiv time s.duration := by
  rw [updateFrame_eq]
  have h1 := removalFold_sameCore (Engine.stylesStateAt s time)
    s.activeStyles s
  have h2 := applyFold_sameCore (Engine.stylesStateAt s time)
    (s.activeStyles.foldl (fun acc p =>
      (aKeys p.2).foldl (fun acc2 k =>
        if (aGetA (Engine.stylesStateAt s time) p.1 k).isNone
        then Engine.removeStyle acc2 p.1 k
        else acc2) acc) s)
  have h := sameCore_trans h2 h1
  exact ⟨h.1, h.2.2.1, h.2.2.2.2.1, h.2.2.2.1, h.2.2.2.2.2.2.1,
    h.2.2.2.2.2.1, rfl, rfl⟩

theorem updateFrame_active_write (time : ℚ) (s : Engine.EngineState)
    (sel : String) (styles : Engine.ParsedStyles) (prop : String)
    (val : Parsing.CssPropertyValue)
    (hmem : (sel, styles) ∈ Engine.stylesStateAt s time)
    (hqmem : (prop, val) ∈ styles) :
    aGetA (Engine.updateFrame time s).activeStyles sel prop = some val := by
  rw [updateFrame_eq]
  exact applyFold_active_write (Engine.stylesStateAt s time) _ sel styles
    prop val (stylesStateAt_stNodup s time).1 (stylesStateAt_stNodup s time).2
    hmem hqmem

theorem updateFrame_active_domain (time : ℚ) (s : Engine.EngineState)
    (sel prop : String)
    (h : aGetA (Engine.updateFrame time s).activeStyles sel prop ≠ none) :
    (aGetA (Engine.stylesStateAt s time) sel prop).isSome = true := by
  by_cases hA : (aGetA (Engine.stylesStateAt s time) sel prop).isSome = true
  · exact hA
  · exfalso
    apply h
    have hAn : aGetA (Engine.stylesStateAt s time) sel prop = none := by
      cases hx : aGetA (Engine.stylesStateAt s time) sel prop with
      | none => rfl
      | some w => rw [hx] at hA; exact absurd rfl hA
    rw [updateFrame_eq]
    apply applyFold_active_none
    · intro p hp
      by_cases hps : p.1 = sel
      · refine Or.inr ?_
        intro q hq hqk
        have hsome : aGetA (Engine.stylesStateAt s time) sel prop ≠ none := by
          unfold aGetA
          rw [show aGet (Engine.stylesStateAt s time) sel = some p.2 from by
            rw [← hps]
            exact aGet_eq_some_of_mem (stylesStateAt_stNodup s time).1
              (by rw [show (p.1, p.2) = p from rfl]; exact hp)]
          show aGet p.2 prop ≠ none
          apply aGet_some_of_mem_keys
          rw [← hqk]
          exact List.mem_map_of_mem Prod.fst hq
        exact absurd hAn hsome
      · exact Or.inl hps
    · -- removal pass: if prop present in s.activeStyles, it is removed
      cases hso : aGetA s.activeStyles sel prop with
      | none => exact removalFold_none _ _ _ sel prop hso
      | some w =>
          have hget : aGet s.activeStyles sel
              = some ((aGet s.activeStyles sel).getD []) := by
            unfold aGetA at hso
            cases hg : aGet s.activeStyles sel with
            | none =>
                rw [hg] at hso
                cases hso
            | some st => rfl
          apply removalFold_complete (Engine.stylesStateAt s time)
            s.activeStyles s sel ((aGet s.activeStyles sel).getD []) prop
            (mem_of_aGet hget)
          · unfold aGetA at hso
            exact List.mem_map_of_mem Prod.fst (mem_of_aGet hso)
          · rw [hAn]
            rfl

theorem updateFrame_dom_write (time : ℚ) (s : Engine.EngineState)
    (sel : String) (styles : Engine.ParsedStyles) (prop : String)
    (val : Parsing.CssPropertyValue) (e : Engine.Element)
    (hmem : (sel, styles) ∈ Engine.stylesStateAt s time)
    (hqmem : (prop, val) ∈ styles)
    (he : e ∈ Engine.targetListOf s.allObjects sel)
    (hdisj : ∀ sel2 ∈ aKeys (Engine.stylesStateAt s time), sel2 ≠ sel →
      ∀ e2 ∈ Engine.targetListOf s.allObjects sel2, e2 ≠ e) :
    aGet (Engine.updateFrame time s).dom (e, prop)
      = some (Parsing.stringifyParsedValue val) := by
  rw [updateFrame_eq]
  have hobj : ((s.activeStyles.foldl (fun acc p =>
      (aKeys p.2).foldl (fun acc2 k =>
        if (aGetA (Engine.stylesStateAt s time) p.1 k).isNone
        then Engine.removeStyle acc2 p.1 k
        else acc2) acc) s)).allObjects = s.allObjects :=
    (removalFold_sameCore _ _ _).2.2.2.2.1
  apply applyFold_dom_write (Engine.stylesStateAt s time) _ sel styles prop
    val e (stylesStateAt_stNodup s time).1 (stylesStateAt_stNodup s time).2
  · intro sel2 hsel2 hne e2 he2
    refine hdisj sel2 hsel2 hne e2 ?_
    rw [← hobj]
    exact he2
  · exact hmem
  · exact hqmem
  · rw [hobj]
    exact he

theorem updateFrame_active_nodup (time : ℚ) (s : Engine.EngineState)
    (h1 : (aKeys s.activeStyles).Nodup)
    (h2 : ∀ p ∈ s.activeStyles, (aKeys p.2).Nodup) :
    (aKeys (Engine.updateFrame time s).activeStyles).Nodup ∧
    ∀ p ∈ (Engine.updateFrame time s).activeStyles, (aKeys p.2).Nodup := by
  rw [updateFrame_eq]
  have hr := removalFold_active_nodup (Engine.stylesStateAt s time)
    s.activeStyles s h1 h2
  exact applyFold_active_nodup (Engine.stylesStateAt s time) _ hr.1 hr.2

theorem styleMapWf_nodup {m : Engine.ParsedStyles}
    (h : Engine.styleMapWf m = true) : (aKeys m).Nodup := by
  unfold Engine.styleMapWf at h
  rcases Bool.and_eq_true_iff.mp h with ⟨h1, _⟩
  rcases Bool.and_eq_true_iff.mp h1 with ⟨h2, _⟩
  exact of_decide_eq_true h2

theorem styleMapWf_valueWf {m : Engine.ParsedStyles}
    {p : String × Parsing.CssPropertyValue}
    (h : Engine.styleMapWf m = true) (hp : p ∈ m) :
    Engine.valueWf p.2 = true := by
  unfold Engine.styleMapWf at h
  rcases Bool.and_eq_true_iff.mp h with ⟨h1, _⟩
  rcases Bool.and_eq_true_iff.mp h1 with ⟨_, h2⟩
  exact List.all_eq_true.mp h2 p hp

theorem styleMapWf_transform {m : Engine.ParsedStyles}
    {fv : Parsing.CssPropertyValue}
    (h : Engine.styleMapWf m = true) (hg : aGet m "transform" = some fv) :
    ∃ tvs, fv = .transform tvs := by
  unfold Engine.styleMapWf at h
  rcases Bool.and_eq_true_iff.mp h with ⟨_, h2⟩
  rw [hg] at h2
  cases fv with
  | transform tvs => exact ⟨tvs, rfl⟩
  | numeric a => cases h2
  | static a => cases h2
  | color a => cases h2

theorem union_curr_stable (fromS st_v : Engine.ParsedStyles)
    (prop : String) (fv : Parsing.CssPropertyValue)
    (x : Parsing.CssPropertyValue)
    (hvnd : (aKeys st_v).Nodup)
    (hmem : (prop, fv) ∈ fromS)
    (hwfm : Engine.styleMapWf fromS = true)
    (hout : aGet st_v prop = some (Engine.calculateNextCssValue x fv 0)) :
    aGet (Engine.stylesUnion fromS st_v) prop
      = some (Engine.calculateNextCssValue x fv 0) := by
  have hfnd : (aKeys fromS).Nodup := styleMapWf_nodup hwfm
  unfold Engine.stylesUnion
  dsimp only
  by_cases hcond : (aGet fromS "transform").isSome
      ∧ (aGet st_v "transform").isSome
  · rw [if_pos hcond]
    by_cases hptr : prop = "transform"
    · subst hptr
      have hfget : aGet fromS "transform" = some fv :=
        aGet_eq_some_of_mem hfnd hmem
      obtain ⟨tvsf, rfl⟩ := styleMapWf_transform hwfm hfget
      have htnd : (aKeys tvsf).Nodup := by
        have := styleMapWf_valueWf hwfm hmem
        simpa [Engine.valueWf] using this
      rw [aGet_aSet_self]
      rw [hfget, hout]
      have hcalc : Engine.calculateNextCssValue x
          (Parsing.CssPropertyValue.transform tvsf) 0
          = Parsing.CssPropertyValue.transform
            (tvsf.foldl (fun acc q => aSet acc q.1
              (Engine.nextNumericValues ((aGet
                (Engine.transformValuesOf x) q.1).getD [])
                q.2 0)) []) := by
        cases x <;> rfl
      rw [hcalc]
      show some (Parsing.CssPropertyValue.transform (aMerge []
        (tvsf ++ tvsf.foldl (fun acc q => aSet acc q.1
          (Engine.nextNumericValues ((aGet
            (Engine.transformValuesOf x) q.1).getD [])
            q.2 0)) []))) = _
      congr 2
      have hT := foldl_aSet_fresh
        (fun q : String × List (ℚ × String) =>
          Engine.nextNumericValues ((aGet
            (Engine.transformValuesOf x) q.1).getD []) q.2 0)
        tvsf [] htnd (fun q _ => rfl)
      rw [List.nil_append] at hT
      simp only [] at hT
      rw [hT]
      unfold aMerge
      rw [List.foldl_append]
      rw [show (tvsf.foldl (fun acc p => aSet acc p.1 p.2) []) = tvsf from
        aMerge_nil_eq htnd]
      exact overwrite_same_keys _ tvsf htnd
    · rw [aGet_aSet_ne _ _ _ _ hptr]
      exact aGet_aMerge_of_nodup hvnd hout
  · rw [if_neg hcond]
    exact aGet_aMerge_of_nodup hvnd hout

theorem stylesStateAt_congr (s₀ v : Engine.EngineState) (time : ℚ)
    (hrules : v.rules = s₀.rules)
    (hc0 : s₀.currentTime = time) (hcv : v.currentTime = time)
    (hndsel : ((s₀.rules.filter (Engine.inProgPred time)).map
      Engine.selectorOf).Nodup)
    (hrwf : ∀ r ∈ s₀.rules, Engine.ruleWf r = true)
    (hvnodup : ∀ p ∈ v.activeStyles, (aKeys p.2).Nodup)
    (hE1 : ∀ sel prop w,
      aGetA (Engine.stylesStateAt s₀ time) sel prop = some w →
      aGetA v.activeStyles sel prop = some w) :
    Engine.stylesStateAt v time = Engine.stylesStateAt s₀ time := by
  unfold Engine.stylesStateAt
  rw [hrules, hcv, hc0]
  apply foldl_congr_fn
  intro st r hrmem
  cases r with
  | instant sel t st2 => rfl
  | dynamic sel ts fromS toS =>
      obtain ⟨t0, t1⟩ := ts
      have hprog : Engine.inProgPred time
          (Engine.AnimationRule.dynamic sel (t0, t1) fromS toS) = true :=
        (List.mem_filter.mp hrmem).2
      have ht1 : time ≤ t1 := by
        unfold Engine.inProgPred at hprog
        exact (of_decide_eq_true hprog).2.2
      have hrl : (Engine.AnimationRule.dynamic sel (t0, t1) fromS toS)
          ∈ s₀.rules := (List.mem_filter.mp hrmem).1
      have hwfm : Engine.styleMapWf fromS = true := by
        have := hrwf _ hrl
        unfold Engine.ruleWf at this
        exact (Bool.and_eq_true_iff.mp this).1
      have hfnd : (aKeys fromS).Nodup := styleMapWf_nodup hwfm
      rw [applyDynamicRule_zero v time st sel t0 t1 fromS toS hcv ht1]
      rw [applyDynamicRule_zero s₀ time st sel t0 t1 fromS toS hc0 ht1]
      congr 1
      apply foldl_congr_fn
      intro acc p hpmem
      congr 1
      have hchar := stylesStateAt_char s₀ time hc0 hndsel sel t0 t1 fromS
        toS hrmem hfnd p.1 p.2
        (by rw [show (p.1, p.2) = p from rfl]; exact hpmem)
      have hE := hE1 sel p.1 _ hchar
      unfold aGetA at hE
      have hvnd : (aKeys ((aGet v.activeStyles sel).getD
          ([] : Engine.ParsedStyles))).Nodup := by
        cases hg : aGet v.activeStyles sel with
        | none => exact List.nodup_nil
        | some st2 => exact hvnodup (sel, st2) (mem_of_aGet hg)
      have hu := union_curr_stable fromS ((aGet v.activeStyles sel).getD [])
        p.1 p.2 _ hvnd
        (by rw [show (p.1, p.2) = p from rfl]; exact hpmem) hwfm hE
      rw [hu]
      show Engine.calculateNextCssValue
          (Engine.calculateNextCssValue
            ((aGet (Engine.stylesUnion fromS
              ((aGet s₀.activeStyles sel).getD [])) p.1).getD (.static ""))
            p.2 0) p.2 0 = _
      rw [calc_zero_idem _ p.2 (styleMapWf_valueWf hwfm hpmem)]

theorem setStyle_self (s : Engine.EngineState) (sel prop : String)
    (val : Parsing.CssPropertyValue) (st : Engine.ParsedStyles)
    (hact : aGet s.activeStyles sel = some st)
    (hprop : aGet st prop = some val)
    (hdom : ∀ e ∈ Engine.targetListOf s.allObjects sel,
      aGet s.dom (e, prop) = some (Parsing.stringifyParsedValue val)) :
    Engine.setStyle s sel prop val = s := by
  unfold Engine.setStyle
  dsimp only
  rw [hact]
  show { s with
      dom := match aGet s.allObjects sel with
        | some (.inl e) =>
            aSet s.dom (e, prop) (Parsing.stringifyParsedValue val)
        | some (.inr es) => es.foldl (fun d e =>
            aSet d (e, prop) (Parsing.stringifyParsedValue val)) s.dom
        | none => s.dom,
      activeStyles := aSet s.activeStyles sel (aSet st prop val) } = s
  rw [aSet_eq_of_aGet hprop, aSet_eq_of_aGet hact]
  have hdomEq : (match aGet s.allObjects sel with
      | some (.inl e) =>
          aSet s.dom (e, prop) (Parsing.stringifyParsedValue val)
      | some (.inr es) => es.foldl (fun d e =>
          aSet d (e, prop) (Parsing.stringifyParsedValue val)) s.dom
      | none => s.dom) = s.dom := by
    cases hg : aGet s.allObjects sel with
    | none => rfl
    | some t =>
        cases t with
        | inl e =>
            apply aSet_eq_of_aGet
            apply hdom
            unfold Engine.targetListOf
            rw [hg]
            exact List.mem_singleton.mpr rfl
        | inr es =>
            apply foldl_id_of_fix
            intro e he
            apply aSet_eq_of_aGet
            apply hdom
            unfold Engine.targetListOf
            rw [hg]
            exact he
  rw [hdomEq]

theorem engineState_eta (s : Engine.EngineState) (t pr : ℚ)
    (ht : s.currentTime = t) (hp : s.progress = pr) :
    { s with currentTime := t, progress := pr } = s := by
  subst ht
  subst hp
  rfl

theorem updateFrame_stable (time : ℚ) (v : Engine.EngineState)
    (hct : v.currentTime = time)
    (hpr : v.progress = qDiv time v.duration)
    (hrem : ∀ p ∈ v.activeStyles, ∀ k ∈ aKeys p.2,
      (aGetA (Engine.stylesStateAt v time) p.1 k).isNone = false)
    (hset : ∀ p ∈ Engine.stylesStateAt v time, ∀ q ∈ p.2,
      Engine.setStyle v p.1 q.1 q.2 = v) :
    Engine.updateFrame time v = v := by
  rw [updateFrame_eq]
  have h1 : (v.activeStyles.foldl (fun acc p =>
      (aKeys p.2).foldl (fun acc2 k =>
        if (aGetA (Engine.stylesStateAt v time) p.1 k).isNone
        then Engine.removeStyle acc2 p.1 k
        else acc2) acc) v) = v := by
    apply foldl_id_of_fix
    intro p hp
    apply foldl_id_of_fix
    intro k hk
    rw [hrem p hp k hk]
    rfl
  rw [h1]
  have h2 : ((Engine.stylesStateAt v time).foldl (fun acc p =>
      p.2.foldl (fun acc2 q =>
        Engine.setStyle acc2 p.1 q.1 q.2) acc) v) = v := by
    apply foldl_id_of_fix
    intro p hp
    apply foldl_id_of_fix
    intro q hq
    exact hset p hp q hq
  rw [h2]
  exact engineState_eta v time (qDiv time v.duration) hct hpr

theorem applyDynamicRule_ext (a b : Engine.EngineState) (time d : ℚ)
    (hc : a.currentTime = b.currentTime)
    (ha : a.activeStyles = b.activeStyles)
    (st : List (String × Engine.ParsedStyles))
    (r : Engine.AnimationRule Engine.ParsedStyles) :
    Engine.applyDynamicRule a time d st r
      = Engine.applyDynamicRule b time d st r := by
  cases r with
  | instant sel t st2 => rfl
  | dynamic sel ts fromS toS =>
      obtain ⟨t0, t1⟩ := ts
      unfold Engine.applyDynamicRule
      rw [hc, ha]

theorem stylesStateAt_ext (a b : Engine.EngineState) (time : ℚ)
    (hr : a.rules = b.rules)
    (hc : a.currentTime = b.currentTime)
    (ha : a.activeStyles = b.activeStyles) :
    Engine.stylesStateAt a time = Engine.stylesStateAt b time := by
  unfold Engine.stylesStateAt
  rw [hr, hc]
  exact foldl_congr_fn
    (fun st r _ => applyDynamicRule_ext a b time _ hc ha st r)

theorem frameWf_ext (a b : Engine.EngineState) (time : ℚ)
    (hr : a.rules = b.rules)
    (ha : a.activeStyles = b.activeStyles)
    (ho : a.allObjects = b.allObjects) :
    Engine.frameWf a time = Engine.frameWf b time := by
  unfold Engine.frameWf Engine.rulesDisjoint
  rw [hr, ha, ho]

theorem updateFrame_restable (time : ℚ) (s₀ v' : Engine.EngineState)
    (hc0 : s₀.currentTime = time)
    (hwf : Engine.frameWf s₀ time = true)
    (hrules : v'.rules = s₀.rules)
    (hactive : v'.activeStyles = (Engine.updateFrame time s₀).activeStyles)
    (hdomf : v'.dom = (Engine.updateFrame time s₀).dom)
    (hobj : v'.allObjects = s₀.allObjects)
    (hct : v'.currentTime = time)
    (hdur : v'.duration = s₀.duration)
    (hpr : v'.progress = qDiv time s₀.duration) :
    Engine.updateFrame time v' = v' := by
  unfold Engine.frameWf at hwf
  rcases Bool.and_eq_true_iff.mp hwf with ⟨hwf1, hnds⟩
  rcases Bool.and_eq_true_iff.mp hwf1 with ⟨hwf2, hdisj⟩
  rcases Bool.and_eq_true_iff.mp hwf2 with ⟨hwf3, hrwf⟩
  rcases Bool.and_eq_true_iff.mp hwf3 with ⟨hnd1, hnd2⟩
  have hndA : (aKeys s₀.activeStyles).Nodup := of_decide_eq_true hnd1
  have hndB : ∀ p ∈ s₀.activeStyles, (aKeys p.2).Nodup := by
    intro p hp
    exact of_decide_eq_true (List.all_eq_true.mp hnd2 p hp)
  have hrwf' : ∀ r ∈ s₀.rules, Engine.ruleWf r = true :=
    fun r hr => List.all_eq_true.mp hrwf r hr
  have hndsel : ((s₀.rules.filter (Engine.inProgPred time)).map
      Engine.selectorOf).Nodup := of_decide_eq_true hnds
  have hvnodup := updateFrame_active_nodup time s₀ hndA hndB
  have hssa : Engine.stylesStateAt v' time = Engine.stylesStateAt s₀ time := by
    apply stylesStateAt_congr s₀ v' time hrules hc0 hct hndsel hrwf'
    · intro p hp
      rw [hactive] at hp
      exact hvnodup.2 p hp
    · intro sel prop w hw
      rw [hactive]
      unfold aGetA at hw
      cases hg : aGet (Engine.stylesStateAt s₀ time) sel with
      | none =>
          rw [hg] at hw
          cases hw
      | some styles =>
          rw [hg] at hw
          exact updateFrame_active_write time s₀ sel styles prop w
            (mem_of_aGet hg) (mem_of_aGet hw)
  apply updateFrame_stable time v' hct (by rw [hdur]; exact hpr)
  · intro p hp k hk
    rw [hssa]
    have hg2 : aGet (Engine.updateFrame time s₀).activeStyles p.1
        = some p.2 := by
      rw [← hactive]
      apply aGet_eq_some_of_mem _ hp
      rw [hactive]
      exact hvnodup.1
    have hne : aGetA (Engine.updateFrame time s₀).activeStyles p.1 k
        ≠ none := by
      unfold aGetA
      rw [hg2]
      exact aGet_some_of_mem_keys hk
    have := updateFrame_active_domain time s₀ p.1 k hne
    cases hx : aGetA (Engine.stylesStateAt s₀ time) p.1 k with
    | none => rw [hx] at this; cases this
    | some w => rfl
  · intro p hp q hq
    rw [hssa] at hp
    have hE1 : aGetA (Engine.updateFrame time s₀).activeStyles p.1 q.1
        = some q.2 :=
      updateFrame_active_write time s₀ p.1 p.2 q.1 q.2 hp hq
    unfold aGetA at hE1
    cases hg : aGet (Engine.updateFrame time s₀).activeStyles p.1 with
    | none =>
        rw [hg] at hE1
        cases hE1
    | some st =>
        rw [hg] at hE1
        apply setStyle_self v' p.1 q.1 q.2 st
        · rw [hactive]
          exact hg
        · exact hE1
        · intro e he
          rw [hobj] at he
          rw [hdomf]
          apply updateFrame_dom_write time s₀ p.1 p.2 q.1 q.2 e hp hq he
          intro sel2 hsel2 hne2 e2 he2
          rcases stylesStateAt_keys_sub s₀ time sel2 hsel2 with
            ⟨r2, hr2, hk2⟩
          rcases stylesStateAt_keys_sub s₀ time p.1
            (List.mem_map_of_mem Prod.fst hp) with ⟨r1, hr1, hk1⟩
          have hdd := List.all_eq_true.mp
            (List.all_eq_true.mp hdisj r1 hr1) r2 hr2
          rw [hk1, hk2] at hdd
          cases Bool.or_eq_true_iff.mp hdd with
          | inl hss => exact absurd (of_decide_eq_true hss).symm hne2
          | inr hall =>
              intro hee
              subst hee
              exact of_decide_eq_true
                (List.all_eq_true.mp hall e2 he) he2

theorem pause_eq_self (s : Engine.EngineState) (h : s.playing = false) :
    Engine.pause s = s := by
  unfold Engine.pause
  rw [← h]

theorem pause_pause (s : Engine.EngineState) :
    Engine.pause (Engine.pause s) = Engine.pause s := rfl

theorem completed_eta (s : Engine.EngineState) (b : Bool)
    (h : s.completed = b) : { s with completed := b } = s := by
  rw [← h]

theorem seek_eq (p : ℚ) (s : Engine.EngineState) :
    Engine.seek p s =
      if s.rules.isEmpty then Engine.pause s
      else { Engine.updateFrame
          (jsRound (qMul (max 0 (min p 1)) s.duration))
          (Engine.pause s) with
          completed := decide (max 0 (min p 1) = 1) } := rfl

theorem seek_fields_ne (p : ℚ) (s : Engine.EngineState)
    (h : s.rules.isEmpty = false) :
    (Engine.seek p s).rules = s.rules ∧
    (Engine.seek p s).duration = s.duration ∧
    (Engine.seek p s).currentTime
      = jsRound (qMul (max 0 (min p 1)) s.duration) := by
  rw [seek_eq, h]
  simp only [Bool.false_eq_true, if_false]
  have hf := updateFrame_fields
    (jsRound (qMul (max 0 (min p 1)) s.duration)) (Engine.pause s)
  exact ⟨hf.1, hf.2.1, hf.2.2.2.2.2.2.1⟩

theorem seek_stable (p : ℚ) (w : Engine.EngineState)
    (hne : w.rules.isEmpty = false)
    (hct : w.currentTime = jsRound (qMul (max 0 (min p 1)) w.duration))
    (hwf : Engine.frameWf w
      (jsRound (qMul (max 0 (min p 1)) w.duration)) = true) :
    Engine.seek p (Engine.seek p w) = Engine.seek p w := by
  have hy : Engine.seek p w =
      { Engine.updateFrame (jsRound (qMul (max 0 (min p 1)) w.duration))
          (Engine.pause w) with
          completed := decide (max 0 (min p 1) = 1) } := by
    rw [seek_eq, hne]
    simp only [Bool.false_eq_true, if_false]
  have hfv := updateFrame_fields
    (jsRound (qMul (max 0 (min p 1)) w.duration)) (Engine.pause w)
  have hyr : (Engine.seek p w).rules = w.rules := by
    rw [hy]; exact hfv.1
  have hyd : (Engine.seek p w).duration = w.duration := by
    rw [hy]; exact hfv.2.1
  have hyp : (Engine.seek p w).playing = false := by
    rw [hy]; exact hfv.2.2.2.2.1
  rw [seek_eq p (Engine.seek p w), hyr, hne]
  simp only [Bool.false_eq_true, if_false]
  rw [hyd]
  rw [pause_eq_self _ hyp]
  have hstable : Engine.updateFrame
      (jsRound (qMul (max 0 (min p 1)) w.duration))
      (Engine.seek p w) = Engine.seek p w := by
    apply updateFrame_restable _ (Engine.pause w) _ hct hwf
    · rw [hy]; exact hfv.1
    · rw [hy]
    · rw [hy]
    · rw [hy]; exact hfv.2.2.1
    · rw [hy]; exact hfv.2.2.2.2.2.2.1
    · rw [hy]; exact hfv.2.1
    · rw [hy]; exact hfv.2.2.2.2.2.2.2
  rw [hstable]
  apply completed_eta
  rw [hy]

/-- Counterexample to the literal claim: `seek(0.5)` on the defined
single-rule engine writes opacity `"1"` to the layer element (the parsed
styles are static, so the interpolator copies the `to` string at the
midpoint), while a second `seek(0.5)` rewrites it to `"0"`: the second
pass sees `currentTime` already at the target, takes the backward branch
and snaps every static style to its `from` copy, so the DOM state after
two seeks differs from the state after one. -/
theorem seek_not_idempotent_counterexample :
    aGet (Engine.seek (mkRat 1 2) Cases.definedPlain).dom (1, "opacity")
      = some "1" ∧
    aGet (Engine.seek (mkRat 1 2)
      (Engine.seek (mkRat 1 2) Cases.definedPlain)).dom (1, "opacity")
      = some "0" := by
  set_option maxRecDepth 40000 in decide

/-- C5 (amended): `seek(p)` is not idempotent — the first repetition can
still change the DOM, because the backward zero-delta pass snaps styles to
their `from` copies — but it stabilizes from the second call on: for every
engine state and every `p`, a third `seek(p)` leaves the DOM, the
active-styles cache and every other engine field exactly as the second
left them, provided the state reached after the first `seek(p)` is
well-formed at the target time (duplicate-free caches, well-formed
disjoint rules). -/
theorem seek_third_equals_second (p : ℚ) (s : Engine.EngineState)
    (hwf : Engine.frameWf (Engine.seek p s)
      (jsRound (qMul (max 0 (min p 1)) s.duration)) = true) :
    Engine.seek p (Engine.seek p (Engine.seek p s))
      = Engine.seek p (Engine.seek p s) := by
  cases hr : s.rules.isEmpty with
  | true =>
      have h1 : Engine.seek p s = Engine.pause s := by
        rw [seek_eq, hr]
        simp only [if_true]
      have h2 : Engine.seek p (Engine.pause s) = Engine.pause s := by
        rw [seek_eq]
        rw [show (Engine.pause s).rules = s.rules from rfl, hr]
        simp only [if_true]
        exact pause_pause s
      rw [h1, h2, h2]
  | false =>
      have hsf := seek_fields_ne p s hr
      apply seek_stable
      · rw [hsf.1]; exact hr
      · rw [hsf.2.1]; exact hsf.2.2
      · rw [hsf.2.1]; exact hwf

/-- The stabilization theorem applied to the concrete single-rule engine
at `p = 1/2`: the well-formedness hypothesis evaluates to `true` and the
third seek reproduces the second. -/
theorem seek_third_equals_second_witness :
    Engine.seek (mkRat 1 2) (Engine.seek (mkRat 1 2)
      (Engine.seek (mkRat 1 2) Cases.definedPlain))
      = Engine.seek (mkRat 1 2)
        (Engine.seek (mkRat 1 2) Cases.definedPlain) :=
  seek_third_equals_second (mkRat 1 2) Cases.definedPlain
    (by set_option maxRecDepth 40000 in decide)
